import Mathlib

/-!
# SHA-256 (`bkh::sha256`) : a shallow embedding and its verification

The definitions below transcribe `src/sha256.h` and `src/sha256.cpp`.

Conventions of the embedding:

* The machine types `byte`, `word` and `u64` are all `Nat`; every C++ operation
  on them is followed by the reduction modulo `2^8`, `2^32` or `2^64` that the
  machine type performs.  A value is *well formed* when it is below that bound.
* An array (`word state[8]`, `word W[64]`, `byte buf[64]`, a caller's buffer) is
  a `List`; `a[i] = v` is `List.set`, a read `a[i]` is `List.getD a i 0`.
* The host is little-endian (`BYTE_ORDER == LITTLE_ENDIAN`, the branch the source
  selects on Windows and whenever the byte order is unknown).
* A `for` loop is `for_loop`; a `while (p != end)` loop that the source bounds by
  a count is a recursion on that count; the block loop of `compute_hash`, whose
  exit test is a pointer comparison, carries fuel and returns `none` when the
  fuel is exhausted before the pointers meet.
* Memory is read as bytes: a load sees every earlier store, whatever the types
  of the two accesses. The source stores the length through a `u64*` and loads
  the block through a `word const*`, which the aliasing rule of the language
  leaves undefined; `compute_hash_as_loaded` is the run with the visibility of
  that store as a parameter.
-/

namespace Sha256

/-! ## Types and constants of `sha256.h` -/

def block_length : Nat := 512 / 8
def digest_length : Nat := 256 / 8
def max_message_length : Nat := 0x2000000000000000

/-- The loop `for (int t = lo; t < hi; t++) s = body(t, s);`. -/
def for_loop {σ : Type} (lo hi : Nat) (body : Nat → σ → σ) (s : σ) : σ :=
  (List.range' lo (hi - lo)).foldl (fun acc t => body t acc) s

/-! ## Operations defined for SHA-256 -/

/-- Discards the right-most n bits of the word (`static_cast<word>(x >> n)`). -/
def right_shift (x : Nat) (n : Nat) : Nat := (x >>> n) % 2 ^ 32

/-- Discards the left-most n bits of the word (`static_cast<word>(x << n)`). -/
def left_shift (x : Nat) (n : Nat) : Nat := (x <<< n) % 2 ^ 32

def bitwise_and (lhs rhs : Nat) : Nat := lhs &&& rhs

def bitwise_or (lhs rhs : Nat) : Nat := lhs ||| rhs

def bitwise_xor (lhs rhs : Nat) : Nat := lhs ^^^ rhs

/-- The complement `~x` of a 32-bit word. -/
def bitwise_complement (x : Nat) : Nat := 0xFFFFFFFF ^^^ x

/-- Rotate right: `bitwise_or(right_shift(x, n), left_shift(x, w - n))`; the
difference `w - n` is an `int` converted to `byte`, hence taken modulo 256. -/
def right_rotate (x : Nat) (n : Nat) : Nat :=
  let w : Nat := 4 * 8
  let rs := right_shift x n
  let ls := left_shift x ((w + 256 - n) % 256)
  bitwise_or rs ls

/-! ## Functions defined for SHA-256 -/

/-- Ch -/
def F0 (x y z : Nat) : Nat :=
  let l := bitwise_and x y
  let r := bitwise_and (bitwise_complement x) z
  bitwise_xor l r

/-- Maj -/
def F1 (x y z : Nat) : Nat :=
  let t0 := bitwise_and x y
  let t1 := bitwise_and x z
  let t2 := bitwise_and y z
  bitwise_xor (bitwise_xor t0 t1) t2

/-- Sigma0 -/
def F2 (x : Nat) : Nat :=
  let t0 := right_rotate x 2
  let t1 := right_rotate x 13
  let t2 := right_rotate x 22
  bitwise_xor (bitwise_xor t0 t1) t2

/-- Sigma1 -/
def F3 (x : Nat) : Nat :=
  let t0 := right_rotate x 6
  let t1 := right_rotate x 11
  let t2 := right_rotate x 25
  bitwise_xor (bitwise_xor t0 t1) t2

/-- sigma0 -/
def F4 (x : Nat) : Nat :=
  let t0 := right_rotate x 7
  let t1 := right_rotate x 18
  let t2 := right_shift x 3
  bitwise_xor (bitwise_xor t0 t1) t2

/-- sigma1 -/
def F5 (x : Nat) : Nat :=
  let t0 := right_rotate x 17
  let t1 := right_rotate x 19
  let t2 := right_shift x 10
  bitwise_xor (bitwise_xor t0 t1) t2

/-! ## Constants defined for SHA-256 -/

def sha256_hash_constants : List Nat :=
  [ 0x428A2F98, 0x71374491, 0xB5C0FBCF, 0xE9B5DBA5,
    0x3956C25B, 0x59F111F1, 0x923F82A4, 0xAB1C5ED5,
    0xD807AA98, 0x12835B01, 0x243185BE, 0x550C7DC3,
    0x72BE5D74, 0x80DEB1FE, 0x9BDC06A7, 0xC19BF174,
    0xE49B69C1, 0xEFBE4786, 0x0FC19DC6, 0x240CA1CC,
    0x2DE92C6F, 0x4A7484AA, 0x5CB0A9DC, 0x76F988DA,
    0x983E5152, 0xA831C66D, 0xB00327C8, 0xBF597FC7,
    0xC6E00BF3, 0xD5A79147, 0x06CA6351, 0x14292967,
    0x27B70A85, 0x2E1B2138, 0x4D2C6DFC, 0x53380D13,
    0x650A7354, 0x766A0ABB, 0x81C2C92E, 0x92722C85,
    0xA2BFE8A1, 0xA81A664B, 0xC24B8B70, 0xC76C51A3,
    0xD192E819, 0xD6990624, 0xF40E3585, 0x106AA070,
    0x19A4C116, 0x1E376C08, 0x2748774C, 0x34B0BCB5,
    0x391C0CB3, 0x4ED8AA4A, 0x5B9CCA4F, 0x682E6FF3,
    0x748F82EE, 0x78A5636F, 0x84C87814, 0x8CC70208,
    0x90BEFFFA, 0xA4506CEB, 0xBEF9A3F7, 0xC67178F2 ]

def sha256_initial_hash_value : List Nat :=
  [ 0x6A09E667, 0xBB67AE85, 0x3C6EF372, 0xA54FF53A,
    0x510E527F, 0x9B05688C, 0x1F83D9AB, 0x5BE0CD19 ]

/-! ## Helpers -/

/-- The addition of two `word`s (unsigned 32-bit, wrapping). -/
def add32 (x y : Nat) : Nat := (x + y) % 2 ^ 32

/-- The native load `reinterpret_cast<word const*>(data)[t]` on the little-endian
host: the byte at the lowest address is the least significant. -/
def load_word (data : List Nat) (t : Nat) : Nat :=
  data.getD (4 * t) 0 + 2 ^ 8 * data.getD (4 * t + 1) 0
    + 2 ^ 16 * data.getD (4 * t + 2) 0 + 2 ^ 24 * data.getD (4 * t + 3) 0

/-- The native store `*reinterpret_cast<u64*>(ptr) = v` on the little-endian
host, `ptr` being offset `p` of the buffer. -/
def store_u64 (buf : List Nat) (p : Nat) (v : Nat) : List Nat :=
  for_loop 0 8 (fun j b => b.set (p + j) ((v >>> (8 * j)) % 256)) buf

/-- The copy loop `for (u64 i = 0; i < count; i++) dst[i] = src[i];`. -/
def unsafe_copy (dst src : List Nat) (count : Nat) : List Nat :=
  for_loop 0 count (fun i d => d.set i (src.getD i 0)) dst

/-- Writes an unsigned 64-bit value at offset `ptr` of the buffer: the value
is byte-swapped with masks and shifts, then stored natively. -/
def write_be_u64 (buf : List Nat) (ptr : Nat) (value : Nat) : List Nat :=
  store_u64 buf ptr
    ((((value &&& 0x00000000000000FF) <<< 56) % 2 ^ 64) |||
     (((value &&& 0x000000000000FF00) <<< 40) % 2 ^ 64) |||
     (((value &&& 0x0000000000FF0000) <<< 24) % 2 ^ 64) |||
     (((value &&& 0x00000000FF000000) <<< 8) % 2 ^ 64) |||
     ((value &&& 0x000000FF00000000) >>> 8) |||
     ((value &&& 0x0000FF0000000000) >>> 24) |||
     ((value &&& 0x00FF000000000000) >>> 40) |||
     ((value &&& 0xFF00000000000000) >>> 56))

/-- The loop `while (p != end) *(p++) = 0;` entered with `end = p + zeroes`:
returns the buffer and the final `p`. -/
def zero_fill (buf : List Nat) (p : Nat) : Nat → List Nat × Nat
  | 0 => (buf, p)
  | zeroes + 1 => zero_fill (buf.set p 0) (p + 1) zeroes

/-! ## Implementation -/

/-- The method `sha256_context::init` : copies the initial hash value over the state. -/
def init (state : List Nat) : List Nat :=
  let count := 8
  for_loop 0 count (fun i st => st.set i (sha256_initial_hash_value.getD i 0)) state

/-- The eight working variables `a .. h` of `transform_block`. -/
structure Vars where
  a : Nat
  b : Nat
  c : Nat
  d : Nat
  e : Nat
  f : Nat
  g : Nat
  h : Nat
deriving DecidableEq, Repr

/-- One iteration of the main loop of `transform_block`. -/
def round (W : List Nat) (t : Nat) (v : Vars) : Vars :=
  let T1 := add32 (add32 (add32 (add32 v.h (F3 v.e)) (F0 v.e v.f v.g))
              (sha256_hash_constants.getD t 0)) (W.getD t 0)
  let T2 := add32 (F2 v.a) (F1 v.a v.b v.c)
  { h := v.g, g := v.f, f := v.e, e := add32 v.d T1,
    d := v.c, c := v.b, b := v.a, a := add32 T1 T2 }

/-- The message schedule `W` as `transform_block` prepares it (the array starts
out uninitialised, here as zeroes; every entry is written before it is read). -/
def schedule (data : List Nat) : List Nat :=
  let W : List Nat := List.replicate 64 0
  let W := for_loop 0 16 (fun t W =>
    let M := load_word data t
    W.set t ((((M &&& 0x000000FF) <<< 24) % 2 ^ 32) |||
             (((M &&& 0x0000FF00) <<< 8) % 2 ^ 32) |||
             ((M &&& 0x00FF0000) >>> 8) |||
             ((M &&& 0xFF000000) >>> 24))) W
  for_loop 16 64 (fun t W =>
    W.set t (add32 (add32 (add32 (F5 (W.getD (t - 2) 0)) (W.getD (t - 7) 0))
      (F4 (W.getD (t - 15) 0))) (W.getD (t - 16) 0))) W

/-- The method `sha256_context::transform_block` : `data` is the memory at the pointer. -/
def transform_block (state : List Nat) (data : List Nat) : List Nat :=
  let v : Vars :=
    { a := state.getD 0 0, b := state.getD 1 0, c := state.getD 2 0, d := state.getD 3 0,
      e := state.getD 4 0, f := state.getD 5 0, g := state.getD 6 0, h := state.getD 7 0 }
  let W := schedule data
  let v := for_loop 0 64 (round W) v
  let state := state.set 0 (add32 (state.getD 0 0) v.a)
  let state := state.set 1 (add32 (state.getD 1 0) v.b)
  let state := state.set 2 (add32 (state.getD 2 0) v.c)
  let state := state.set 3 (add32 (state.getD 3 0) v.d)
  let state := state.set 4 (add32 (state.getD 4 0) v.e)
  let state := state.set 5 (add32 (state.getD 5 0) v.f)
  let state := state.set 6 (add32 (state.getD 6 0) v.g)
  let state := state.set 7 (add32 (state.getD 7 0) v.h)
  state

/-- The `data` argument of `pad_block`, as far as the code tells pointers apart:
null, the very address of `result_buffer`, or some other readable region (given
by its contents) that does not overlap the result buffer. -/
inductive Ptr where
  | null : Ptr
  | result_buffer : Ptr
  | region (mem : List Nat) : Ptr
deriving DecidableEq, Repr

/-- The memory a `data` pointer gives access to, `result_buffer` being the
contents of the result buffer when the call is made. -/
def Ptr.bytes (data : Ptr) (result_buffer : List Nat) : List Nat :=
  match data with
  | Ptr.null => []
  | Ptr.result_buffer => result_buffer
  | Ptr.region mem => mem

/-- The method `sha256_context::pad_block` : returns the flag and the result buffer. -/
def pad_block (data : Ptr) (data_length message_length : Nat)
    (result_buffer : List Nat) : Bool × List Nat :=
  match data with
  | Ptr.null =>
    let zeroes := block_length - 8
    let (buf, p) := zero_fill result_buffer 0 zeroes
    let bit_count := (message_length * 8) % 2 ^ 64
    (true, write_be_u64 buf p bit_count)
  | _ =>
    let buf :=
      match data with
      | Ptr.region mem => unsafe_copy result_buffer mem data_length
      | _ => result_buffer
    let p := data_length
    let buf := buf.set p 0x80
    let p := p + 1
    let min_bytes := 1 + 8
    if data_length ≤ block_length - min_bytes then
      let zeroes := ((block_length - min_bytes) + 2 ^ 64 - data_length) % 2 ^ 64
      let (buf, p) := zero_fill buf p zeroes
      let bit_count := (message_length * 8) % 2 ^ 64
      (true, write_be_u64 buf p bit_count)
    else
      let zeroes := ((block_length - 1) + 2 ^ 64 - data_length) % 2 ^ 64
      let (buf, _) := zero_fill buf p zeroes
      (false, buf)

/-- The method `sha256_context::get_digest`. -/
def get_digest (state : List Nat) (result_buffer : List Nat) : List Nat :=
  let count := 8
  for_loop 0 count (fun i rb =>
    let w := state.getD i 0
    let rb := rb.set (i * 4 + 0) (((w &&& 0xFF000000) >>> 24) % 256)
    let rb := rb.set (i * 4 + 1) (((w &&& 0x00FF0000) >>> 16) % 256)
    let rb := rb.set (i * 4 + 2) (((w &&& 0x0000FF00) >>> 8) % 256)
    let rb := rb.set (i * 4 + 3) (((w &&& 0x000000FF) >>> 0) % 256)
    rb) result_buffer

/-- The bytes of the state array as they lie in memory (little-endian words). -/
def state_bytes (state : List Nat) : List Nat :=
  state.flatMap (fun w => [w % 256, (w >>> 8) % 256, (w >>> 16) % 256, (w >>> 24) % 256])

/-- The loop `for (int i = sizeof(state); --i;) *(vptr++) = 0;` : `i` is the value
of the counter before the decrement in the loop test. -/
def clear_loop (mem : List Nat) (vptr : Nat) : Nat → List Nat
  | 0 => mem
  | i + 1 => if i = 0 then mem else clear_loop (mem.set vptr 0) (vptr + 1) i

/-- The method `sha256_context::clear_state` : byte-wise writes through a
`char volatile*` over the memory of the state array. -/
def clear_state (state : List Nat) : List Nat :=
  let mem := clear_loop (state_bytes state) 0 (4 * state.length)
  (List.range state.length).map (load_word mem)

/-- The block loop of `compute_hash`: `while (p != end) { transform_block(p);
p += block_length; }` with the pointers as offsets into `data`. -/
def block_loop (data : List Nat) (endp : Nat) : Nat → Nat → List Nat → Option (Nat × List Nat)
  | 0, _, _ => none
  | fuel + 1, p, ctx =>
    if p = endp then some (p, ctx)
    else block_loop data endp fuel (p + block_length) (transform_block ctx (data.drop p))

/-- The function `sha256::compute_hash`. The pointer `data` is `none` when null
and otherwise the memory it points to; `ctx` and `buf` are the uninitialised
contents of the two locals. Returns the result buffer and the context as it is
left behind, or `none` if the block loop does not come to its end. The local
`buf` is never at the address of the caller's data, so the pointer handed to
`pad_block` is null or a region of its own. (A null `data` with 64 bytes or more
is undefined behaviour in the source: the block loop dereferences it; the
embedding reads zeroes there.) The block `pad_block` leaves in `buf` is handed
to `transform_block` as the bytes it holds, the stored length included; see
`compute_hash_as_loaded` for the loads that do not see that store. -/
def compute_hash_run (data : Option (List Nat)) (data_length : Nat) (result : List Nat)
    (ctx : List Nat) (buf : List Nat) : Option (List Nat × List Nat) :=
  let mask : Nat := 0xFFFFFFFFFFFFFFFF ^^^ (block_length - 1)
  let masked_length := data_length &&& mask
  let mem := data.getD []
  let ctx := init ctx
  match block_loop mem masked_length (data_length / block_length + 1) 0 ctx with
  | none => none
  | some (p, ctx) =>
    let remaining := (data_length + 2 ^ 64 - masked_length) % 2 ^ 64
    let pp := match data with
      | none => Ptr.null
      | some m => Ptr.region (m.drop p)
    let (done, buf) := pad_block pp remaining data_length buf
    let ctx := transform_block ctx buf
    let ctx :=
      if !done then
        let (_, buf) := pad_block Ptr.null 0 data_length buf
        transform_block ctx buf
      else ctx
    let result := get_digest ctx result
    let ctx := clear_state ctx
    some (result, ctx)

/-- What `compute_hash` writes to `result`. -/
def compute_hash (data : Option (List Nat)) (data_length : Nat) (result : List Nat)
    (ctx : List Nat) (buf : List Nat) : Option (List Nat) :=
  (compute_hash_run data data_length result ctx buf).map Prod.fst

/-- The low-level API used as `sha256.h` documents it, on a message `m` whose
length the caller tracks: `init`; `transform_block` on each full block read
into the caller's buffer; `pad_block` in place on the buffer holding the trailing
bytes (followed by `rest`, whatever else the buffer contains); `transform_block`;
when `pad_block` returned false, `pad_block` on a null pointer and
`transform_block` once more; `get_digest` into `digest`. -/
def low_level_hash (m digest ctx rest : List Nat) : List Nat :=
  let total_length := m.length
  let ctx := init ctx
  let ctx := (List.range (total_length / block_length)).foldl
    (fun c j => transform_block c ((m.drop (block_length * j)).take block_length)) ctx
  let buf := m.drop (block_length * (total_length / block_length)) ++ rest
  let read := total_length % block_length
  let (done, buf) := pad_block Ptr.result_buffer read total_length buf
  let ctx := transform_block ctx buf
  let ctx :=
    if !done then
      let (_, buf) := pad_block Ptr.null 0 total_length buf
      transform_block ctx buf
    else ctx
  get_digest ctx digest

/-! ## The other branch of the byte-order switch -/

/-- The native load `reinterpret_cast<word const*>(data)[t]` on a big-endian
host: the byte at the lowest address is the most significant. -/
def load_word_big_endian (data : List Nat) (t : Nat) : Nat :=
  2 ^ 24 * data.getD (4 * t) 0 + 2 ^ 16 * data.getD (4 * t + 1) 0
    + 2 ^ 8 * data.getD (4 * t + 2) 0 + data.getD (4 * t + 3) 0

/-- The message schedule as `transform_block` prepares it when `BYTE_ORDER` is
not `LITTLE_ENDIAN`: the first sixteen words are copied, `W[t] = M[t]`. -/
def schedule_big_endian (data : List Nat) : List Nat :=
  let W : List Nat := List.replicate 64 0
  let W := for_loop 0 16 (fun t W =>
    let M := load_word_big_endian data t
    W.set t M) W
  for_loop 16 64 (fun t W =>
    W.set t (add32 (add32 (add32 (F5 (W.getD (t - 2) 0)) (W.getD (t - 7) 0))
      (F4 (W.getD (t - 15) 0))) (W.getD (t - 16) 0))) W

/-- The method `sha256_context::transform_block` on a big-endian host. -/
def transform_block_big_endian (state : List Nat) (data : List Nat) : List Nat :=
  let v : Vars :=
    { a := state.getD 0 0, b := state.getD 1 0, c := state.getD 2 0, d := state.getD 3 0,
      e := state.getD 4 0, f := state.getD 5 0, g := state.getD 6 0, h := state.getD 7 0 }
  let W := schedule_big_endian data
  let v := for_loop 0 64 (round W) v
  let state := state.set 0 (add32 (state.getD 0 0) v.a)
  let state := state.set 1 (add32 (state.getD 1 0) v.b)
  let state := state.set 2 (add32 (state.getD 2 0) v.c)
  let state := state.set 3 (add32 (state.getD 3 0) v.d)
  let state := state.set 4 (add32 (state.getD 4 0) v.e)
  let state := state.set 5 (add32 (state.getD 5 0) v.f)
  let state := state.set 6 (add32 (state.getD 6 0) v.g)
  let state := state.set 7 (add32 (state.getD 7 0) v.h)
  state

/-! ## The methods with their effects made explicit -/

/-- The method `sha256_context::get_digest` with the context passed through:
returns the state array and the result buffer as the call leaves them. The body
reads the state through `word const &w` and assigns to `result_buffer` only; the
result buffer is taken not to overlap the context. -/
def get_digest_run (state : List Nat) (result_buffer : List Nat) : List Nat × List Nat :=
  let count := 8
  for_loop 0 count (fun i (sr : List Nat × List Nat) =>
    let w := sr.1.getD i 0
    let rb := sr.2
    let rb := rb.set (i * 4 + 0) (((w &&& 0xFF000000) >>> 24) % 256)
    let rb := rb.set (i * 4 + 1) (((w &&& 0x00FF0000) >>> 16) % 256)
    let rb := rb.set (i * 4 + 2) (((w &&& 0x0000FF00) >>> 8) % 256)
    let rb := rb.set (i * 4 + 3) (((w &&& 0x000000FF) >>> 0) % 256)
    (sr.1, rb)) (state, result_buffer)

/-- A call made by `compute_hash` on the context: `transform_block` with the 64
bytes at its pointer, or `pad_block` with its arguments and the flag returned. -/
inductive Call where
  | transform_block (block : List Nat) : Call
  | pad_block (data : Ptr) (data_length message_length : Nat) (flag : Bool) : Call
deriving DecidableEq, Repr

/-- The blocks passed to `transform_block`, in call order. -/
def Call.blocks (calls : List Call) : List (List Nat) :=
  calls.filterMap (fun c =>
    match c with
    | Call.transform_block b => some b
    | Call.pad_block _ _ _ _ => none)

/-- The flags returned by the calls of `pad_block`, in call order, each with
whether the call was made on a null pointer. -/
def Call.pads (calls : List Call) : List (Bool × Bool) :=
  calls.filterMap (fun c =>
    match c with
    | Call.transform_block _ => none
    | Call.pad_block data _ _ flag => some (decide (data = Ptr.null), flag))

/-- The block loop of `compute_hash`, recording its calls. -/
def block_loop_calls (data : List Nat) (endp : Nat) :
    Nat → Nat → List Nat → List Call → Option (Nat × List Nat × List Call)
  | 0, _, _, _ => none
  | fuel + 1, p, ctx, calls =>
    if p = endp then some (p, ctx, calls)
    else block_loop_calls data endp fuel (p + block_length) (transform_block ctx (data.drop p))
      (calls ++ [Call.transform_block ((data.drop p).take block_length)])

/-- The function `sha256::compute_hash`, recording the calls it makes on the
context after `init`: what `compute_hash_run` returns, and the calls in order. -/
def compute_hash_calls (data : Option (List Nat)) (data_length : Nat) (result : List Nat)
    (ctx : List Nat) (buf : List Nat) : Option ((List Nat × List Nat) × List Call) :=
  let mask : Nat := 0xFFFFFFFFFFFFFFFF ^^^ (block_length - 1)
  let masked_length := data_length &&& mask
  let mem := data.getD []
  let ctx := init ctx
  match block_loop_calls mem masked_length (data_length / block_length + 1) 0 ctx [] with
  | none => none
  | some (p, ctx, calls) =>
    let remaining := (data_length + 2 ^ 64 - masked_length) % 2 ^ 64
    let pp := match data with
      | none => Ptr.null
      | some m => Ptr.region (m.drop p)
    let (done, buf) := pad_block pp remaining data_length buf
    let calls := calls ++ [Call.pad_block pp remaining data_length done]
    let ctx := transform_block ctx buf
    let calls := calls ++ [Call.transform_block (buf.take block_length)]
    let (ctx, calls) :=
      if !done then
        let (flag, buf) := pad_block Ptr.null 0 data_length buf
        (transform_block ctx buf,
          calls ++ [Call.pad_block Ptr.null 0 data_length flag,
                    Call.transform_block (buf.take block_length)])
      else (ctx, calls)
    let result := get_digest ctx result
    let ctx := clear_state ctx
    some ((result, ctx), calls)

/-- A buffer with the offsets written to it so far: the assignment `b[i] = v`. -/
def logged_set (b : List Nat × List Nat) (i v : Nat) : List Nat × List Nat :=
  (b.1.set i v, b.2 ++ [i])

/-- The copy loop of `unsafe_copy`, recording the offsets written. -/
def unsafe_copy_logged (dst : List Nat × List Nat) (src : List Nat) (count : Nat) :
    List Nat × List Nat :=
  for_loop 0 count (fun i d => logged_set d i (src.getD i 0)) dst

/-- The native store of `write_be_u64`, recording the offsets written. -/
def store_u64_logged (buf : List Nat × List Nat) (p : Nat) (v : Nat) : List Nat × List Nat :=
  for_loop 0 8 (fun j b => logged_set b (p + j) ((v >>> (8 * j)) % 256)) buf

/-- The helper `write_be_u64`, recording the offsets written. -/
def write_be_u64_logged (buf : List Nat × List Nat) (ptr : Nat) (value : Nat) :
    List Nat × List Nat :=
  store_u64_logged buf ptr
    ((((value &&& 0x00000000000000FF) <<< 56) % 2 ^ 64) |||
     (((value &&& 0x000000000000FF00) <<< 40) % 2 ^ 64) |||
     (((value &&& 0x0000000000FF0000) <<< 24) % 2 ^ 64) |||
     (((value &&& 0x00000000FF000000) <<< 8) % 2 ^ 64) |||
     ((value &&& 0x000000FF00000000) >>> 8) |||
     ((value &&& 0x0000FF0000000000) >>> 24) |||
     ((value &&& 0x00FF000000000000) >>> 40) |||
     ((value &&& 0xFF00000000000000) >>> 56))

/-- The loop `while (p != end) *(p++) = 0;`, recording the offsets written. -/
def zero_fill_logged (buf : List Nat × List Nat) (p : Nat) :
    Nat → (List Nat × List Nat) × Nat
  | 0 => (buf, p)
  | zeroes + 1 => zero_fill_logged (logged_set buf p 0) (p + 1) zeroes

/-- The method `sha256_context::pad_block`, recording the offsets of the result
buffer it writes, in order: returns the flag, the result buffer and the offsets. -/
def pad_block_logged (data : Ptr) (data_length message_length : Nat)
    (result_buffer : List Nat) : Bool × (List Nat × List Nat) :=
  match data with
  | Ptr.null =>
    let zeroes := block_length - 8
    let (buf, p) := zero_fill_logged (result_buffer, []) 0 zeroes
    let bit_count := (message_length * 8) % 2 ^ 64
    (true, write_be_u64_logged buf p bit_count)
  | _ =>
    let buf :=
      match data with
      | Ptr.region mem => unsafe_copy_logged (result_buffer, []) mem data_length
      | _ => (result_buffer, [])
    let p := data_length
    let buf := logged_set buf p 0x80
    let p := p + 1
    let min_bytes := 1 + 8
    if data_length ≤ block_length - min_bytes then
      let zeroes := ((block_length - min_bytes) + 2 ^ 64 - data_length) % 2 ^ 64
      let (buf, p) := zero_fill_logged buf p zeroes
      let bit_count := (message_length * 8) % 2 ^ 64
      (true, write_be_u64_logged buf p bit_count)
    else
      let zeroes := ((block_length - 1) + 2 ^ 64 - data_length) % 2 ^ 64
      let (buf, _) := zero_fill_logged buf p zeroes
      (false, buf)

/-! ## The length store and the loads of `transform_block`

The helper `write_be_u64` stores the length through a `u64*` into the array of
`byte` that `transform_block` then loads through a `word const*`. Neither type
is a character type, so under the aliasing rule of the language the store and
the loads are unrelated accesses: the behaviour of the program is undefined
there, and a build that relies on the rule (type-based alias analysis, on by
default in optimising builds) need not make the store visible to the loads. The
other writes of `pad_block` (the copy, the byte `0x80`, the zeroes) are stores
of `byte`, which every load sees. The embedding above keeps memory as bytes, so
that every load sees every earlier store; the definitions below take as a
parameter whether the loads see the length. -/

/-- The method `sha256_context::pad_block` as the loads of a following
`transform_block` see its result: `seen` says whether the store of
`write_be_u64` reaches them. When it does not, the eight bytes of the length
field are what the buffer held before the call. -/
def pad_block_as_loaded (seen : Bool) (data : Ptr) (data_length message_length : Nat)
    (result_buffer : List Nat) : Bool × List Nat :=
  match data with
  | Ptr.null =>
    let zeroes := block_length - 8
    let (buf, p) := zero_fill result_buffer 0 zeroes
    let bit_count := (message_length * 8) % 2 ^ 64
    (true, if seen then write_be_u64 buf p bit_count else buf)
  | _ =>
    let buf :=
      match data with
      | Ptr.region mem => unsafe_copy result_buffer mem data_length
      | _ => result_buffer
    let p := data_length
    let buf := buf.set p 0x80
    let p := p + 1
    let min_bytes := 1 + 8
    if data_length ≤ block_length - min_bytes then
      let zeroes := ((block_length - min_bytes) + 2 ^ 64 - data_length) % 2 ^ 64
      let (buf, p) := zero_fill buf p zeroes
      let bit_count := (message_length * 8) % 2 ^ 64
      (true, if seen then write_be_u64 buf p bit_count else buf)
    else
      let zeroes := ((block_length - 1) + 2 ^ 64 - data_length) % 2 ^ 64
      let (buf, _) := zero_fill buf p zeroes
      (false, buf)

/-- The function `sha256::compute_hash` with the blocks as `transform_block`
loads them, recording the calls as `compute_hash_calls` does: `seen` says whether
the loads see the length `pad_block` stored (one run stores the length once, in
the call of `pad_block` that returns true). -/
def compute_hash_as_loaded (seen : Bool) (data : Option (List Nat)) (data_length : Nat)
    (result : List Nat) (ctx : List Nat) (buf : List Nat) :
    Option ((List Nat × List Nat) × List Call) :=
  let mask : Nat := 0xFFFFFFFFFFFFFFFF ^^^ (block_length - 1)
  let masked_length := data_length &&& mask
  let mem := data.getD []
  let ctx := init ctx
  match block_loop_calls mem masked_length (data_length / block_length + 1) 0 ctx [] with
  | none => none
  | some (p, ctx, calls) =>
    let remaining := (data_length + 2 ^ 64 - masked_length) % 2 ^ 64
    let pp := match data with
      | none => Ptr.null
      | some m => Ptr.region (m.drop p)
    let (done, buf) := pad_block_as_loaded seen pp remaining data_length buf
    let calls := calls ++ [Call.pad_block pp remaining data_length done]
    let ctx := transform_block ctx buf
    let calls := calls ++ [Call.transform_block (buf.take block_length)]
    let (ctx, calls) :=
      if !done then
        let (flag, buf) := pad_block_as_loaded seen Ptr.null 0 data_length buf
        (transform_block ctx buf,
          calls ++ [Call.pad_block Ptr.null 0 data_length flag,
                    Call.transform_block (buf.take block_length)])
      else (ctx, calls)
    let result := get_digest ctx result
    let ctx := clear_state ctx
    some ((result, ctx), calls)

/-! ## The assertions of a debug build

When `DEBUG` is defined `assert` is that of `<cassert>` and a failed assertion
ends the program; the functions below are the ones above with these assertions
in place, `none` standing for a failed assertion. The assertions are those of
`right_shift`, `left_shift` and `pad_block`; no other function has one. -/

/-- The function `right_shift` with its `assert(n < w)`. -/
def right_shift_checked (x : Nat) (n : Nat) : Option Nat :=
  let w : Nat := 4 * 8
  if n < w then some ((x >>> n) % 2 ^ 32) else none

/-- The function `left_shift` with its `assert(n < w)`. -/
def left_shift_checked (x : Nat) (n : Nat) : Option Nat :=
  let w : Nat := 4 * 8
  if n < w then some ((x <<< n) % 2 ^ 32) else none

/-- The function `right_rotate` over the checked shifts. -/
def right_rotate_checked (x : Nat) (n : Nat) : Option Nat :=
  let w : Nat := 4 * 8
  match right_shift_checked x n with
  | none => none
  | some rs =>
    match left_shift_checked x ((w + 256 - n) % 256) with
    | none => none
    | some ls => some (bitwise_or rs ls)

/-- Sigma0 over the checked shifts. -/
def F2_checked (x : Nat) : Option Nat :=
  match right_rotate_checked x 2 with
  | none => none
  | some t0 =>
    match right_rotate_checked x 13 with
    | none => none
    | some t1 =>
      match right_rotate_checked x 22 with
      | none => none
      | some t2 => some (bitwise_xor (bitwise_xor t0 t1) t2)

/-- Sigma1 over the checked shifts. -/
def F3_checked (x : Nat) : Option Nat :=
  match right_rotate_checked x 6 with
  | none => none
  | some t0 =>
    match right_rotate_checked x 11 with
    | none => none
    | some t1 =>
      match right_rotate_checked x 25 with
      | none => none
      | some t2 => some (bitwise_xor (bitwise_xor t0 t1) t2)

/-- The function sigma0 over the checked shifts. -/
def F4_checked (x : Nat) : Option Nat :=
  match right_rotate_checked x 7 with
  | none => none
  | some t0 =>
    match right_rotate_checked x 18 with
    | none => none
    | some t1 =>
      match right_shift_checked x 3 with
      | none => none
      | some t2 => some (bitwise_xor (bitwise_xor t0 t1) t2)

/-- The function sigma1 over the checked shifts. -/
def F5_checked (x : Nat) : Option Nat :=
  match right_rotate_checked x 17 with
  | none => none
  | some t0 =>
    match right_rotate_checked x 19 with
    | none => none
    | some t1 =>
      match right_shift_checked x 10 with
      | none => none
      | some t2 => some (bitwise_xor (bitwise_xor t0 t1) t2)

/-- One iteration of the main loop of `transform_block` over the checked functions. -/
def round_checked (W : List Nat) (t : Nat) (v : Vars) : Option Vars :=
  match F3_checked v.e with
  | none => none
  | some s1 =>
    let T1 := add32 (add32 (add32 (add32 v.h s1) (F0 v.e v.f v.g))
                (sha256_hash_constants.getD t 0)) (W.getD t 0)
    match F2_checked v.a with
    | none => none
    | some s0 =>
      let T2 := add32 s0 (F1 v.a v.b v.c)
      some { h := v.g, g := v.f, f := v.e, e := add32 v.d T1,
             d := v.c, c := v.b, b := v.a, a := add32 T1 T2 }

/-- The message schedule over the checked functions. -/
def schedule_checked (data : List Nat) : Option (List Nat) :=
  let W : List Nat := List.replicate 64 0
  let W := for_loop 0 16 (fun t W =>
    let M := load_word data t
    W.set t ((((M &&& 0x000000FF) <<< 24) % 2 ^ 32) |||
             (((M &&& 0x0000FF00) <<< 8) % 2 ^ 32) |||
             ((M &&& 0x00FF0000) >>> 8) |||
             ((M &&& 0xFF000000) >>> 24))) W
  for_loop 16 64 (fun t W =>
    match W with
    | none => none
    | some W =>
      match F5_checked (W.getD (t - 2) 0) with
      | none => none
      | some s1 =>
        match F4_checked (W.getD (t - 15) 0) with
        | none => none
        | some s0 =>
          some (W.set t (add32 (add32 (add32 s1 (W.getD (t - 7) 0)) s0) (W.getD (t - 16) 0))))
    (some W)

/-- The method `sha256_context::transform_block` over the checked functions. -/
def transform_block_checked (state : List Nat) (data : List Nat) : Option (List Nat) :=
  let v : Vars :=
    { a := state.getD 0 0, b := state.getD 1 0, c := state.getD 2 0, d := state.getD 3 0,
      e := state.getD 4 0, f := state.getD 5 0, g := state.getD 6 0, h := state.getD 7 0 }
  match schedule_checked data with
  | none => none
  | some W =>
    match for_loop 0 64 (fun t v =>
        match v with
        | none => none
        | some v => round_checked W t v) (some v) with
    | none => none
    | some v =>
      let state := state.set 0 (add32 (state.getD 0 0) v.a)
      let state := state.set 1 (add32 (state.getD 1 0) v.b)
      let state := state.set 2 (add32 (state.getD 2 0) v.c)
      let state := state.set 3 (add32 (state.getD 3 0) v.d)
      let state := state.set 4 (add32 (state.getD 4 0) v.e)
      let state := state.set 5 (add32 (state.getD 5 0) v.f)
      let state := state.set 6 (add32 (state.getD 6 0) v.g)
      let state := state.set 7 (add32 (state.getD 7 0) v.h)
      some state

/-- The method `sha256_context::pad_block` with its three assertions:
`message_length < max_message_length` on entry, `data_length == 0` in the null
branch, `data_length < block_length` past it. Nothing else in the method can
fail, so what follows the assertions is `pad_block` as above. -/
def pad_block_checked (data : Ptr) (data_length message_length : Nat)
    (result_buffer : List Nat) : Option (Bool × List Nat) :=
  if message_length < max_message_length then
    match data with
    | Ptr.null =>
      if data_length = 0 then
        some (pad_block Ptr.null data_length message_length result_buffer)
      else none
    | _ =>
      if data_length < block_length then
        some (pad_block data data_length message_length result_buffer)
      else none
  else none

/-- The block loop of `compute_hash` over the checked `transform_block`. -/
def block_loop_checked (data : List Nat) (endp : Nat) :
    Nat → Nat → List Nat → Option (Nat × List Nat)
  | 0, _, _ => none
  | fuel + 1, p, ctx =>
    if p = endp then some (p, ctx)
    else
      match transform_block_checked ctx (data.drop p) with
      | none => none
      | some ctx => block_loop_checked data endp fuel (p + block_length) ctx

/-- The function `sha256::compute_hash` over the checked methods: the result
buffer and the context as `compute_hash_run` gives them, or `none` when an
assertion fails on the way (or the block loop does not come to its end). -/
def compute_hash_checked (data : Option (List Nat)) (data_length : Nat) (result : List Nat)
    (ctx : List Nat) (buf : List Nat) : Option (List Nat × List Nat) :=
  let mask : Nat := 0xFFFFFFFFFFFFFFFF ^^^ (block_length - 1)
  let masked_length := data_length &&& mask
  let mem := data.getD []
  let ctx := init ctx
  match block_loop_checked mem masked_length (data_length / block_length + 1) 0 ctx with
  | none => none
  | some (p, ctx) =>
    let remaining := (data_length + 2 ^ 64 - masked_length) % 2 ^ 64
    let pp := match data with
      | none => Ptr.null
      | some m => Ptr.region (m.drop p)
    match pad_block_checked pp remaining data_length buf with
    | none => none
    | some (done, buf) =>
      match transform_block_checked ctx buf with
      | none => none
      | some ctx =>
        let last : Option (List Nat) :=
          if !done then
            match pad_block_checked Ptr.null 0 data_length buf with
            | none => none
            | some (_, buf) => transform_block_checked ctx buf
          else some ctx
        match last with
        | none => none
        | some ctx =>
          let result := get_digest ctx result
          let ctx := clear_state ctx
          some (result, ctx)

/-! ## The specification: SHA-256 as FIPS 180-4 and the design document state it

Nothing in the namespace `Spec` refers to the code above. -/

namespace Spec

/-- Bisection for the integer `k`-th root of `n`, between `lo` and `hi`. -/
def iroot_bisect (k n : Nat) : Nat → Nat → Nat → Nat
  | 0, lo, _ => lo
  | fuel + 1, lo, hi =>
    if hi ≤ lo + 1 then lo
    else if ((lo + hi) / 2) ^ k ≤ n then iroot_bisect k n fuel ((lo + hi) / 2) hi
    else iroot_bisect k n fuel lo ((lo + hi) / 2)

/-- The integer part of the `k`-th root of `n`. -/
def iroot (k n : Nat) : Nat := iroot_bisect k n (n + 1) 0 (n + 1)

/-- The first 32 bits of the fractional part of the `k`-th root of `p`. -/
def frac32_root (k p : Nat) : Nat := iroot k (p * 2 ^ (32 * k)) % 2 ^ 32

/-- Primality by trial division. -/
def is_prime (n : Nat) : Bool :=
  decide (2 ≤ n) && (List.range n).all (fun d => decide (d < 2) || decide (n % d ≠ 0))

/-- The primes below 400 in increasing order; the first 64 primes are among them. -/
def primes : List Nat := (List.range 400).filter is_prime

/-- The round constant `K[t]`: the first 32 bits of the fractional part of the
cube root of the `t`-th prime (counting from zero). -/
def K (t : Nat) : Nat := frac32_root 3 (primes.getD t 0)

/-- The initial hash value (FIPS 180-4, 5.3.3). -/
def H0 : List Nat :=
  [0x6A09E667, 0xBB67AE85, 0x3C6EF372, 0xA54FF53A,
   0x510E527F, 0x9B05688C, 0x1F83D9AB, 0x5BE0CD19]

/-- Circular right rotation of a 32-bit word: `(x >> n) ∨ (x << (32 - n))`. -/
def rotr (x n : Nat) : Nat := (x >>> n) ||| ((x <<< (32 - n)) % 2 ^ 32)

def shr (x n : Nat) : Nat := x >>> n

/-- The bitwise complement of a 32-bit word. -/
def not32 (x : Nat) : Nat := 0xFFFFFFFF ^^^ x

def Ch (x y z : Nat) : Nat := (x &&& y) ^^^ (not32 x &&& z)

def Maj (x y z : Nat) : Nat := (x &&& y) ^^^ (x &&& z) ^^^ (y &&& z)

def Sigma0 (x : Nat) : Nat := rotr x 2 ^^^ rotr x 13 ^^^ rotr x 22

def Sigma1 (x : Nat) : Nat := rotr x 6 ^^^ rotr x 11 ^^^ rotr x 25

def sigma0 (x : Nat) : Nat := rotr x 7 ^^^ rotr x 18 ^^^ shr x 3

def sigma1 (x : Nat) : Nat := rotr x 17 ^^^ rotr x 19 ^^^ shr x 10

/-- The `t`-th big-endian 32-bit word of a block. -/
def be_word (B : List Nat) (t : Nat) : Nat :=
  B.getD (4 * t) 0 * 2 ^ 24 + B.getD (4 * t + 1) 0 * 2 ^ 16
    + B.getD (4 * t + 2) 0 * 2 ^ 8 + B.getD (4 * t + 3) 0

/-- The message schedule of a block. -/
def W (B : List Nat) (t : Nat) : Nat :=
  if h : t < 16 then be_word B t
  else (sigma1 (W B (t - 2)) + W B (t - 7) + sigma0 (W B (t - 15)) + W B (t - 16)) % 2 ^ 32
termination_by t
decreasing_by all_goals omega

/-- One round on the working variables `[a, b, c, d, e, f, g, h]`. -/
def step (k w : Nat) : List Nat → List Nat
  | [a, b, c, d, e, f, g, h] =>
    let T1 := (h + Sigma1 e + Ch e f g + k + w) % 2 ^ 32
    let T2 := (Sigma0 a + Maj a b c) % 2 ^ 32
    [(T1 + T2) % 2 ^ 32, a, b, c, (d + T1) % 2 ^ 32, e, f, g]
  | v => v

/-- The working variables after `t` rounds. -/
def rounds (H B : List Nat) : Nat → List Nat
  | 0 => H
  | t + 1 => step (K t) (W B t) (rounds H B t)

/-- The SHA-256 compression function. -/
def compress (H B : List Nat) : List Nat :=
  List.zipWith (fun x y => (x + y) % 2 ^ 32) H (rounds H B 64)

/-- The 8-byte big-endian encoding of `x`. -/
def be64 (x : Nat) : List Nat :=
  [x / 2 ^ 56 % 256, x / 2 ^ 48 % 256, x / 2 ^ 40 % 256, x / 2 ^ 32 % 256,
   x / 2 ^ 24 % 256, x / 2 ^ 16 % 256, x / 2 ^ 8 % 256, x % 256]

/-- The least `k` for which `L + 1 + k + 8` is a multiple of 64. -/
def zero_count (L : Nat) : Nat :=
  Nat.find (⟨(119 - L % 64) % 64, by omega⟩ : ∃ k, (L + 1 + k + 8) % 64 = 0)

/-- The padded message. -/
def pad (m : List Nat) : List Nat :=
  m ++ [0x80] ++ List.replicate (zero_count m.length) 0 ++ be64 (8 * m.length)

/-- The successive 64-byte blocks of a byte string. -/
def blocks (l : List Nat) : List (List Nat) :=
  (List.range (l.length / 64)).map (fun j => (l.drop (64 * j)).take 64)

/-- The big-endian serialisation of a list of 32-bit words. -/
def serialize (H : List Nat) : List Nat :=
  H.flatMap (fun w => [w / 2 ^ 24 % 256, w / 2 ^ 16 % 256, w / 2 ^ 8 % 256, w % 256])

/-- The SHA-256 digest of a message. -/
def sha256 (m : List Nat) : List Nat :=
  serialize ((blocks (pad m)).foldl compress H0)

/-- The value of a byte string read as a big-endian unsigned integer. -/
def be_value (bs : List Nat) : Nat := bs.foldl (fun acc b => acc * 256 + b) 0

end Spec

/-! # Verification -/

/-! ## Loops and array accesses -/

theorem for_loop_self {σ : Type} (lo : Nat) (body : Nat → σ → σ) (s : σ) :
    for_loop lo lo body s = s := by
  simp [for_loop]

theorem for_loop_succ {σ : Type} (lo hi : Nat) (body : Nat → σ → σ) (s : σ) (h : lo ≤ hi) :
    for_loop lo (hi + 1) body s = body hi (for_loop lo hi body s) := by
  unfold for_loop
  have e : hi + 1 - lo = (hi - lo) + 1 := by omega
  rw [e, List.range'_concat, List.foldl_append]
  have e2 : lo + (hi - lo) = hi := by omega
  simp [e2]

/-- Loop invariants: a property that holds on entry and is carried by the body
holds on exit. -/
theorem for_loop_invariant {σ : Type} (P : Nat → σ → Prop) (lo hi : Nat) (body : Nat → σ → σ)
    (s : σ) (h : lo ≤ hi) (h0 : P lo s)
    (hstep : ∀ t s, lo ≤ t → t < hi → P t s → P (t + 1) (body t s)) :
    P hi (for_loop lo hi body s) := by
  induction hi with
  | zero =>
    have : lo = 0 := by omega
    subst this
    simpa [for_loop_self] using h0
  | succ n ih =>
    by_cases hn : lo = n + 1
    · subst hn
      simpa [for_loop_self] using h0
    · have hle : lo ≤ n := by omega
      rw [for_loop_succ lo n body s hle]
      exact hstep n _ hle (by omega) (ih hle (fun t s h1 h2 h3 => hstep t s h1 (by omega) h3))

theorem getD_set (l : List Nat) (i j v : Nat) :
    (l.set i v).getD j 0 = if i = j ∧ i < l.length then v else l.getD j 0 := by
  simp only [List.getD_eq_getElem?_getD, List.getElem?_set]
  by_cases h : i = j
  · subst h
    by_cases h2 : i < l.length
    · simp [h2]
    · simp [h2]
      simp [List.getElem?_eq_none (Nat.le_of_not_lt h2)]
  · simp [h]

theorem getD_set_eq (l : List Nat) (i v : Nat) (h : i < l.length) :
    (l.set i v).getD i 0 = v := by
  simp [getD_set, h]

theorem getD_set_ne (l : List Nat) (i j v : Nat) (h : i ≠ j) :
    (l.set i v).getD j 0 = l.getD j 0 := by
  simp [getD_set, h]

/-- A list is determined by its length and its entries. -/
theorem ext_getD (l₁ l₂ : List Nat) (hlen : l₁.length = l₂.length)
    (h : ∀ i, i < l₁.length → l₁.getD i 0 = l₂.getD i 0) : l₁ = l₂ := by
  apply List.ext_getElem hlen
  intro i h1 h2
  have := h i h1
  simpa [List.getD_eq_getElem?_getD, List.getElem?_eq_getElem h1,
    List.getElem?_eq_getElem h2] using this

theorem K_table : ∀ t, t < 64 → Spec.K t = sha256_hash_constants.getD t 0 := by
  decide!

/-! ## Bit-level facts -/

/-- Masking with a run of `k` ones starting at bit `a` selects that field. -/
theorem and_mask (x a k : Nat) : x &&& ((2 ^ k - 1) * 2 ^ a) = (x / 2 ^ a % 2 ^ k) * 2 ^ a := by
  apply Nat.eq_of_testBit_eq
  intro i
  rw [Nat.mul_comm _ (2 ^ a), Nat.mul_comm _ (2 ^ a)]
  simp only [Nat.testBit_and, Nat.testBit_mul_pow_two, Nat.testBit_two_pow_sub_one,
    Nat.testBit_mod_two_pow, ← Nat.shiftRight_eq_div_pow, Nat.testBit_shiftRight]
  by_cases h : a ≤ i
  · have e : a + (i - a) = i := by omega
    simp [h, e, Bool.and_comm, Bool.and_left_comm]
  · simp [h]

theorem or_eq_add (a b i : Nat) (hb : b < 2 ^ i) (ha : 2 ^ i ∣ a) : a ||| b = a + b := by
  obtain ⟨c, rfl⟩ := ha
  exact (Nat.mul_add_lt_is_or hb c).symm

theorem shiftRight_mod_of_lt (x n : Nat) (hx : x < 2 ^ 32) : (x >>> n) % 2 ^ 32 = x >>> n := by
  apply Nat.mod_eq_of_lt
  rw [Nat.shiftRight_eq_div_pow]
  exact Nat.lt_of_le_of_lt (Nat.div_le_self _ _) hx

/-- The byte swap of `transform_block` applied to a native load yields the
big-endian word. -/
theorem bswap32_load (b0 b1 b2 b3 : Nat) (h0 : b0 < 256) (h1 : b1 < 256) (h2 : b2 < 256)
    (h3 : b3 < 256) (M : Nat) (hM : M = b0 + 2 ^ 8 * b1 + 2 ^ 16 * b2 + 2 ^ 24 * b3) :
    (((M &&& 0x000000FF) <<< 24) % 2 ^ 32) ||| (((M &&& 0x0000FF00) <<< 8) % 2 ^ 32) |||
      ((M &&& 0x00FF0000) >>> 8) ||| ((M &&& 0xFF000000) >>> 24)
      = b0 * 2 ^ 24 + b1 * 2 ^ 16 + b2 * 2 ^ 8 + b3 := by
  have m0 : M &&& 0x000000FF = b0 := by
    have := and_mask M 0 8
    norm_num at this
    rw [this]; omega
  have m1 : M &&& 0x0000FF00 = b1 * 2 ^ 8 := by
    have := and_mask M 8 8
    norm_num at this
    rw [this]; omega
  have m2 : M &&& 0x00FF0000 = b2 * 2 ^ 16 := by
    have := and_mask M 16 8
    norm_num at this
    rw [this]; omega
  have m3 : M &&& 0xFF000000 = b3 * 2 ^ 24 := by
    have := and_mask M 24 8
    norm_num at this
    rw [this]; omega
  rw [m0, m1, m2, m3]
  simp only [Nat.shiftLeft_eq, Nat.shiftRight_eq_div_pow]
  have e0 : b0 * 2 ^ 24 % 2 ^ 32 = b0 * 2 ^ 24 := by omega
  have e1 : b1 * 2 ^ 8 * 2 ^ 8 % 2 ^ 32 = b1 * 2 ^ 16 := by omega
  have e2 : b2 * 2 ^ 16 / 2 ^ 8 = b2 * 2 ^ 8 := by omega
  have e3 : b3 * 2 ^ 24 / 2 ^ 24 = b3 := by omega
  rw [e0, e1, e2, e3]
  rw [or_eq_add (b0 * 2 ^ 24) (b1 * 2 ^ 16) 24 (by omega) (by omega),
    or_eq_add (b0 * 2 ^ 24 + b1 * 2 ^ 16) (b2 * 2 ^ 8) 16 (by omega) (by omega),
    or_eq_add (b0 * 2 ^ 24 + b1 * 2 ^ 16 + b2 * 2 ^ 8) b3 8 (by omega) (by omega)]

theorem right_rotate_eq (x n : Nat) (hx : x < 2 ^ 32) (hn : n ≤ 32) :
    right_rotate x n = Spec.rotr x n := by
  have e : (4 * 8 + 256 - n) % 256 = 32 - n := by omega
  simp only [right_rotate, right_shift, left_shift, bitwise_or, Spec.rotr, e,
    shiftRight_mod_of_lt x n hx]

theorem F0_eq (x y z : Nat) : F0 x y z = Spec.Ch x y z := rfl

theorem F1_eq (x y z : Nat) : F1 x y z = Spec.Maj x y z := rfl

theorem F2_eq (x : Nat) (hx : x < 2 ^ 32) : F2 x = Spec.Sigma0 x := by
  simp only [F2, Spec.Sigma0, bitwise_xor, right_rotate_eq x _ hx (by decide : (2:Nat) ≤ 32),
    right_rotate_eq x _ hx (by decide : (13:Nat) ≤ 32),
    right_rotate_eq x _ hx (by decide : (22:Nat) ≤ 32)]

theorem F3_eq (x : Nat) (hx : x < 2 ^ 32) : F3 x = Spec.Sigma1 x := by
  simp only [F3, Spec.Sigma1, bitwise_xor, right_rotate_eq x _ hx (by decide : (6:Nat) ≤ 32),
    right_rotate_eq x _ hx (by decide : (11:Nat) ≤ 32),
    right_rotate_eq x _ hx (by decide : (25:Nat) ≤ 32)]

theorem F4_eq (x : Nat) (hx : x < 2 ^ 32) : F4 x = Spec.sigma0 x := by
  simp only [F4, Spec.sigma0, Spec.shr, bitwise_xor, right_shift, shiftRight_mod_of_lt x _ hx,
    right_rotate_eq x _ hx (by decide : (7:Nat) ≤ 32),
    right_rotate_eq x _ hx (by decide : (18:Nat) ≤ 32)]

theorem F5_eq (x : Nat) (hx : x < 2 ^ 32) : F5 x = Spec.sigma1 x := by
  simp only [F5, Spec.sigma1, Spec.shr, bitwise_xor, right_shift, shiftRight_mod_of_lt x _ hx,
    right_rotate_eq x _ hx (by decide : (17:Nat) ≤ 32),
    right_rotate_eq x _ hx (by decide : (19:Nat) ≤ 32)]

/-! ## The message schedule -/

theorem W_lt16 (B : List Nat) (t : Nat) (h : t < 16) : Spec.W B t = Spec.be_word B t := by
  rw [Spec.W]; simp [h]

theorem W_ge16 (B : List Nat) (t : Nat) (h : 16 ≤ t) :
    Spec.W B t = (Spec.sigma1 (Spec.W B (t - 2)) + Spec.W B (t - 7)
      + Spec.sigma0 (Spec.W B (t - 15)) + Spec.W B (t - 16)) % 2 ^ 32 := by
  rw [Spec.W]; simp [Nat.not_lt.mpr h]

theorem W_lt (B : List Nat) (hb : ∀ i, i < 64 → B.getD i 0 < 256) (t : Nat) :
    Spec.W B t < 2 ^ 32 := by
  by_cases h : t < 16
  · rw [W_lt16 B t h]
    have h0 := hb (4 * t) (by omega)
    have h1 := hb (4 * t + 1) (by omega)
    have h2 := hb (4 * t + 2) (by omega)
    have h3 := hb (4 * t + 3) (by omega)
    simp only [Spec.be_word]
    omega
  · rw [W_ge16 B t (by omega)]
    exact Nat.mod_lt _ (by norm_num)

theorem add32_four (a b c d : Nat) :
    add32 (add32 (add32 a b) c) d = (a + b + c + d) % 2 ^ 32 := by
  show (((a + b) % 2 ^ 32 + c) % 2 ^ 32 + d) % 2 ^ 32 = (a + b + c + d) % 2 ^ 32
  omega

theorem add32_five (a b c d e : Nat) :
    add32 (add32 (add32 (add32 a b) c) d) e = (a + b + c + d + e) % 2 ^ 32 := by
  show ((((a + b) % 2 ^ 32 + c) % 2 ^ 32 + d) % 2 ^ 32 + e) % 2 ^ 32
    = (a + b + c + d + e) % 2 ^ 32
  omega

theorem add32_lt (a b : Nat) : add32 a b < 2 ^ 32 := Nat.mod_lt _ (by norm_num)

/-- The array `W` of `transform_block` holds the message schedule. -/
theorem schedule_spec (data : List Nat) (hb : ∀ i, i < 64 → data.getD i 0 < 256) :
    (schedule data).length = 64 ∧ ∀ t, t < 64 → (schedule data).getD t 0 = Spec.W data t := by
  unfold schedule
  simp only []
  apply for_loop_invariant
    (fun k (W : List Nat) => W.length = 64 ∧ ∀ t, t < k → W.getD t 0 = Spec.W data t) 16 64
  · decide
  · apply for_loop_invariant
      (fun k (W : List Nat) => W.length = 64 ∧ ∀ t, t < k → W.getD t 0 = Spec.W data t) 0 16
    · decide
    · exact ⟨by simp, fun t ht => absurd ht (Nat.not_lt_zero t)⟩
    · intro t W _ ht ⟨hl, hW⟩
      refine ⟨by simp [hl], ?_⟩
      intro i hi
      rw [getD_set]
      by_cases hit : t = i
      · subst hit
        have h0 := hb (4 * t) (by omega)
        have h1 := hb (4 * t + 1) (by omega)
        have h2 := hb (4 * t + 2) (by omega)
        have h3 := hb (4 * t + 3) (by omega)
        rw [if_pos ⟨rfl, by omega⟩, W_lt16 data t ht,
          bswap32_load _ _ _ _ h0 h1 h2 h3 (load_word data t) rfl]
        rfl
      · rw [if_neg (fun h => hit h.1)]
        exact hW i (by omega)
  · intro t W h16 ht ⟨hl, hW⟩
    refine ⟨by simp [hl], ?_⟩
    intro i hi
    rw [getD_set]
    by_cases hit : t = i
    · subst hit
      rw [if_pos ⟨rfl, by omega⟩, hW (t - 2) (by omega), hW (t - 7) (by omega),
        hW (t - 15) (by omega), hW (t - 16) (by omega),
        F5_eq _ (W_lt data hb _), F4_eq _ (W_lt data hb _), add32_four, W_ge16 data t h16]
    · rw [if_neg (fun h => hit h.1)]
      exact hW i (by omega)

/-! ## The rounds -/

theorem rounds_spec (H : List Nat) (data : List Nat) (v0 : Vars)
    (hb : ∀ i, i < 64 → data.getD i 0 < 256)
    (hv : [v0.a, v0.b, v0.c, v0.d, v0.e, v0.f, v0.g, v0.h] = H)
    (hw : ∀ w, w ∈ H → w < 2 ^ 32) :
    let v := for_loop 0 64 (round (schedule data)) v0
    [v.a, v.b, v.c, v.d, v.e, v.f, v.g, v.h] = Spec.rounds H data 64 := by
  intro v
  have key := for_loop_invariant
    (fun t (v : Vars) => [v.a, v.b, v.c, v.d, v.e, v.f, v.g, v.h] = Spec.rounds H data t ∧
      (v.a < 2 ^ 32 ∧ v.b < 2 ^ 32 ∧ v.c < 2 ^ 32 ∧ v.d < 2 ^ 32 ∧
       v.e < 2 ^ 32 ∧ v.f < 2 ^ 32 ∧ v.g < 2 ^ 32 ∧ v.h < 2 ^ 32))
    0 64 (round (schedule data)) v0 (by decide)
    (by
      refine ⟨by simpa [Spec.rounds] using hv, ?_⟩
      subst hv
      simp only [List.mem_cons, List.mem_singleton, List.not_mem_nil, or_false] at hw
      exact ⟨hw _ (by simp), hw _ (by simp), hw _ (by simp), hw _ (by simp),
        hw _ (by simp), hw _ (by simp), hw _ (by simp), hw _ (by simp)⟩)
    (by
      intro t v _ ht ⟨hr, ha, hb', hc, hd, he, hf, hg, hh⟩
      refine ⟨?_, add32_lt _ _, ha, hb', hc, add32_lt _ _, he, hf, hg⟩
      simp only [Spec.rounds, ← hr, Spec.step, round, (schedule_spec data hb).2 t ht,
        ← K_table t ht, F3_eq _ he, F2_eq _ ha, F0_eq, F1_eq, add32_five]
      simp only [add32])
  exact key.1

/-! ## `transform_block` is the compression function -/

theorem length_eq_eight (l : List Nat) (h : l.length = 8) :
    ∃ a b c d e f g h, l = [a, b, c, d, e, f, g, h] := by
  match l, h with
  | [a, b, c, d, e, f, g, h], _ => exact ⟨a, b, c, d, e, f, g, h, rfl⟩

theorem transform_block_spec (H data : List Nat) (hH : H.length = 8)
    (hw : ∀ w, w ∈ H → w < 2 ^ 32) (hb : ∀ i, i < 64 → data.getD i 0 < 256) :
    transform_block H data = Spec.compress H data := by
  obtain ⟨s0, s1, s2, s3, s4, s5, s6, s7, rfl⟩ := length_eq_eight H hH
  have hr := rounds_spec [s0, s1, s2, s3, s4, s5, s6, s7] data
    { a := s0, b := s1, c := s2, d := s3, e := s4, f := s5, g := s6, h := s7 } hb rfl hw
  simp only [] at hr
  simp only [Spec.compress, ← hr]
  simp [transform_block, add32]

theorem compress_length (H B : List Nat) (hH : H.length = 8)
    (hw : ∀ w, w ∈ H → w < 2 ^ 32) (hb : ∀ i, i < 64 → B.getD i 0 < 256) :
    (Spec.compress H B).length = 8 := by
  rw [← transform_block_spec H B hH hw hb]
  simp [transform_block, hH]

theorem compress_lt (H B : List Nat) :
    ∀ w, w ∈ Spec.compress H B → w < 2 ^ 32 := by
  intro w hw
  simp only [Spec.compress, List.mem_iff_getElem, List.getElem_zipWith] at hw
  obtain ⟨i, hi, rfl⟩ := hw
  exact Nat.mod_lt _ (by norm_num)

theorem getD_take (l : List Nat) (n i : Nat) (h : i < n) : (l.take n).getD i 0 = l.getD i 0 := by
  simp [List.getD_eq_getElem?_getD, List.getElem?_take, h]

theorem W_take (B : List Nat) (t : Nat) : Spec.W (B.take 64) t = Spec.W B t := by
  induction t using Nat.strong_induction_on with
  | _ t ih =>
    by_cases h : t < 16
    · rw [W_lt16 _ t h, W_lt16 _ t h]
      simp only [Spec.be_word]
      rw [getD_take B 64 _ (by omega), getD_take B 64 _ (by omega),
        getD_take B 64 _ (by omega), getD_take B 64 _ (by omega)]
    · rw [W_ge16 _ t (by omega), W_ge16 _ t (by omega), ih (t - 2) (by omega),
        ih (t - 7) (by omega), ih (t - 15) (by omega), ih (t - 16) (by omega)]

theorem rounds_take (H B : List Nat) (t : Nat) :
    Spec.rounds H (B.take 64) t = Spec.rounds H B t := by
  induction t with
  | zero => rfl
  | succ n ih => simp only [Spec.rounds, ih, W_take]

theorem compress_take (H B : List Nat) : Spec.compress H (B.take 64) = Spec.compress H B := by
  simp only [Spec.compress, rounds_take]

/-! ## The buffer primitives of `pad_block` -/

theorem unsafe_copy_spec (dst src : List Nat) (n : Nat) :
    (unsafe_copy dst src n).length = dst.length ∧
    ∀ i, (unsafe_copy dst src n).getD i 0
      = if i < n ∧ i < dst.length then src.getD i 0 else dst.getD i 0 := by
  unfold unsafe_copy
  apply for_loop_invariant
    (fun k (d : List Nat) => d.length = dst.length ∧
      ∀ i, d.getD i 0 = if i < k ∧ i < dst.length then src.getD i 0 else dst.getD i 0) 0 n
  · exact Nat.zero_le n
  · exact ⟨rfl, fun i => by simp⟩
  · intro t d _ _ ⟨hl, hd⟩
    refine ⟨by simp [hl], fun i => ?_⟩
    rw [getD_set, hd i, hl]
    by_cases hti : t = i
    · subst hti
      by_cases h2 : t < dst.length
      · simp [h2]
      · simp [h2]
    · have e1 : ¬ (t = i ∧ t < dst.length) := fun h => hti h.1
      rw [if_neg e1]
      by_cases h3 : i < t
      · have : i < t + 1 := by omega
        simp [h3, this]
      · have : ¬ i < t + 1 := by omega
        simp [h3, this]

theorem zero_fill_spec (k : Nat) : ∀ (buf : List Nat) (p : Nat),
    (zero_fill buf p k).2 = p + k ∧ (zero_fill buf p k).1.length = buf.length ∧
    ∀ i, (zero_fill buf p k).1.getD i 0
      = if p ≤ i ∧ i < p + k then 0 else buf.getD i 0 := by
  induction k with
  | zero =>
    intro buf p
    refine ⟨rfl, rfl, fun i => ?_⟩
    have : ¬ (p ≤ i ∧ i < p + 0) := by omega
    simp only [zero_fill, if_neg this]
  | succ n ih =>
    intro buf p
    obtain ⟨h1, h2, h3⟩ := ih (buf.set p 0) (p + 1)
    simp only [zero_fill]
    refine ⟨by omega, by simpa using h2, fun i => ?_⟩
    rw [h3 i, getD_set]
    by_cases hpi : p = i
    · subst hpi
      by_cases hl : p < buf.length
      · simp [hl]
      · simp [hl, List.getD_eq_getElem?_getD, List.getElem?_eq_none (Nat.le_of_not_lt hl)]
    · have e1 : ¬ (p = i ∧ p < buf.length) := fun h => hpi h.1
      rw [if_neg e1]
      by_cases h4 : p + 1 ≤ i ∧ i < p + 1 + n
      · have : p ≤ i ∧ i < p + (n + 1) := by omega
        simp [h4, this]
      · have : ¬ (p ≤ i ∧ i < p + (n + 1)) := by omega
        simp [h4, this]

theorem for_loop_eight {σ : Type} (body : Nat → σ → σ) (s : σ) :
    for_loop 0 8 body s
      = body 7 (body 6 (body 5 (body 4 (body 3 (body 2 (body 1 (body 0 s))))))) := rfl

/-- The byte swap of `write_be_u64`, in arithmetic. -/
theorem bswap64 (v : Nat) :
    (((v &&& 0x00000000000000FF) <<< 56) % 2 ^ 64) |||
     (((v &&& 0x000000000000FF00) <<< 40) % 2 ^ 64) |||
     (((v &&& 0x0000000000FF0000) <<< 24) % 2 ^ 64) |||
     (((v &&& 0x00000000FF000000) <<< 8) % 2 ^ 64) |||
     ((v &&& 0x000000FF00000000) >>> 8) |||
     ((v &&& 0x0000FF0000000000) >>> 24) |||
     ((v &&& 0x00FF000000000000) >>> 40) |||
     ((v &&& 0xFF00000000000000) >>> 56)
    = (v % 256) * 2 ^ 56 + (v / 2 ^ 8 % 256) * 2 ^ 48 + (v / 2 ^ 16 % 256) * 2 ^ 40
      + (v / 2 ^ 24 % 256) * 2 ^ 32 + (v / 2 ^ 32 % 256) * 2 ^ 24
      + (v / 2 ^ 40 % 256) * 2 ^ 16 + (v / 2 ^ 48 % 256) * 2 ^ 8 + v / 2 ^ 56 % 256 := by
  have m0 := and_mask v 0 8
  have m1 := and_mask v 8 8
  have m2 := and_mask v 16 8
  have m3 := and_mask v 24 8
  have m4 := and_mask v 32 8
  have m5 := and_mask v 40 8
  have m6 := and_mask v 48 8
  have m7 := and_mask v 56 8
  norm_num at m0 m1 m2 m3 m4 m5 m6 m7
  norm_num
  rw [m0, m1, m2, m3, m4, m5, m6, m7]
  simp only [Nat.shiftLeft_eq, Nat.shiftRight_eq_div_pow]
  generalize hb0 : v % 256 = b0
  generalize hb1 : v / 256 % 256 = b1
  generalize hb2 : v / 65536 % 256 = b2
  generalize hb3 : v / 16777216 % 256 = b3
  generalize hb4 : v / 4294967296 % 256 = b4
  generalize hb5 : v / 1099511627776 % 256 = b5
  generalize hb6 : v / 281474976710656 % 256 = b6
  generalize hb7 : v / 72057594037927936 % 256 = b7
  have l0 : b0 < 256 := by omega
  have l1 : b1 < 256 := by omega
  have l2 : b2 < 256 := by omega
  have l3 : b3 < 256 := by omega
  have l4 : b4 < 256 := by omega
  have l5 : b5 < 256 := by omega
  have l6 : b6 < 256 := by omega
  have l7 : b7 < 256 := by omega
  clear hb0 hb1 hb2 hb3 hb4 hb5 hb6 hb7 m0 m1 m2 m3 m4 m5 m6 m7
  have e0 : b0 * 2 ^ 56 % 18446744073709551616 = b0 * 72057594037927936 := by omega
  have e1 : b1 * 256 * 2 ^ 40 % 18446744073709551616 = b1 * 281474976710656 := by omega
  have e2 : b2 * 65536 * 2 ^ 24 % 18446744073709551616 = b2 * 1099511627776 := by omega
  have e3 : b3 * 16777216 * 2 ^ 8 % 18446744073709551616 = b3 * 4294967296 := by omega
  have e4 : b4 * 4294967296 / 2 ^ 8 = b4 * 16777216 := by omega
  have e5 : b5 * 1099511627776 / 2 ^ 24 = b5 * 65536 := by omega
  have e6 : b6 * 281474976710656 / 2 ^ 40 = b6 * 256 := by omega
  have e7 : b7 * 72057594037927936 / 2 ^ 56 = b7 := by omega
  rw [e0, e1, e2, e3, e4, e5, e6, e7]
  rw [or_eq_add (b0 * 72057594037927936) (b1 * 281474976710656) 56 (by omega) (by omega),
    or_eq_add _ (b2 * 1099511627776) 48 (by omega) (by omega),
    or_eq_add _ (b3 * 4294967296) 40 (by omega) (by omega),
    or_eq_add _ (b4 * 16777216) 32 (by omega) (by omega),
    or_eq_add _ (b5 * 65536) 24 (by omega) (by omega),
    or_eq_add _ (b6 * 256) 16 (by omega) (by omega),
    or_eq_add _ b7 8 (by omega) (by omega)]

theorem bytes_of_sum (c0 c1 c2 c3 c4 c5 c6 c7 sw : Nat) (h0 : c0 < 256) (h1 : c1 < 256)
    (h2 : c2 < 256) (h3 : c3 < 256) (h4 : c4 < 256) (h5 : c5 < 256) (h6 : c6 < 256)
    (h7 : c7 < 256)
    (hs : sw = c0 * 2 ^ 56 + c1 * 2 ^ 48 + c2 * 2 ^ 40 + c3 * 2 ^ 32 + c4 * 2 ^ 24
      + c5 * 2 ^ 16 + c6 * 2 ^ 8 + c7) :
    (sw >>> (8 * 0)) % 256 = c7 ∧ (sw >>> (8 * 1)) % 256 = c6 ∧ (sw >>> (8 * 2)) % 256 = c5 ∧
    (sw >>> (8 * 3)) % 256 = c4 ∧ (sw >>> (8 * 4)) % 256 = c3 ∧ (sw >>> (8 * 5)) % 256 = c2 ∧
    (sw >>> (8 * 6)) % 256 = c1 ∧ (sw >>> (8 * 7)) % 256 = c0 := by
  simp only [Nat.shiftRight_eq_div_pow]
  norm_num
  norm_num at hs
  refine ⟨?_, ?_, ?_, ?_, ?_, ?_, ?_, ?_⟩ <;> omega

/-- What `write_be_u64` leaves in the buffer: the big-endian bytes of the value
at offsets `p .. p + 7`. -/
theorem write_be_u64_spec (buf : List Nat) (p v : Nat) :
    (write_be_u64 buf p v).length = buf.length ∧
    ∀ i, (write_be_u64 buf p v).getD i 0
      = if p ≤ i ∧ i < p + 8 ∧ i < buf.length then (Spec.be64 v).getD (i - p) 0
        else buf.getD i 0 := by
  unfold write_be_u64
  rw [bswap64 v]
  obtain ⟨b0, b1, b2, b3, b4, b5, b6, b7⟩ := bytes_of_sum (v % 256) (v / 2 ^ 8 % 256)
    (v / 2 ^ 16 % 256) (v / 2 ^ 24 % 256) (v / 2 ^ 32 % 256) (v / 2 ^ 40 % 256)
    (v / 2 ^ 48 % 256) (v / 2 ^ 56 % 256) _ (Nat.mod_lt _ (by norm_num))
    (Nat.mod_lt _ (by norm_num)) (Nat.mod_lt _ (by norm_num)) (Nat.mod_lt _ (by norm_num))
    (Nat.mod_lt _ (by norm_num)) (Nat.mod_lt _ (by norm_num)) (Nat.mod_lt _ (by norm_num))
    (Nat.mod_lt _ (by norm_num)) rfl
  rw [store_u64, for_loop_eight]
  simp only [b0, b1, b2, b3, b4, b5, b6, b7]
  clear b0 b1 b2 b3 b4 b5 b6 b7
  refine ⟨by simp, fun i => ?_⟩
  simp only [getD_set, List.length_set, Spec.be64]
  by_cases h : p ≤ i ∧ i < p + 8 ∧ i < buf.length
  · rw [if_pos h]
    obtain ⟨h1, h2, h3⟩ := h
    obtain ⟨j, rfl⟩ : ∃ j, i = p + j := ⟨i - p, by omega⟩
    have hj : j < 8 := by omega
    have e : p + j - p = j := by omega
    rw [e]
    interval_cases j <;> simp <;> omega
  · have hj : ∀ j, j < 8 → ¬ (p + j = i ∧ p + j < buf.length) := by
      intro j hj hc
      exact h ⟨by omega, by omega, by omega⟩
    rw [if_neg h, if_neg (hj 7 (by decide)), if_neg (hj 6 (by decide)),
      if_neg (hj 5 (by decide)), if_neg (hj 4 (by decide)), if_neg (hj 3 (by decide)),
      if_neg (hj 2 (by decide)), if_neg (hj 1 (by decide)), if_neg (hj 0 (by decide))]

/-! ## The three shapes of `pad_block` -/

theorem getD_append_if (l₁ l₂ : List Nat) (i : Nat) :
    (l₁ ++ l₂).getD i 0 = if i < l₁.length then l₁.getD i 0 else l₂.getD (i - l₁.length) 0 := by
  by_cases h : i < l₁.length
  · rw [if_pos h, List.getD_append _ _ _ _ h]
  · rw [if_neg h, List.getD_append_right _ _ _ _ (Nat.le_of_not_lt h)]

theorem getD_replicate_zero (k i : Nat) : (List.replicate k 0).getD i 0 = 0 := by
  by_cases h : i < k
  · simp [List.getD_eq_getElem?_getD, List.getElem?_replicate, h]
  · simp [List.getD_eq_getElem?_getD, List.getElem?_replicate, h]

theorem be64_length (x : Nat) : (Spec.be64 x).length = 8 := rfl

/-- The copy puts the first `n` bytes of the source at the start of the buffer. -/
theorem unsafe_copy_take (rb mem : List Nat) (n : Nat) (hmem : n ≤ mem.length)
    (hrb : n ≤ rb.length) : (unsafe_copy rb mem n).take n = mem.take n := by
  obtain ⟨u1, u2⟩ := unsafe_copy_spec rb mem n
  apply ext_getD
  · simp only [List.length_take, u1]; omega
  · intro i hi
    have hin : i < n := by
      simp only [List.length_take] at hi; omega
    rw [getD_take _ n i hin, getD_take _ n i hin, u2,
      if_pos (show i < n ∧ i < rb.length from ⟨hin, by omega⟩)]

/-- The end of Shape A: terminator, zero fill up to offset 56, then the length. -/
theorem pad_tail_A (buf : List Nat) (n v : Nat) (hn : n ≤ 55) (hlen : buf.length = 64) :
    write_be_u64 (zero_fill (buf.set n 0x80) (n + 1) (55 - n)).1
        (zero_fill (buf.set n 0x80) (n + 1) (55 - n)).2 v
      = buf.take n ++ [0x80] ++ List.replicate (55 - n) 0 ++ Spec.be64 v := by
  obtain ⟨z1, z2, z3⟩ := zero_fill_spec (55 - n) (buf.set n 0x80) (n + 1)
  have hq : n + 1 + (55 - n) = 56 := by omega
  rw [z1, hq]
  rw [hq] at z3
  generalize (zero_fill (buf.set n 0x80) (n + 1) (55 - n)).1 = b at z2 z3
  obtain ⟨w1, w2⟩ := write_be_u64_spec b 56 v
  have hbl : b.length = 64 := by rw [z2, List.length_set, hlen]
  have hmin : min n buf.length = n := by omega
  apply ext_getD
  · rw [w1, hbl]
    simp only [List.length_append, List.length_take, hmin,
      List.length_singleton, List.length_replicate, be64_length]
    omega
  · intro i hi
    rw [w1, hbl] at hi
    rw [w2, z3, getD_set, hbl, hlen]
    simp only [getD_append_if, List.length_append, List.length_take, hmin,
      List.length_singleton, List.length_replicate, getD_replicate_zero]
    rw [hq]
    by_cases c1 : 56 ≤ i
    · rw [if_pos (show 56 ≤ i ∧ i < 56 + 8 ∧ i < 64 from ⟨c1, by omega, hi⟩),
        if_neg (show ¬ i < 56 from by omega)]
    · rw [if_neg (show ¬ (56 ≤ i ∧ i < 56 + 8 ∧ i < 64) from fun h => c1 h.1),
        if_pos (show i < 56 from by omega)]
      by_cases c2 : n + 1 ≤ i
      · rw [if_pos (show n + 1 ≤ i ∧ i < 56 from ⟨c2, by omega⟩),
          if_neg (show ¬ i < n + 1 from by omega)]
      · rw [if_neg (show ¬ (n + 1 ≤ i ∧ i < 56) from fun h => c2 h.1),
          if_pos (show i < n + 1 from by omega)]
        by_cases c3 : n = i
        · subst c3
          rw [if_pos (show n = n ∧ n < 64 from ⟨rfl, by omega⟩),
            if_neg (show ¬ n < n from by omega)]
          simp
        · rw [if_neg (show ¬ (n = i ∧ n < 64) from fun h => c3 h.1),
            if_pos (show i < n from by omega)]
          exact (getD_take buf n i (by omega)).symm

/-- The end of Shape B: terminator, then zero fill up to the end of the block. -/
theorem pad_tail_B (buf : List Nat) (n : Nat) (hn : n ≤ 63) (hlen : buf.length = 64) :
    (zero_fill (buf.set n 0x80) (n + 1) (63 - n)).1
      = buf.take n ++ [0x80] ++ List.replicate (63 - n) 0 := by
  obtain ⟨_, z2, z3⟩ := zero_fill_spec (63 - n) (buf.set n 0x80) (n + 1)
  have hq : n + 1 + (63 - n) = 64 := by omega
  rw [hq] at z3
  generalize (zero_fill (buf.set n 0x80) (n + 1) (63 - n)).1 = b at z2 z3
  have hbl : b.length = 64 := by rw [z2, List.length_set, hlen]
  have hmin : min n buf.length = n := by omega
  apply ext_getD
  · rw [hbl]
    simp only [List.length_append, List.length_take, hmin,
      List.length_singleton, List.length_replicate]
    omega
  · intro i hi
    rw [hbl] at hi
    rw [z3, getD_set, hlen]
    simp only [getD_append_if, List.length_append, List.length_take, hmin,
      List.length_singleton, List.length_replicate, getD_replicate_zero]
    by_cases c2 : n + 1 ≤ i
    · rw [if_pos (show n + 1 ≤ i ∧ i < 64 from ⟨c2, hi⟩),
        if_neg (show ¬ i < n + 1 from by omega)]
    · rw [if_neg (show ¬ (n + 1 ≤ i ∧ i < 64) from fun h => c2 h.1),
        if_pos (show i < n + 1 from by omega)]
      by_cases c3 : n = i
      · subst c3
        rw [if_pos (show n = n ∧ n < 64 from ⟨rfl, by omega⟩),
          if_neg (show ¬ n < n from by omega)]
        simp
      · rw [if_neg (show ¬ (n = i ∧ n < 64) from fun h => c3 h.1),
          if_pos (show i < n from by omega)]
        exact (getD_take buf n i (by omega)).symm

/-- The buffer after the optional copy starts with the data. -/
theorem copied_take (data : Ptr) (rb : List Nat) (n : Nat) (hd : data ≠ Ptr.null)
    (hmem : n ≤ (data.bytes rb).length) (hrb : n ≤ rb.length) :
    ((match data with
      | Ptr.region mem => unsafe_copy rb mem n
      | _ => rb).take n = (data.bytes rb).take n) ∧
    (match data with
      | Ptr.region mem => unsafe_copy rb mem n
      | _ => rb).length = rb.length := by
  cases data with
  | null => exact absurd rfl hd
  | result_buffer => exact ⟨rfl, rfl⟩
  | region mem => exact ⟨unsafe_copy_take rb mem n hmem hrb, (unsafe_copy_spec rb mem n).1⟩

/-- Shape A of `pad_block`. -/
theorem pad_block_A (data : Ptr) (rb : List Nat) (n L : Nat) (hd : data ≠ Ptr.null)
    (hn : n ≤ 55) (hmem : n ≤ (data.bytes rb).length) (hrb : rb.length = 64) :
    pad_block data n L rb
      = (true, (data.bytes rb).take n ++ [0x80] ++ List.replicate (55 - n) 0
          ++ Spec.be64 (L * 8 % 2 ^ 64)) := by
  have hz : ((block_length - (1 + 8)) + 2 ^ 64 - n) % 2 ^ 64 = 55 - n := by
    simp only [block_length]; omega
  have hc : n ≤ block_length - (1 + 8) := by simp only [block_length]; omega
  obtain ⟨t1, t2⟩ := copied_take data rb n hd hmem (by omega)
  cases data with
  | null => exact absurd rfl hd
  | result_buffer =>
    simp only [pad_block, if_pos hc, hz]
    rw [pad_tail_A rb n _ hn hrb]
    rfl
  | region mem =>
    simp only [pad_block, if_pos hc, hz]
    simp only [] at t1 t2
    rw [pad_tail_A _ n _ hn (by rw [t2, hrb]), t1]

/-- Shape B of `pad_block`. -/
theorem pad_block_B (data : Ptr) (rb : List Nat) (n L : Nat) (hd : data ≠ Ptr.null)
    (hn : 56 ≤ n) (hn2 : n ≤ 63) (hmem : n ≤ (data.bytes rb).length) (hrb : rb.length = 64) :
    pad_block data n L rb
      = (false, (data.bytes rb).take n ++ [0x80] ++ List.replicate (63 - n) 0) := by
  have hz : ((block_length - 1) + 2 ^ 64 - n) % 2 ^ 64 = 63 - n := by
    simp only [block_length]; omega
  have hc : ¬ n ≤ block_length - (1 + 8) := by simp only [block_length]; omega
  obtain ⟨t1, t2⟩ := copied_take data rb n hd hmem (by omega)
  cases data with
  | null => exact absurd rfl hd
  | result_buffer =>
    simp only [pad_block, if_neg hc, hz]
    rw [pad_tail_B rb n hn2 hrb]
    rfl
  | region mem =>
    simp only [pad_block, if_neg hc, hz]
    simp only [] at t1 t2
    rw [pad_tail_B _ n hn2 (by rw [t2, hrb]), t1]

/-- Shape C of `pad_block`. -/
theorem pad_block_C (rb : List Nat) (n L : Nat) (hrb : rb.length = 64) :
    pad_block Ptr.null n L rb
      = (true, List.replicate 56 0 ++ Spec.be64 (L * 8 % 2 ^ 64)) := by
  simp only [pad_block]
  obtain ⟨z1, z2, z3⟩ := zero_fill_spec (block_length - 8) rb 0
  have hq : 0 + (block_length - 8) = 56 := by simp only [block_length]
  rw [z1, hq]
  rw [hq] at z3
  generalize (zero_fill rb 0 (block_length - 8)).1 = b at z2 z3
  obtain ⟨w1, w2⟩ := write_be_u64_spec b 56 (L * 8 % 2 ^ 64)
  have hbl : b.length = 64 := by rw [z2, hrb]
  refine Prod.ext rfl ?_
  apply ext_getD
  · rw [w1, hbl]
    simp only [List.length_append, List.length_replicate, be64_length]
  · intro i hi
    rw [w1, hbl] at hi
    rw [w2, z3, hbl]
    simp only [getD_append_if, List.length_replicate, getD_replicate_zero]
    by_cases c1 : 56 ≤ i
    · rw [if_pos (show 56 ≤ i ∧ i < 56 + 8 ∧ i < 64 from ⟨c1, by omega, hi⟩),
        if_neg (show ¬ i < 56 from by omega)]
    · rw [if_neg (show ¬ (56 ≤ i ∧ i < 56 + 8 ∧ i < 64) from fun h => c1 h.1),
        if_pos (show i < 56 from by omega),
        if_pos (show 0 ≤ i ∧ i < 56 from ⟨Nat.zero_le i, by omega⟩)]

/-! ## `get_digest` and `init` -/

theorem digest_bytes (w : Nat) :
    ((w &&& 0xFF000000) >>> 24) % 256 = w / 2 ^ 24 % 256 ∧
    ((w &&& 0x00FF0000) >>> 16) % 256 = w / 2 ^ 16 % 256 ∧
    ((w &&& 0x0000FF00) >>> 8) % 256 = w / 2 ^ 8 % 256 ∧
    ((w &&& 0x000000FF) >>> 0) % 256 = w % 256 := by
  have m0 := and_mask w 0 8
  have m1 := and_mask w 8 8
  have m2 := and_mask w 16 8
  have m3 := and_mask w 24 8
  norm_num at m0 m1 m2 m3
  simp only [Nat.shiftRight_eq_div_pow]
  norm_num
  rw [m0, m1, m2, m3]
  refine ⟨?_, ?_, ?_, ?_⟩ <;> omega

theorem serialize_length (H : List Nat) : (Spec.serialize H).length = 4 * H.length := by
  induction H with
  | nil => rfl
  | cons w t ih =>
    simp only [Spec.serialize, List.flatMap_cons, List.length_append, List.length_cons,
      List.length_nil] at ih ⊢
    omega

theorem serialize_cons (w : Nat) (H : List Nat) :
    Spec.serialize (w :: H)
      = [w / 2 ^ 24 % 256, w / 2 ^ 16 % 256, w / 2 ^ 8 % 256, w % 256] ++ Spec.serialize H := by
  simp [Spec.serialize]

/-- Byte `4 i + k` of the serialisation is byte `3 - k` of word `i`. -/
theorem serialize_getD (H : List Nat) : ∀ (i : Nat), i < H.length →
    (Spec.serialize H).getD (4 * i) 0 = H.getD i 0 / 2 ^ 24 % 256 ∧
    (Spec.serialize H).getD (4 * i + 1) 0 = H.getD i 0 / 2 ^ 16 % 256 ∧
    (Spec.serialize H).getD (4 * i + 2) 0 = H.getD i 0 / 2 ^ 8 % 256 ∧
    (Spec.serialize H).getD (4 * i + 3) 0 = H.getD i 0 % 256 := by
  induction H with
  | nil => intro i hi; exact absurd hi (Nat.not_lt_zero i)
  | cons w t ih =>
    intro i hi
    rw [serialize_cons]
    cases i with
    | zero => simp
    | succ j =>
      have hj : j < t.length := by simpa using hi
      obtain ⟨h0, h1, h2, h3⟩ := ih j hj
      have e0 : 4 * (j + 1) = 4 * j + 4 := by omega
      have s0 : 4 * j + 4 - 4 = 4 * j := by omega
      have s1 : 4 * j + 4 + 1 - 4 = 4 * j + 1 := by omega
      have s2 : 4 * j + 4 + 2 - 4 = 4 * j + 2 := by omega
      have s3 : 4 * j + 4 + 3 - 4 = 4 * j + 3 := by omega
      rw [e0]
      simp only [getD_append_if, List.length_cons, List.length_nil]
      rw [if_neg (show ¬ 4 * j + 4 < 0 + 1 + 1 + 1 + 1 from by omega),
        if_neg (show ¬ 4 * j + 4 + 1 < 0 + 1 + 1 + 1 + 1 from by omega),
        if_neg (show ¬ 4 * j + 4 + 2 < 0 + 1 + 1 + 1 + 1 from by omega),
        if_neg (show ¬ 4 * j + 4 + 3 < 0 + 1 + 1 + 1 + 1 from by omega)]
      simp only [Nat.zero_add, Nat.reduceAdd, s0, s1, s2, s3, List.getD_cons_succ]
      exact ⟨h0, h1, h2, h3⟩

/-- The loop of `get_digest`, byte by byte. -/
theorem get_digest_getD (H rb : List Nat) (hrb : 32 ≤ rb.length) :
    (get_digest H rb).length = rb.length ∧
    (∀ i, i < 8 →
      (get_digest H rb).getD (4 * i) 0 = H.getD i 0 / 2 ^ 24 % 256 ∧
      (get_digest H rb).getD (4 * i + 1) 0 = H.getD i 0 / 2 ^ 16 % 256 ∧
      (get_digest H rb).getD (4 * i + 2) 0 = H.getD i 0 / 2 ^ 8 % 256 ∧
      (get_digest H rb).getD (4 * i + 3) 0 = H.getD i 0 % 256) ∧
    (∀ j, 32 ≤ j → (get_digest H rb).getD j 0 = rb.getD j 0) := by
  unfold get_digest
  simp only []
  have key := for_loop_invariant
    (fun k (b : List Nat) => b.length = rb.length ∧
      (∀ i, i < k →
        b.getD (4 * i) 0 = H.getD i 0 / 2 ^ 24 % 256 ∧
        b.getD (4 * i + 1) 0 = H.getD i 0 / 2 ^ 16 % 256 ∧
        b.getD (4 * i + 2) 0 = H.getD i 0 / 2 ^ 8 % 256 ∧
        b.getD (4 * i + 3) 0 = H.getD i 0 % 256) ∧
      (∀ j, 4 * k ≤ j → b.getD j 0 = rb.getD j 0))
    0 8 (fun i rb =>
      (((rb.set (i * 4 + 0) (((H.getD i 0 &&& 0xFF000000) >>> 24) % 256)).set
        (i * 4 + 1) (((H.getD i 0 &&& 0x00FF0000) >>> 16) % 256)).set
        (i * 4 + 2) (((H.getD i 0 &&& 0x0000FF00) >>> 8) % 256)).set
        (i * 4 + 3) (((H.getD i 0 &&& 0x000000FF) >>> 0) % 256)) rb (by decide)
    ⟨rfl, fun i hi => absurd hi (Nat.not_lt_zero i), fun j _ => rfl⟩
    (by
      intro t b _ ht ⟨hl, hlo, hhi⟩
      obtain ⟨d3, d2, d1, d0⟩ := digest_bytes (H.getD t 0)
      beta_reduce
      rw [d3, d2, d1, d0]
      refine ⟨by simp [hl], ?_, ?_⟩
      · intro i hi
        simp only [getD_set, List.length_set, hl]
        by_cases hit : i = t
        · subst hit
          refine ⟨?_, ?_, ?_, ?_⟩
          · rw [if_neg (show ¬ (i * 4 + 3 = 4 * i ∧ i * 4 + 3 < rb.length) from by omega),
              if_neg (show ¬ (i * 4 + 2 = 4 * i ∧ i * 4 + 2 < rb.length) from by omega),
              if_neg (show ¬ (i * 4 + 1 = 4 * i ∧ i * 4 + 1 < rb.length) from by omega),
              if_pos (show i * 4 + 0 = 4 * i ∧ i * 4 + 0 < rb.length from by omega)]
          · rw [if_neg (show ¬ (i * 4 + 3 = 4 * i + 1 ∧ i * 4 + 3 < rb.length) from by omega),
              if_neg (show ¬ (i * 4 + 2 = 4 * i + 1 ∧ i * 4 + 2 < rb.length) from by omega),
              if_pos (show i * 4 + 1 = 4 * i + 1 ∧ i * 4 + 1 < rb.length from by omega)]
          · rw [if_neg (show ¬ (i * 4 + 3 = 4 * i + 2 ∧ i * 4 + 3 < rb.length) from by omega),
              if_pos (show i * 4 + 2 = 4 * i + 2 ∧ i * 4 + 2 < rb.length from by omega)]
          · rw [if_pos (show i * 4 + 3 = 4 * i + 3 ∧ i * 4 + 3 < rb.length from by omega)]
        · have hlt : i < t := by omega
          obtain ⟨h0, h1, h2, h3⟩ := hlo i hlt
          refine ⟨?_, ?_, ?_, ?_⟩
          · rw [if_neg (show ¬ (t * 4 + 3 = 4 * i ∧ t * 4 + 3 < rb.length) from by omega),
              if_neg (show ¬ (t * 4 + 2 = 4 * i ∧ t * 4 + 2 < rb.length) from by omega),
              if_neg (show ¬ (t * 4 + 1 = 4 * i ∧ t * 4 + 1 < rb.length) from by omega),
              if_neg (show ¬ (t * 4 + 0 = 4 * i ∧ t * 4 + 0 < rb.length) from by omega), h0]
          · rw [if_neg (show ¬ (t * 4 + 3 = 4 * i + 1 ∧ t * 4 + 3 < rb.length) from by omega),
              if_neg (show ¬ (t * 4 + 2 = 4 * i + 1 ∧ t * 4 + 2 < rb.length) from by omega),
              if_neg (show ¬ (t * 4 + 1 = 4 * i + 1 ∧ t * 4 + 1 < rb.length) from by omega),
              if_neg (show ¬ (t * 4 + 0 = 4 * i + 1 ∧ t * 4 + 0 < rb.length) from by omega), h1]
          · rw [if_neg (show ¬ (t * 4 + 3 = 4 * i + 2 ∧ t * 4 + 3 < rb.length) from by omega),
              if_neg (show ¬ (t * 4 + 2 = 4 * i + 2 ∧ t * 4 + 2 < rb.length) from by omega),
              if_neg (show ¬ (t * 4 + 1 = 4 * i + 2 ∧ t * 4 + 1 < rb.length) from by omega),
              if_neg (show ¬ (t * 4 + 0 = 4 * i + 2 ∧ t * 4 + 0 < rb.length) from by omega), h2]
          · rw [if_neg (show ¬ (t * 4 + 3 = 4 * i + 3 ∧ t * 4 + 3 < rb.length) from by omega),
              if_neg (show ¬ (t * 4 + 2 = 4 * i + 3 ∧ t * 4 + 2 < rb.length) from by omega),
              if_neg (show ¬ (t * 4 + 1 = 4 * i + 3 ∧ t * 4 + 1 < rb.length) from by omega),
              if_neg (show ¬ (t * 4 + 0 = 4 * i + 3 ∧ t * 4 + 0 < rb.length) from by omega), h3]
      · intro j hj
        simp only [getD_set, List.length_set, hl]
        rw [if_neg (show ¬ (t * 4 + 3 = j ∧ t * 4 + 3 < rb.length) from by omega),
          if_neg (show ¬ (t * 4 + 2 = j ∧ t * 4 + 2 < rb.length) from by omega),
          if_neg (show ¬ (t * 4 + 1 = j ∧ t * 4 + 1 < rb.length) from by omega),
          if_neg (show ¬ (t * 4 + 0 = j ∧ t * 4 + 0 < rb.length) from by omega)]
        exact hhi j (by omega))
  exact ⟨key.1, key.2.1, fun j hj => key.2.2 j (by omega)⟩

theorem getD_drop (l : List Nat) (n i : Nat) : (l.drop n).getD i 0 = l.getD (n + i) 0 := by
  simp [List.getD_eq_getElem?_getD, List.getElem?_drop]

/-- The function `get_digest` overwrites the first 32 bytes of the buffer with the big-endian
serialisation of the state and leaves the rest alone. -/
theorem get_digest_eq (H rb : List Nat) (hH : H.length = 8) (hrb : 32 ≤ rb.length) :
    get_digest H rb = Spec.serialize H ++ rb.drop 32 := by
  obtain ⟨g1, g2, g3⟩ := get_digest_getD H rb hrb
  have hsl : (Spec.serialize H).length = 32 := by rw [serialize_length, hH]
  apply ext_getD
  · rw [g1, List.length_append, hsl, List.length_drop]; omega
  · intro i _
    rw [getD_append_if, hsl]
    by_cases h : i < 32
    · rw [if_pos h]
      obtain ⟨a0, a1, a2, a3⟩ := g2 (i / 4) (by omega)
      obtain ⟨b0, b1, b2, b3⟩ := serialize_getD H (i / 4) (by omega)
      have hm : i % 4 = 0 ∨ i % 4 = 1 ∨ i % 4 = 2 ∨ i % 4 = 3 := by omega
      rcases hm with hm | hm | hm | hm
      · have e : i = 4 * (i / 4) := by omega
        rw [e, a0, b0]
      · have e : i = 4 * (i / 4) + 1 := by omega
        rw [e, a1, b1]
      · have e : i = 4 * (i / 4) + 2 := by omega
        rw [e, a2, b2]
      · have e : i = 4 * (i / 4) + 3 := by omega
        rw [e, a3, b3]
    · have e : 32 + (i - 32) = i := by omega
      rw [if_neg h, g3 i (by omega), getD_drop, e]

theorem be_word_get_digest (H rb : List Nat) (hrb : 32 ≤ rb.length) (i : Nat) (hi : i < 8)
    (hw : H.getD i 0 < 2 ^ 32) : Spec.be_word (get_digest H rb) i = H.getD i 0 := by
  obtain ⟨a0, a1, a2, a3⟩ := (get_digest_getD H rb hrb).2.1 i hi
  simp only [Spec.be_word, a0, a1, a2, a3]
  omega

theorem getD_mem_lt (l : List Nat) (bound : Nat) (hb : 0 < bound) (h : ∀ b, b ∈ l → b < bound)
    (i : Nat) : l.getD i 0 < bound := by
  by_cases hi : i < l.length
  · rw [List.getD_eq_getElem _ _ hi]
    exact h _ (List.getElem_mem hi)
  · rw [List.getD_eq_default _ _ (Nat.le_of_not_lt hi)]
    exact hb

theorem init_eq (s : List Nat) (hs : s.length = 8) : init s = sha256_initial_hash_value := by
  obtain ⟨s0, s1, s2, s3, s4, s5, s6, s7, rfl⟩ := length_eq_eight s hs
  simp [init, for_loop_eight, sha256_initial_hash_value]

theorem transform_block_length (s data : List Nat) :
    (transform_block s data).length = s.length := by
  simp [transform_block]

theorem clear_state_length (s : List Nat) : (clear_state s).length = s.length := by
  simp [clear_state]

/-! ## The blocks of the padded message -/

theorem zero_count_eq (L : Nat) : Spec.zero_count L = (119 - L % 64) % 64 := by
  unfold Spec.zero_count
  rw [Nat.find_eq_iff]
  refine ⟨by omega, fun n hn => by omega⟩

theorem blocks_append (A B : List Nat) (a : Nat) (hA : A.length = 64 * a) :
    Spec.blocks (A ++ B) = Spec.blocks A ++ Spec.blocks B := by
  unfold Spec.blocks
  have e1 : (A ++ B).length / 64 = a + B.length / 64 := by
    rw [List.length_append, hA]; omega
  have e2 : A.length / 64 = a := by rw [hA]; omega
  rw [e1, e2, List.range_add, List.map_append, List.map_map]
  congr 1
  · apply List.map_congr_left
    intro j hj
    have hj' : j < a := List.mem_range.mp hj
    rw [List.drop_append_of_le_length (by omega),
      List.take_append_of_le_length (by rw [List.length_drop]; omega)]
  · apply List.map_congr_left
    intro j _
    have e3 : 64 * (a + j) = A.length + 64 * j := by rw [hA]; omega
    simp only [Function.comp, e3, List.drop_append]

theorem blocks_single (X : List Nat) (h : X.length = 64) : Spec.blocks X = [X] := by
  unfold Spec.blocks
  rw [h]
  simp [List.range_succ, List.take_of_length_le (Nat.le_of_eq h)]

theorem blocks_take (m : List Nat) (q : Nat) (h : 64 * q ≤ m.length) :
    Spec.blocks (m.take (64 * q)) = (List.range q).map (fun j => (m.drop (64 * j)).take 64) := by
  unfold Spec.blocks
  have e : (m.take (64 * q)).length / 64 = q := by
    rw [List.length_take, Nat.min_eq_left h]; omega
  rw [e]
  apply List.map_congr_left
  intro j hj
  have hj' : j < q := List.mem_range.mp hj
  rw [List.drop_take, List.take_take]
  congr 1
  omega

/-- The blocks of the padded message: the full blocks of the message, then one
or two blocks made of the remainder, the terminator, zeroes and the length. -/
theorem blocks_pad (m : List Nat) :
    Spec.blocks (Spec.pad m)
      = (List.range (m.length / 64)).map (fun j => (m.drop (64 * j)).take 64) ++
        (if m.length % 64 ≤ 55 then
          [m.drop (64 * (m.length / 64)) ++ [0x80]
            ++ List.replicate (55 - m.length % 64) 0 ++ Spec.be64 (8 * m.length)]
        else
          [m.drop (64 * (m.length / 64)) ++ [0x80] ++ List.replicate (63 - m.length % 64) 0,
           List.replicate 56 0 ++ Spec.be64 (8 * m.length)]) := by
  have hq : 64 * (m.length / 64) ≤ m.length := by omega
  have htl : (m.drop (64 * (m.length / 64))).length = m.length % 64 := by
    rw [List.length_drop]; omega
  have hsplit : Spec.pad m = m.take (64 * (m.length / 64)) ++
      (m.drop (64 * (m.length / 64)) ++ [0x80]
        ++ List.replicate (Spec.zero_count m.length) 0 ++ Spec.be64 (8 * m.length)) := by
    unfold Spec.pad
    generalize Spec.zero_count m.length = z
    generalize 8 * m.length = v
    generalize 64 * (m.length / 64) = k
    conv_lhs => rw [← List.take_append_drop k m]
    simp only [List.append_assoc]
  rw [hsplit, blocks_append _ _ (m.length / 64)
    (by rw [List.length_take, Nat.min_eq_left hq]), blocks_take m _ hq, zero_count_eq]
  congr 1
  by_cases hr : m.length % 64 ≤ 55
  · have ez : (119 - m.length % 64) % 64 = 55 - m.length % 64 := by omega
    rw [if_pos hr, ez]
    apply blocks_single
    simp only [List.length_append, htl, List.length_singleton, List.length_replicate,
      be64_length]
    omega
  · have ez : (119 - m.length % 64) % 64 = (63 - m.length % 64) + 56 := by omega
    rw [if_neg hr, ez, List.replicate_add]
    have eassoc : m.drop (64 * (m.length / 64)) ++ [0x80]
          ++ (List.replicate (63 - m.length % 64) 0 ++ List.replicate 56 0)
          ++ Spec.be64 (8 * m.length)
        = (m.drop (64 * (m.length / 64)) ++ [0x80] ++ List.replicate (63 - m.length % 64) 0)
          ++ (List.replicate 56 0 ++ Spec.be64 (8 * m.length)) := by
      simp only [List.append_assoc]
    rw [eassoc, blocks_append _ _ 1 (by
      simp only [List.length_append, htl, List.length_singleton, List.length_replicate]
      omega)]
    rw [blocks_single _ (by
      simp only [List.length_append, htl, List.length_singleton, List.length_replicate]
      omega), blocks_single _ (by
      simp only [List.length_append, List.length_replicate, be64_length])]
    rfl

/-! ## The block loop of `compute_hash` -/

theorem block_loop_spec (data : List Nat) (k : Nat) : ∀ (j fuel : Nat) (ctx : List Nat),
    k < fuel →
    block_loop data (64 * (j + k)) fuel (64 * j) ctx
      = some (64 * (j + k),
          (List.range' j k).foldl (fun c i => transform_block c (data.drop (64 * i))) ctx) := by
  induction k with
  | zero =>
    intro j fuel ctx hf
    obtain ⟨f, rfl⟩ : ∃ f, fuel = f + 1 := ⟨fuel - 1, by omega⟩
    simp [block_loop]
  | succ n ih =>
    intro j fuel ctx hf
    obtain ⟨f, rfl⟩ : ∃ f, fuel = f + 1 := ⟨fuel - 1, by omega⟩
    have hne : ¬ 64 * j = 64 * (j + (n + 1)) := by omega
    have e1 : 64 * j + block_length = 64 * (j + 1) := by simp only [block_length]; omega
    have e2 : 64 * (j + (n + 1)) = 64 * (j + 1 + n) := by omega
    rw [block_loop, if_neg hne, e1, e2, ih (j + 1) f _ (by omega)]
    simp [List.range'_succ]

theorem mask_eq (L : Nat) (hL : L < 2 ^ 64) :
    L &&& (0xFFFFFFFFFFFFFFFF ^^^ (block_length - 1)) = 64 * (L / 64) := by
  have e : (0xFFFFFFFFFFFFFFFF ^^^ (block_length - 1)) = (2 ^ 58 - 1) * 2 ^ 6 := by decide
  rw [e, and_mask]
  omega

/-- Absorbing memory regions with the code is folding the compression function
over their first 64 bytes; the state stays well formed. -/
theorem fold_transform (ds : List (List Nat)) : ∀ (H : List Nat), H.length = 8 →
    (∀ w, w ∈ H → w < 2 ^ 32) → (∀ d, d ∈ ds → ∀ b, b ∈ d → b < 256) →
    ds.foldl transform_block H = (ds.map (List.take 64)).foldl Spec.compress H ∧
    (ds.foldl transform_block H).length = 8 ∧
    (∀ w, w ∈ ds.foldl transform_block H → w < 2 ^ 32) := by
  induction ds with
  | nil => intro H hH hw _; exact ⟨rfl, hH, hw⟩
  | cons d t ih =>
    intro H hH hw hd
    have hb : ∀ i, i < 64 → d.getD i 0 < 256 := fun i _ =>
      getD_mem_lt d 256 (by norm_num) (hd d (List.mem_cons_self _ _)) i
    have e := transform_block_spec H d hH hw hb
    have hl := compress_length H d hH hw hb
    simp only [List.foldl_cons, List.map_cons]
    rw [compress_take, e]
    exact ih (Spec.compress H d) hl (compress_lt H d)
      (fun d' hd' => hd d' (List.mem_cons_of_mem _ hd'))

/-! ## `compute_hash` -/

/-- What `compute_hash` does on a non-null buffer: the state is initialised,
the full blocks of the message are absorbed, then one or two padding blocks;
the digest is read off and the state is cleared. -/
theorem compute_hash_run_eq (m result ctx buf : List Nat) (hL : m.length < 2 ^ 64)
    (hctx : ctx.length = 8) (hbuf : buf.length = 64) :
    compute_hash_run (some m) m.length result ctx buf
      = some
        (get_digest
          (((List.range (m.length / 64)).map (fun j => m.drop (64 * j)) ++
            (if m.length % 64 ≤ 55 then
              [m.drop (64 * (m.length / 64)) ++ [0x80]
                ++ List.replicate (55 - m.length % 64) 0
                ++ Spec.be64 (m.length * 8 % 2 ^ 64)]
            else
              [m.drop (64 * (m.length / 64)) ++ [0x80]
                ++ List.replicate (63 - m.length % 64) 0,
               List.replicate 56 0 ++ Spec.be64 (m.length * 8 % 2 ^ 64)])).foldl
            transform_block sha256_initial_hash_value) result,
         clear_state
          (((List.range (m.length / 64)).map (fun j => m.drop (64 * j)) ++
            (if m.length % 64 ≤ 55 then
              [m.drop (64 * (m.length / 64)) ++ [0x80]
                ++ List.replicate (55 - m.length % 64) 0
                ++ Spec.be64 (m.length * 8 % 2 ^ 64)]
            else
              [m.drop (64 * (m.length / 64)) ++ [0x80]
                ++ List.replicate (63 - m.length % 64) 0,
               List.replicate 56 0 ++ Spec.be64 (m.length * 8 % 2 ^ 64)])).foldl
            transform_block sha256_initial_hash_value)) := by
  have hloop := block_loop_spec m (m.length / 64) 0 (m.length / block_length + 1) (init ctx)
    (by simp only [block_length]; omega)
  simp only [Nat.zero_add, Nat.mul_zero] at hloop
  have hrem : (m.length + 2 ^ 64 - 64 * (m.length / 64)) % 2 ^ 64 = m.length % 64 := by omega
  have htl : (m.drop (64 * (m.length / 64))).length = m.length % 64 := by
    rw [List.length_drop]; omega
  have htake : (m.drop (64 * (m.length / 64))).take (m.length % 64)
      = m.drop (64 * (m.length / 64)) := List.take_of_length_le (Nat.le_of_eq htl)
  have hfold : (List.range' 0 (m.length / 64)).foldl
        (fun c i => transform_block c (m.drop (64 * i))) (init ctx)
      = ((List.range (m.length / 64)).map (fun j => m.drop (64 * j))).foldl
        transform_block sha256_initial_hash_value := by
    rw [List.foldl_map, init_eq ctx hctx, List.range_eq_range']
  unfold compute_hash_run
  dsimp only [Option.getD_some]
  rw [mask_eq _ hL, hloop]
  dsimp only
  rw [hfold, hrem]
  by_cases hr : m.length % 64 ≤ 55
  · rw [pad_block_A (Ptr.region (m.drop (64 * (m.length / 64)))) buf _ _ (by simp) hr
      (by simp only [Ptr.bytes]; omega) hbuf]
    dsimp only [Ptr.bytes]
    rw [htake, if_pos hr, if_neg (by decide), List.foldl_append]
    simp only [List.foldl_cons, List.foldl_nil]
  · have hB : (m.drop (64 * (m.length / 64)) ++ [0x80]
        ++ List.replicate (63 - m.length % 64) 0).length = 64 := by
      simp only [List.length_append, htl, List.length_singleton, List.length_replicate]
      omega
    rw [pad_block_B (Ptr.region (m.drop (64 * (m.length / 64)))) buf _ _ (by simp)
      (by omega) (by omega) (by simp only [Ptr.bytes]; omega) hbuf]
    dsimp only [Ptr.bytes]
    rw [htake, if_neg hr, if_pos (by decide), List.foldl_append, pad_block_C _ 0 _ hB]
    simp only [List.foldl_cons, List.foldl_nil]

theorem be64_lt (x : Nat) : ∀ b, b ∈ Spec.be64 x → b < 256 := by
  intro b hb
  simp only [Spec.be64, List.mem_cons, List.mem_singleton, List.not_mem_nil, or_false] at hb
  omega

/-- The digest `compute_hash` writes is the SHA-256 digest of the message. -/
theorem compute_hash_sha256 (m result ctx buf : List Nat) (hm : ∀ b, b ∈ m → b < 256)
    (hL : m.length < 2 ^ 61) (hres : 32 ≤ result.length) (hctx : ctx.length = 8)
    (hbuf : buf.length = 64) :
    compute_hash (some m) m.length result ctx buf
      = some (Spec.sha256 m ++ result.drop 32) := by
  have hbits : m.length * 8 % 2 ^ 64 = 8 * m.length := by omega
  have htl : (m.drop (64 * (m.length / 64))).length = m.length % 64 := by
    rw [List.length_drop]; omega
  unfold compute_hash
  rw [compute_hash_run_eq m result ctx buf (by omega) hctx hbuf, hbits]
  simp only [Option.map_some']
  have hdrop : ∀ k b, b ∈ m.drop k → b < 256 := fun k b hb => hm b (List.mem_of_mem_drop hb)
  have hrep : ∀ k b, b ∈ List.replicate k 0 → b < 256 := by
    intro k b hb
    rw [List.mem_replicate] at hb
    omega
  obtain ⟨f1, f2, _⟩ := fold_transform
    ((List.range (m.length / 64)).map (fun j => m.drop (64 * j)) ++
      (if m.length % 64 ≤ 55 then
        [m.drop (64 * (m.length / 64)) ++ [0x80]
          ++ List.replicate (55 - m.length % 64) 0 ++ Spec.be64 (8 * m.length)]
      else
        [m.drop (64 * (m.length / 64)) ++ [0x80]
          ++ List.replicate (63 - m.length % 64) 0,
         List.replicate 56 0 ++ Spec.be64 (8 * m.length)]))
    sha256_initial_hash_value rfl (by decide)
    (by
      intro d hd b hb
      rw [List.mem_append] at hd
      rcases hd with hd | hd
      · obtain ⟨j, _, rfl⟩ := List.mem_map.mp hd
        exact hdrop _ b hb
      · by_cases hr : m.length % 64 ≤ 55
        · rw [if_pos hr, List.mem_singleton] at hd
          subst hd
          simp only [List.mem_append, List.mem_singleton] at hb
          rcases hb with ((hb | hb) | hb) | hb
          · exact hdrop _ b hb
          · omega
          · exact hrep _ b hb
          · exact be64_lt _ b hb
        · rw [if_neg hr] at hd
          simp only [List.mem_cons, List.mem_singleton, List.not_mem_nil, or_false] at hd
          rcases hd with hd | hd
          · subst hd
            simp only [List.mem_append, List.mem_singleton] at hb
            rcases hb with (hb | hb) | hb
            · exact hdrop _ b hb
            · omega
            · exact hrep _ b hb
          · subst hd
            simp only [List.mem_append] at hb
            rcases hb with hb | hb
            · exact hrep _ b hb
            · exact be64_lt _ b hb)
  rw [get_digest_eq _ result f2 hres, f1]
  congr 2
  unfold Spec.sha256
  rw [blocks_pad]
  congr 2
  rw [List.map_append, List.map_map]
  congr 1
  by_cases hr : m.length % 64 ≤ 55
  · rw [if_pos hr, List.map_singleton]
    congr 1
    apply List.take_of_length_le
    simp only [List.length_append, htl, List.length_singleton, List.length_replicate,
      be64_length]
    omega
  · rw [if_neg hr]
    simp only [List.map_cons, List.map_nil]
    congr 1
    · apply List.take_of_length_le
      simp only [List.length_append, htl, List.length_singleton, List.length_replicate]
      omega

/-! ## Frame properties -/

theorem for_loop_congr {σ : Type} (lo hi : Nat) (f g : Nat → σ → σ) (s : σ)
    (h : ∀ t, lo ≤ t → t < hi → ∀ x, f t x = g t x) :
    for_loop lo hi f s = for_loop lo hi g s := by
  unfold for_loop
  have key : ∀ (l : List Nat) (s : σ), (∀ t, t ∈ l → lo ≤ t ∧ t < hi) →
      l.foldl (fun acc t => f t acc) s = l.foldl (fun acc t => g t acc) s := by
    intro l
    induction l with
    | nil => intro s _; rfl
    | cons a t ih =>
      intro s hl
      simp only [List.foldl_cons]
      rw [h a (hl a (List.mem_cons_self _ _)).1 (hl a (List.mem_cons_self _ _)).2 s]
      exact ih _ (fun x hx => hl x (List.mem_cons_of_mem _ hx))
  apply key
  intro t ht
  rw [List.mem_range'_1] at ht
  omega

theorem load_word_take (data : List Nat) (t : Nat) (ht : t < 16) :
    load_word (data.take 64) t = load_word data t := by
  simp only [load_word]
  rw [getD_take data 64 _ (by omega), getD_take data 64 _ (by omega),
    getD_take data 64 _ (by omega), getD_take data 64 _ (by omega)]

/-- The function `transform_block` reads the 64 bytes at its pointer and nothing else. -/
theorem transform_block_take (state data : List Nat) :
    transform_block state (data.take 64) = transform_block state data := by
  have h1 := for_loop_congr 0 16
    (fun t (W : List Nat) =>
      W.set t ((((load_word (data.take 64) t &&& 0x000000FF) <<< 24) % 2 ^ 32) |||
             (((load_word (data.take 64) t &&& 0x0000FF00) <<< 8) % 2 ^ 32) |||
             ((load_word (data.take 64) t &&& 0x00FF0000) >>> 8) |||
             ((load_word (data.take 64) t &&& 0xFF000000) >>> 24)))
    (fun t (W : List Nat) =>
      W.set t ((((load_word data t &&& 0x000000FF) <<< 24) % 2 ^ 32) |||
             (((load_word data t &&& 0x0000FF00) <<< 8) % 2 ^ 32) |||
             ((load_word data t &&& 0x00FF0000) >>> 8) |||
             ((load_word data t &&& 0xFF000000) >>> 24)))
    (List.replicate 64 0)
    (fun t _ ht W => by
      dsimp only
      rw [load_word_take data t ht])
  have hs : schedule (data.take 64) = schedule data := by
    unfold schedule
    dsimp only
    rw [h1]
  unfold transform_block
  rw [hs]

theorem foldl_transform_length (ds : List (List Nat)) : ∀ (H : List Nat),
    (ds.foldl transform_block H).length = H.length := by
  induction ds with
  | nil => intro H; rfl
  | cons d t ih =>
    intro H
    rw [List.foldl_cons, ih, transform_block_length]

/-- The digest written does not depend on what the result buffer and the two
locals of `compute_hash` contained beforehand; the bytes of the result buffer
after the first 32 are kept. -/
theorem compute_hash_frame (m result ctx buf : List Nat) (hL : m.length < 2 ^ 64)
    (hres : 32 ≤ result.length) (hctx : ctx.length = 8) (hbuf : buf.length = 64) :
    compute_hash (some m) m.length result ctx buf
      = (compute_hash (some m) m.length (List.replicate 32 0) (List.replicate 8 0)
          (List.replicate 64 0)).map (fun d => d ++ result.drop 32) := by
  unfold compute_hash
  rw [compute_hash_run_eq m result ctx buf hL hctx hbuf,
    compute_hash_run_eq m (List.replicate 32 0) (List.replicate 8 0) (List.replicate 64 0) hL
      (by simp) (by simp)]
  simp only [Option.map_some']
  rw [get_digest_eq _ result (by rw [foldl_transform_length]; rfl) hres,
    get_digest_eq _ (List.replicate 32 0) (by rw [foldl_transform_length]; rfl) (by simp)]
  simp

theorem abc_eval :
    compute_hash (some [0x61, 0x62, 0x63]) 3 (List.replicate 32 0) (List.replicate 8 0)
        (List.replicate 64 0)
      = some [0xba, 0x78, 0x16, 0xbf, 0x8f, 0x01, 0xcf, 0xea, 0x41, 0x41, 0x40, 0xde,
          0x5d, 0xae, 0x22, 0x23, 0xb0, 0x03, 0x61, 0xa3, 0x96, 0x17, 0x7a, 0x9c,
          0xb4, 0x10, 0xff, 0x61, 0xf2, 0x00, 0x15, 0xad] := by
  decide!

theorem empty_eval :
    compute_hash (some []) 0 (List.replicate 32 0) (List.replicate 8 0) (List.replicate 64 0)
      = some [0xe3, 0xb0, 0xc4, 0x42, 0x98, 0xfc, 0x1c, 0x14, 0x9a, 0xfb, 0xf4, 0xc8,
          0x99, 0x6f, 0xb9, 0x24, 0x27, 0xae, 0x41, 0xe4, 0x64, 0x9b, 0x93, 0x4c,
          0xa4, 0x95, 0x99, 0x1b, 0x78, 0x52, 0xb8, 0x55] := by
  decide!

/-! ## The low-level API -/

theorem low_level_hash_eq (m digest ctx rest : List Nat) (hctx : ctx.length = 8)
    (hrest : rest.length = 64 - m.length % 64) :
    low_level_hash m digest ctx rest
      = get_digest
          (((List.range (m.length / 64)).map (fun j => m.drop (64 * j)) ++
            (if m.length % 64 ≤ 55 then
              [m.drop (64 * (m.length / 64)) ++ [0x80]
                ++ List.replicate (55 - m.length % 64) 0
                ++ Spec.be64 (m.length * 8 % 2 ^ 64)]
            else
              [m.drop (64 * (m.length / 64)) ++ [0x80]
                ++ List.replicate (63 - m.length % 64) 0,
               List.replicate 56 0 ++ Spec.be64 (m.length * 8 % 2 ^ 64)])).foldl
            transform_block sha256_initial_hash_value) digest := by
  have htl : (m.drop (64 * (m.length / 64))).length = m.length % 64 := by
    rw [List.length_drop]; omega
  have htake : (m.drop (64 * (m.length / 64)) ++ rest).take (m.length % 64)
      = m.drop (64 * (m.length / 64)) := by
    rw [List.take_append_of_le_length (Nat.le_of_eq htl.symm),
      List.take_of_length_le (Nat.le_of_eq htl)]
  have hbl : (m.drop (64 * (m.length / 64)) ++ rest).length = 64 := by
    rw [List.length_append, htl, hrest]; omega
  have hfold : (List.range (m.length / 64)).foldl
        (fun c j => transform_block c ((m.drop (64 * j)).take 64)) (init ctx)
      = ((List.range (m.length / 64)).map (fun j => m.drop (64 * j))).foldl
        transform_block sha256_initial_hash_value := by
    rw [List.foldl_map, init_eq ctx hctx]
    simp only [transform_block_take]
  have hb : block_length = 64 := rfl
  unfold low_level_hash
  dsimp only
  rw [hb, hfold]
  by_cases hr : m.length % 64 ≤ 55
  · rw [pad_block_A Ptr.result_buffer _ _ _ (by simp) hr
      (by simp only [Ptr.bytes]; omega) hbl]
    dsimp only [Ptr.bytes]
    rw [htake, if_pos hr, if_neg (by decide), List.foldl_append]
    simp only [List.foldl_cons, List.foldl_nil]
  · have hB : (m.drop (64 * (m.length / 64)) ++ [0x80]
        ++ List.replicate (63 - m.length % 64) 0).length = 64 := by
      simp only [List.length_append, htl, List.length_singleton, List.length_replicate]
      omega
    rw [pad_block_B Ptr.result_buffer _ _ _ (by simp)
      (by omega) (by omega) (by simp only [Ptr.bytes]; omega) hbl]
    dsimp only [Ptr.bytes]
    rw [htake, if_neg hr, if_pos (by decide), List.foldl_append, pad_block_C _ 0 _ hB]
    simp only [List.foldl_cons, List.foldl_nil]

/-! ## The constants of the specification -/

theorem iroot_bisect_spec (k n : Nat) : ∀ (fuel lo hi : Nat),
    lo < hi → hi - lo ≤ fuel + 1 → lo ^ k ≤ n → n < hi ^ k →
    Spec.iroot_bisect k n fuel lo hi ^ k ≤ n ∧ n < (Spec.iroot_bisect k n fuel lo hi + 1) ^ k := by
  intro fuel
  induction fuel with
  | zero =>
    intro lo hi h1 h2 h3 h4
    have e : hi = lo + 1 := by omega
    subst e
    exact ⟨h3, h4⟩
  | succ f ih =>
    intro lo hi h1 h2 h3 h4
    rw [Spec.iroot_bisect]
    by_cases c1 : hi ≤ lo + 1
    · have e : hi = lo + 1 := by omega
      subst e
      rw [if_pos c1]
      exact ⟨h3, h4⟩
    · rw [if_neg c1]
      by_cases c2 : ((lo + hi) / 2) ^ k ≤ n
      · rw [if_pos c2]
        exact ih _ _ (by omega) (by omega) c2 h4
      · rw [if_neg c2]
        exact ih _ _ (by omega) (by omega) h3 (by omega)

/-- The value `Spec.iroot k n` is the integer part of the `k`-th root of `n`. -/
theorem iroot_spec (k n : Nat) (hk : 0 < k) :
    Spec.iroot k n ^ k ≤ n ∧ n < (Spec.iroot k n + 1) ^ k := by
  unfold Spec.iroot
  apply iroot_bisect_spec k n (n + 1) 0 (n + 1) (by omega) (by omega)
  · rw [Nat.zero_pow hk]; exact Nat.zero_le n
  · exact Nat.lt_of_lt_of_le (Nat.lt_succ_self n) (Nat.le_self_pow (Nat.ne_of_gt hk) (n + 1))

/-- The function `Spec.is_prime` decides primality. -/
theorem is_prime_iff (n : Nat) : Spec.is_prime n = true ↔ Nat.Prime n := by
  rw [Nat.prime_def_lt]
  simp only [Spec.is_prime, Bool.and_eq_true, decide_eq_true_eq, List.all_eq_true,
    List.mem_range, Bool.or_eq_true, ne_eq]
  constructor
  · rintro ⟨h2, h⟩
    refine ⟨h2, fun m hm hd => ?_⟩
    rcases h m hm with h' | h'
    · have : m ≠ 0 := by
        rintro rfl
        rw [Nat.zero_dvd] at hd
        omega
      omega
    · exact absurd (Nat.mod_eq_zero_of_dvd hd) h'
  · rintro ⟨h2, h⟩
    refine ⟨h2, fun d hd => ?_⟩
    by_cases c : n % d = 0
    · left
      have := h d hd (Nat.dvd_of_mod_eq_zero c)
      omega
    · right
      exact c

/-! ## The claims -/

/-- With memory read as bytes (the loads of `transform_block` see the length
`pad_block` stored): for every message `m` (bytes below 256, fewer than `2^61`
of them) held in a non-null buffer, `compute_hash` returns with the first 32 bytes of the result
buffer equal to the FIPS 180-4 SHA-256 digest of `m`: the big-endian
serialisation of the state obtained by folding the compression function, from
the initial hash value, over the 64-byte blocks of
`m ++ [0x80] ++ (k zero bytes) ++ be64 (8 * L)`, `k` being the least number that
makes the length a multiple of 64. The rest of the result buffer is kept, and
nothing depends on what the locals held. -/
theorem compute_hash_is_sha256 (m result ctx buf : List Nat) (hm : ∀ b, b ∈ m → b < 256)
    (hL : m.length < 2 ^ 61) (hres : 32 ≤ result.length) (hctx : ctx.length = 8)
    (hbuf : buf.length = 64) :
    compute_hash (some m) m.length result ctx buf
      = some (Spec.serialize
          ((Spec.blocks (m ++ [0x80] ++ List.replicate (Spec.zero_count m.length) 0
              ++ Spec.be64 (8 * m.length))).foldl Spec.compress Spec.H0)
          ++ result.drop 32) :=
  compute_hash_sha256 m result ctx buf hm hL hres hctx hbuf

theorem compute_hash_is_sha256_witness :
    ((∀ b, b ∈ [0x61, 0x62, 0x63] → b < 256) ∧ [0x61, 0x62, 0x63].length < 2 ^ 61 ∧
      32 ≤ (List.replicate 32 0).length ∧ (List.replicate 8 0).length = 8 ∧
      (List.replicate 64 0).length = 64) ∧
    compute_hash (some [0x61, 0x62, 0x63]) [0x61, 0x62, 0x63].length (List.replicate 32 0)
        (List.replicate 8 0) (List.replicate 64 0)
      = some (Spec.serialize
          ((Spec.blocks ([0x61, 0x62, 0x63] ++ [0x80]
              ++ List.replicate (Spec.zero_count [0x61, 0x62, 0x63].length) 0
              ++ Spec.be64 (8 * [0x61, 0x62, 0x63].length))).foldl Spec.compress Spec.H0)
          ++ (List.replicate 32 0).drop 32) :=
  ⟨⟨by decide, by decide, by decide, by decide, by decide⟩,
    compute_hash_is_sha256 [0x61, 0x62, 0x63] (List.replicate 32 0) (List.replicate 8 0)
      (List.replicate 64 0) (by decide) (by decide) (by decide) (by decide) (by decide)⟩

/-- C2: on the 3-byte input "abc" `compute_hash` writes the 32 bytes
`ba7816bf 8f01cfea 414140de 5dae2223 b00361a3 96177a9c b410ff61 f20015ad` to the
start of the result buffer, whatever the buffers held before. -/
theorem compute_hash_abc (result ctx buf : List Nat) (hres : 32 ≤ result.length)
    (hctx : ctx.length = 8) (hbuf : buf.length = 64) :
    compute_hash (some [0x61, 0x62, 0x63]) 3 result ctx buf
      = some ([0xba, 0x78, 0x16, 0xbf, 0x8f, 0x01, 0xcf, 0xea, 0x41, 0x41, 0x40, 0xde,
          0x5d, 0xae, 0x22, 0x23, 0xb0, 0x03, 0x61, 0xa3, 0x96, 0x17, 0x7a, 0x9c,
          0xb4, 0x10, 0xff, 0x61, 0xf2, 0x00, 0x15, 0xad] ++ result.drop 32) := by
  have h := compute_hash_frame [0x61, 0x62, 0x63] result ctx buf (by decide) hres hctx hbuf
  rw [show ([0x61, 0x62, 0x63] : List Nat).length = 3 from rfl, abc_eval] at h
  exact h

theorem compute_hash_abc_witness :
    (32 ≤ (List.replicate 32 0).length ∧ (List.replicate 8 0).length = 8 ∧
      (List.replicate 64 0).length = 64) ∧
    compute_hash (some [0x61, 0x62, 0x63]) 3 (List.replicate 32 0) (List.replicate 8 0)
        (List.replicate 64 0)
      = some ([0xba, 0x78, 0x16, 0xbf, 0x8f, 0x01, 0xcf, 0xea, 0x41, 0x41, 0x40, 0xde,
          0x5d, 0xae, 0x22, 0x23, 0xb0, 0x03, 0x61, 0xa3, 0x96, 0x17, 0x7a, 0x9c,
          0xb4, 0x10, 0xff, 0x61, 0xf2, 0x00, 0x15, 0xad] ++ (List.replicate 32 0).drop 32) :=
  ⟨⟨by decide, by decide, by decide⟩,
    compute_hash_abc (List.replicate 32 0) (List.replicate 8 0) (List.replicate 64 0)
      (by decide) (by decide) (by decide)⟩

/-- On the empty message held in a non-null buffer of length 0 (the null
presentation is `compute_hash_null`),
`compute_hash` writes the 32 bytes
`e3b0c442 98fc1c14 9afbf4c8 996fb924 27ae41e4 649b934c a495991b 7852b855` to the
start of the result buffer, whatever the buffers held before. -/
theorem compute_hash_empty (result ctx buf : List Nat) (hres : 32 ≤ result.length)
    (hctx : ctx.length = 8) (hbuf : buf.length = 64) :
    compute_hash (some []) 0 result ctx buf
      = some ([0xe3, 0xb0, 0xc4, 0x42, 0x98, 0xfc, 0x1c, 0x14, 0x9a, 0xfb, 0xf4, 0xc8,
          0x99, 0x6f, 0xb9, 0x24, 0x27, 0xae, 0x41, 0xe4, 0x64, 0x9b, 0x93, 0x4c,
          0xa4, 0x95, 0x99, 0x1b, 0x78, 0x52, 0xb8, 0x55] ++ result.drop 32) := by
  have h := compute_hash_frame [] result ctx buf (by decide) hres hctx hbuf
  rw [show ([] : List Nat).length = 0 from rfl, empty_eval] at h
  exact h

theorem compute_hash_empty_witness :
    (32 ≤ (List.replicate 32 0).length ∧ (List.replicate 8 0).length = 8 ∧
      (List.replicate 64 0).length = 64) ∧
    compute_hash (some []) 0 (List.replicate 32 0) (List.replicate 8 0)
        (List.replicate 64 0)
      = some ([0xe3, 0xb0, 0xc4, 0x42, 0x98, 0xfc, 0x1c, 0x14, 0x9a, 0xfb, 0xf4, 0xc8,
          0x99, 0x6f, 0xb9, 0x24, 0x27, 0xae, 0x41, 0xe4, 0x64, 0x9b, 0x93, 0x4c,
          0xa4, 0x95, 0x99, 0x1b, 0x78, 0x52, 0xb8, 0x55] ++ (List.replicate 32 0).drop 32) :=
  ⟨⟨by decide, by decide, by decide⟩,
    compute_hash_empty (List.replicate 32 0) (List.replicate 8 0) (List.replicate 64 0)
      (by decide) (by decide) (by decide)⟩

/-- Streaming equivalence, with memory read as bytes and the message in a
non-null buffer. For every message of fewer than `2^61` bytes, the digest
`compute_hash` writes is the one the low-level API yields when used as the
header documents it (`low_level_hash`: full blocks in order, padding in place on
the trailing bytes, a second padding block when `pad_block` returns false),
whatever the caller's buffer held after the trailing bytes. -/
theorem compute_hash_eq_low_level (m digest ctx ctx' buf rest : List Nat)
    (hL : m.length < 2 ^ 61) (hctx : ctx.length = 8) (hctx' : ctx'.length = 8)
    (hbuf : buf.length = 64) (hrest : rest.length = 64 - m.length % 64) :
    compute_hash (some m) m.length digest ctx buf = some (low_level_hash m digest ctx' rest) := by
  unfold compute_hash
  rw [compute_hash_run_eq m digest ctx buf (by omega) hctx hbuf,
    low_level_hash_eq m digest ctx' rest hctx' hrest]
  simp only [Option.map_some']

theorem compute_hash_eq_low_level_witness :
    ([0x61, 0x62, 0x63].length < 2 ^ 61 ∧ (List.replicate 8 0).length = 8 ∧
      (List.replicate 8 1).length = 8 ∧ (List.replicate 64 0).length = 64 ∧
      (List.replicate 61 7).length = 64 - [0x61, 0x62, 0x63].length % 64) ∧
    compute_hash (some [0x61, 0x62, 0x63]) [0x61, 0x62, 0x63].length (List.replicate 32 0)
        (List.replicate 8 0) (List.replicate 64 0)
      = some (low_level_hash [0x61, 0x62, 0x63] (List.replicate 32 0) (List.replicate 8 1)
          (List.replicate 61 7)) :=
  ⟨⟨by decide, by decide, by decide, by decide, by decide⟩,
    compute_hash_eq_low_level [0x61, 0x62, 0x63] (List.replicate 32 0) (List.replicate 8 0)
      (List.replicate 8 1) (List.replicate 64 0) (List.replicate 61 7)
      (by decide) (by decide) (by decide) (by decide) (by decide)⟩

/-- C5: Shape A of `pad_block`. For a non-null `data` (distinct from the result
buffer or equal to it) with `data_length = n ≤ 55` readable bytes and a message
length `L < 2^61`, `pad_block` returns true and the 64-byte result is
`data[0..n) ++ [0x80] ++ (55 - n zero bytes) ++ be64 (8 * L)`; the length field
occupies offsets 56..63. -/
theorem pad_block_shape_A (data : Ptr) (result_buffer : List Nat) (n L : Nat)
    (hd : data ≠ Ptr.null) (hn : n ≤ 55) (hL : L < 2 ^ 61)
    (hmem : n ≤ (data.bytes result_buffer).length) (hrb : result_buffer.length = 64) :
    pad_block data n L result_buffer
      = (true, (data.bytes result_buffer).take n ++ [0x80] ++ List.replicate (55 - n) 0
          ++ Spec.be64 (8 * L)) ∧
    (pad_block data n L result_buffer).2.length = 64 ∧
    (pad_block data n L result_buffer).2.drop 56 = Spec.be64 (8 * L) := by
  have hbits : L * 8 % 2 ^ 64 = 8 * L := by omega
  have h := pad_block_A data result_buffer n L hd hn hmem hrb
  rw [hbits] at h
  have hlen : ((data.bytes result_buffer).take n ++ [0x80]
      ++ List.replicate (55 - n) 0).length = 56 := by
    simp only [List.length_append, List.length_take, Nat.min_eq_left hmem,
      List.length_singleton, List.length_replicate]
    omega
  refine ⟨h, ?_, ?_⟩
  · rw [h]
    simp only [List.length_append, hlen, be64_length]
  · rw [h]
    exact List.drop_left' hlen

theorem pad_block_shape_A_witness :
    (Ptr.region [1, 2, 3] ≠ Ptr.null ∧ 3 ≤ 55 ∧ 3 < 2 ^ 61 ∧
      3 ≤ ((Ptr.region [1, 2, 3]).bytes (List.replicate 64 170)).length ∧
      (List.replicate 64 170).length = 64) ∧
    (pad_block (Ptr.region [1, 2, 3]) 3 3 (List.replicate 64 170)
      = (true, ((Ptr.region [1, 2, 3]).bytes (List.replicate 64 170)).take 3 ++ [0x80]
          ++ List.replicate (55 - 3) 0 ++ Spec.be64 (8 * 3)) ∧
    (pad_block (Ptr.region [1, 2, 3]) 3 3 (List.replicate 64 170)).2.length = 64 ∧
    (pad_block (Ptr.region [1, 2, 3]) 3 3 (List.replicate 64 170)).2.drop 56
      = Spec.be64 (8 * 3)) :=
  ⟨⟨by decide, by decide, by decide, by decide, by decide⟩,
    pad_block_shape_A (Ptr.region [1, 2, 3]) (List.replicate 64 170) 3 3
      (by decide) (by decide) (by decide) (by decide) (by decide)⟩

/-- C6: Shape B of `pad_block`. For a non-null `data` with `data_length = n`,
`56 ≤ n ≤ 63`, `pad_block` returns false and the 64-byte result is
`data[0..n) ++ [0x80] ++ (63 - n zero bytes)`: no length field is written. -/
theorem pad_block_shape_B (data : Ptr) (result_buffer : List Nat) (n L : Nat)
    (hd : data ≠ Ptr.null) (hn : 56 ≤ n) (hn2 : n ≤ 63)
    (hmem : n ≤ (data.bytes result_buffer).length) (hrb : result_buffer.length = 64) :
    pad_block data n L result_buffer
      = (false, (data.bytes result_buffer).take n ++ [0x80] ++ List.replicate (63 - n) 0) ∧
    (pad_block data n L result_buffer).2.length = 64 := by
  have h := pad_block_B data result_buffer n L hd hn hn2 hmem hrb
  refine ⟨h, ?_⟩
  rw [h]
  simp only [List.length_append, List.length_take, Nat.min_eq_left hmem,
    List.length_singleton, List.length_replicate]
  omega

theorem pad_block_shape_B_witness :
    (Ptr.region (List.replicate 60 5) ≠ Ptr.null ∧ 56 ≤ 60 ∧ 60 ≤ 63 ∧
      60 ≤ ((Ptr.region (List.replicate 60 5)).bytes (List.replicate 64 170)).length ∧
      (List.replicate 64 170).length = 64) ∧
    (pad_block (Ptr.region (List.replicate 60 5)) 60 60 (List.replicate 64 170)
      = (false, ((Ptr.region (List.replicate 60 5)).bytes (List.replicate 64 170)).take 60
          ++ [0x80] ++ List.replicate (63 - 60) 0) ∧
    (pad_block (Ptr.region (List.replicate 60 5)) 60 60 (List.replicate 64 170)).2.length
      = 64) :=
  ⟨⟨by decide, by decide, by decide, by decide, by decide⟩,
    pad_block_shape_B (Ptr.region (List.replicate 60 5)) (List.replicate 64 170) 60 60
      (by decide) (by decide) (by decide) (by decide) (by decide)⟩

/-- C7: Shape C of `pad_block`. With a null `data` pointer, for every message
length `L < 2^61`, `pad_block` returns true and the 64-byte result is 56 zero
bytes followed by `be64 (8 * L)`; no terminator is written: none of the 56 bytes
before the length field is `0x80`. -/
theorem pad_block_shape_C (result_buffer : List Nat) (n L : Nat) (hL : L < 2 ^ 61)
    (hrb : result_buffer.length = 64) :
    pad_block Ptr.null n L result_buffer
      = (true, List.replicate 56 0 ++ Spec.be64 (8 * L)) ∧
    0x80 ∉ (pad_block Ptr.null n L result_buffer).2.take 56 := by
  have hbits : L * 8 % 2 ^ 64 = 8 * L := by omega
  have h := pad_block_C result_buffer n L hrb
  rw [hbits] at h
  refine ⟨h, ?_⟩
  rw [h]
  have ht : (List.replicate 56 0 ++ Spec.be64 (8 * L)).take 56 = List.replicate 56 0 :=
    List.take_left' (List.length_replicate 56 0)
  rw [ht]
  intro hmem
  have := List.eq_of_mem_replicate hmem
  omega

theorem pad_block_shape_C_witness :
    (60 < 2 ^ 61 ∧ (List.replicate 64 170).length = 64) ∧
    (pad_block Ptr.null 0 60 (List.replicate 64 170)
      = (true, List.replicate 56 0 ++ Spec.be64 (8 * 60)) ∧
    0x80 ∉ (pad_block Ptr.null 0 60 (List.replicate 64 170)).2.take 56) :=
  ⟨⟨by decide, by decide⟩,
    pad_block_shape_C (List.replicate 64 170) 0 60 (by decide) (by decide)⟩

/-- C8: `transform_block` is the SHA-256 compression function. For every state of
eight 32-bit words and every block of 64 bytes, the new state is
`Spec.compress state block`: word `i` is the old word `i` plus the `i`-th working
variable after the 64 rounds of `Spec.step` (T1, T2 and the rotation of `a..h`,
with the round constants `Spec.K`), modulo `2^32`; and the array `W` holds the
message schedule `Spec.W` (big-endian words, then
`sigma1 W[t-2] + W[t-7] + sigma0 W[t-15] + W[t-16]` modulo `2^32`). -/
theorem transform_block_is_compress (state block : List Nat) (hs : state.length = 8)
    (hw : ∀ w, w ∈ state → w < 2 ^ 32) (_hlen : block.length = 64)
    (hb : ∀ b, b ∈ block → b < 256) :
    transform_block state block = Spec.compress state block ∧
    (∀ t, t < 64 → (schedule block).getD t 0 = Spec.W block t) ∧
    (∀ t, 16 ≤ t → t < 64 → (schedule block).getD t 0
      = (Spec.sigma1 ((schedule block).getD (t - 2) 0) + (schedule block).getD (t - 7) 0
        + Spec.sigma0 ((schedule block).getD (t - 15) 0)
        + (schedule block).getD (t - 16) 0) % 2 ^ 32) := by
  have hb' : ∀ i, i < 64 → block.getD i 0 < 256 := fun i _ =>
    getD_mem_lt block 256 (by norm_num) hb i
  have hsch := (schedule_spec block hb').2
  refine ⟨transform_block_spec state block hs hw hb', hsch, ?_⟩
  intro t h16 ht
  rw [hsch t ht, hsch (t - 2) (by omega), hsch (t - 7) (by omega), hsch (t - 15) (by omega),
    hsch (t - 16) (by omega), W_ge16 block t h16]

theorem transform_block_is_compress_witness :
    (Spec.H0.length = 8 ∧ (∀ w, w ∈ Spec.H0 → w < 2 ^ 32) ∧
      (List.replicate 64 97).length = 64 ∧ (∀ b, b ∈ List.replicate 64 97 → b < 256)) ∧
    (transform_block Spec.H0 (List.replicate 64 97)
      = Spec.compress Spec.H0 (List.replicate 64 97) ∧
    (∀ t, t < 64 → (schedule (List.replicate 64 97)).getD t 0
      = Spec.W (List.replicate 64 97) t) ∧
    (∀ t, 16 ≤ t → t < 64 → (schedule (List.replicate 64 97)).getD t 0
      = (Spec.sigma1 ((schedule (List.replicate 64 97)).getD (t - 2) 0)
        + (schedule (List.replicate 64 97)).getD (t - 7) 0
        + Spec.sigma0 ((schedule (List.replicate 64 97)).getD (t - 15) 0)
        + (schedule (List.replicate 64 97)).getD (t - 16) 0) % 2 ^ 32)) :=
  ⟨⟨by decide, by decide, by decide, by decide⟩,
    transform_block_is_compress Spec.H0 (List.replicate 64 97)
      (by decide) (by decide) (by decide) (by decide)⟩

/-- C9: `get_digest` serialises the state big-endian, first word first: for
every state `s` and `i < 8`, output bytes `4i .. 4i+3` are bits 31..24, 23..16,
15..8 and 7..0 of `s[i]`; decoding the output as eight big-endian 32-bit words
gives back `s` when its words are below `2^32`. -/
theorem get_digest_big_endian (s result_buffer : List Nat) (hs : s.length = 8)
    (hw : ∀ w, w ∈ s → w < 2 ^ 32) (hrb : 32 ≤ result_buffer.length) :
    (∀ i, i < 8 →
      (get_digest s result_buffer).getD (4 * i) 0 = s.getD i 0 / 2 ^ 24 % 256 ∧
      (get_digest s result_buffer).getD (4 * i + 1) 0 = s.getD i 0 / 2 ^ 16 % 256 ∧
      (get_digest s result_buffer).getD (4 * i + 2) 0 = s.getD i 0 / 2 ^ 8 % 256 ∧
      (get_digest s result_buffer).getD (4 * i + 3) 0 = s.getD i 0 % 256) ∧
    (List.range 8).map (Spec.be_word (get_digest s result_buffer)) = s := by
  refine ⟨(get_digest_getD s result_buffer hrb).2.1, ?_⟩
  have h : ∀ i, i < 8 → Spec.be_word (get_digest s result_buffer) i = s.getD i 0 :=
    fun i hi => be_word_get_digest s result_buffer hrb i hi
      (getD_mem_lt s _ (by norm_num) hw i)
  apply ext_getD
  · simp [hs]
  · intro i hi
    have hi8 : i < 8 := by simpa using hi
    rw [← h i hi8]
    simp [List.getD_eq_getElem?_getD, List.getElem?_map, List.getElem?_range hi8]

theorem get_digest_big_endian_witness :
    (Spec.H0.length = 8 ∧ (∀ w, w ∈ Spec.H0 → w < 2 ^ 32) ∧
      32 ≤ (List.replicate 32 170).length) ∧
    ((∀ i, i < 8 →
      (get_digest Spec.H0 (List.replicate 32 170)).getD (4 * i) 0
        = Spec.H0.getD i 0 / 2 ^ 24 % 256 ∧
      (get_digest Spec.H0 (List.replicate 32 170)).getD (4 * i + 1) 0
        = Spec.H0.getD i 0 / 2 ^ 16 % 256 ∧
      (get_digest Spec.H0 (List.replicate 32 170)).getD (4 * i + 2) 0
        = Spec.H0.getD i 0 / 2 ^ 8 % 256 ∧
      (get_digest Spec.H0 (List.replicate 32 170)).getD (4 * i + 3) 0
        = Spec.H0.getD i 0 % 256) ∧
    (List.range 8).map (Spec.be_word (get_digest Spec.H0 (List.replicate 32 170)))
      = Spec.H0) :=
  ⟨⟨by decide, by decide, by decide⟩,
    get_digest_big_endian Spec.H0 (List.replicate 32 170) (by decide) (by decide) (by decide)⟩

/-- C10: `init` resets the state to the fixed initial hash value
`0x6A09E667, 0xBB67AE85, 0x3C6EF372, 0xA54FF53A, 0x510E527F, 0x9B05688C,
0x1F83D9AB, 0x5BE0CD19` whatever the eight words held before, also after
`transform_block` or `clear_state`, and it is idempotent. -/
theorem init_resets (s data : List Nat) (hs : s.length = 8) :
    init s = [0x6A09E667, 0xBB67AE85, 0x3C6EF372, 0xA54FF53A,
              0x510E527F, 0x9B05688C, 0x1F83D9AB, 0x5BE0CD19] ∧
    init (transform_block s data) = [0x6A09E667, 0xBB67AE85, 0x3C6EF372, 0xA54FF53A,
              0x510E527F, 0x9B05688C, 0x1F83D9AB, 0x5BE0CD19] ∧
    init (clear_state s) = [0x6A09E667, 0xBB67AE85, 0x3C6EF372, 0xA54FF53A,
              0x510E527F, 0x9B05688C, 0x1F83D9AB, 0x5BE0CD19] ∧
    init (init s) = init s := by
  have h1 := init_eq s hs
  have h2 := init_eq (transform_block s data) (by rw [transform_block_length, hs])
  have h3 := init_eq (clear_state s) (by rw [clear_state_length, hs])
  have h4 := init_eq (init s) (by rw [h1]; rfl)
  rw [h2, h3, h4, h1]
  exact ⟨rfl, rfl, rfl, rfl⟩

theorem init_resets_witness :
    (List.replicate 8 170).length = 8 ∧
    (init (List.replicate 8 170) = [0x6A09E667, 0xBB67AE85, 0x3C6EF372, 0xA54FF53A,
              0x510E527F, 0x9B05688C, 0x1F83D9AB, 0x5BE0CD19] ∧
    init (transform_block (List.replicate 8 170) (List.replicate 64 97))
      = [0x6A09E667, 0xBB67AE85, 0x3C6EF372, 0xA54FF53A,
              0x510E527F, 0x9B05688C, 0x1F83D9AB, 0x5BE0CD19] ∧
    init (clear_state (List.replicate 8 170)) = [0x6A09E667, 0xBB67AE85, 0x3C6EF372,
              0xA54FF53A, 0x510E527F, 0x9B05688C, 0x1F83D9AB, 0x5BE0CD19] ∧
    init (init (List.replicate 8 170)) = init (List.replicate 8 170)) :=
  ⟨by decide, init_resets (List.replicate 8 170) (List.replicate 64 97) (by decide)⟩

/-! ## `clear_state` -/

theorem clear_loop_spec (k : Nat) : ∀ (mem : List Nat) (p : Nat),
    (clear_loop mem p (k + 1)).length = mem.length ∧
    ∀ i, (clear_loop mem p (k + 1)).getD i 0
      = if p ≤ i ∧ i < p + k then 0 else mem.getD i 0 := by
  induction k with
  | zero =>
    intro mem p
    refine ⟨rfl, fun i => ?_⟩
    have : ¬ (p ≤ i ∧ i < p + 0) := by omega
    simp only [clear_loop, if_neg this, if_true]
  | succ n ih =>
    intro mem p
    obtain ⟨h1, h2⟩ := ih (mem.set p 0) (p + 1)
    have hn : ¬ (n + 1 = 0) := by omega
    rw [clear_loop, if_neg hn]
    refine ⟨by simpa using h1, fun i => ?_⟩
    rw [h2 i, getD_set]
    by_cases hpi : p = i
    · subst hpi
      by_cases hl : p < mem.length
      · simp [hl]
      · simp [hl, List.getD_eq_getElem?_getD, List.getElem?_eq_none (Nat.le_of_not_lt hl)]
    · have e1 : ¬ (p = i ∧ p < mem.length) := fun h => hpi h.1
      rw [if_neg e1]
      by_cases h4 : p + 1 ≤ i ∧ i < p + 1 + n
      · have : p ≤ i ∧ i < p + (n + 1) := by omega
        simp [h4, this]
      · have : ¬ (p ≤ i ∧ i < p + (n + 1)) := by omega
        simp [h4, this]

/-- What `clear_state` leaves: the loop runs 31 times, so the byte at offset 31,
the most significant byte of the last word, is kept. -/
theorem clear_state_eq (s : List Nat) (hs : s.length = 8) :
    clear_state s = [0, 0, 0, 0, 0, 0, 0, 2 ^ 24 * ((s.getD 7 0 >>> 24) % 256)] := by
  obtain ⟨s0, s1, s2, s3, s4, s5, s6, s7, rfl⟩ := length_eq_eight s hs
  obtain ⟨_, h2⟩ := clear_loop_spec 31
    (state_bytes [s0, s1, s2, s3, s4, s5, s6, s7]) 0
  have hz : ∀ i, i < 31 →
      (clear_loop (state_bytes [s0, s1, s2, s3, s4, s5, s6, s7]) 0 32).getD i 0 = 0 := by
    intro i hi
    rw [show (32 : Nat) = 31 + 1 from rfl, h2 i,
      if_pos (show 0 ≤ i ∧ i < 0 + 31 from ⟨Nat.zero_le i, by omega⟩)]
  have h31 : (clear_loop (state_bytes [s0, s1, s2, s3, s4, s5, s6, s7]) 0 32).getD 31 0
      = (s7 >>> 24) % 256 := by
    rw [show (32 : Nat) = 31 + 1 from rfl, h2 31,
      if_neg (show ¬ (0 ≤ 31 ∧ 31 < 0 + 31) from by omega)]
    simp [state_bytes]
  have hr : List.range 8 = [0, 1, 2, 3, 4, 5, 6, 7] := by decide
  simp only [clear_state, List.length_cons, List.length_nil, Nat.zero_add, Nat.reduceAdd,
    Nat.reduceMul, hr, List.map_cons, List.map_nil, load_word]
  simp only [Nat.reduceMul, Nat.reduceAdd, hz _ (show 0 < 31 from by decide),
    hz _ (show 1 < 31 from by decide), hz _ (show 2 < 31 from by decide),
    hz _ (show 3 < 31 from by decide), hz _ (show 4 < 31 from by decide),
    hz _ (show 5 < 31 from by decide), hz _ (show 6 < 31 from by decide),
    hz _ (show 7 < 31 from by decide), hz _ (show 8 < 31 from by decide),
    hz _ (show 9 < 31 from by decide), hz _ (show 10 < 31 from by decide),
    hz _ (show 11 < 31 from by decide), hz _ (show 12 < 31 from by decide),
    hz _ (show 13 < 31 from by decide), hz _ (show 14 < 31 from by decide),
    hz _ (show 15 < 31 from by decide), hz _ (show 16 < 31 from by decide),
    hz _ (show 17 < 31 from by decide), hz _ (show 18 < 31 from by decide),
    hz _ (show 19 < 31 from by decide), hz _ (show 20 < 31 from by decide),
    hz _ (show 21 < 31 from by decide), hz _ (show 22 < 31 from by decide),
    hz _ (show 23 < 31 from by decide), hz _ (show 24 < 31 from by decide),
    hz _ (show 25 < 31 from by decide), hz _ (show 26 < 31 from by decide),
    hz _ (show 27 < 31 from by decide), hz _ (show 28 < 31 from by decide),
    hz _ (show 29 < 31 from by decide), hz _ (show 30 < 31 from by decide), h31,
    Nat.mul_zero, Nat.add_zero, Nat.zero_add, List.getD_cons_succ, List.getD_cons_zero]

/-- C11 (defect of the code): `clear_state` does not zero the state. Its loop
`for (int i = sizeof(state); --i;)` runs 31 times, so the byte at offset 31 (on
the little-endian host the most significant byte of the last word) is kept:
from the state of eight words `0xFFFFFFFF` it leaves `0xFF000000` in the last
word, `get_digest` called afterwards writes `0xFF` at offset 28, and after
`compute_hash` on the empty message the context still holds `0x78000000`, the
byte `0x78` being byte 28 of the digest. -/
theorem clear_state_keeps_last_byte :
    clear_state [0xFFFFFFFF, 0xFFFFFFFF, 0xFFFFFFFF, 0xFFFFFFFF,
                 0xFFFFFFFF, 0xFFFFFFFF, 0xFFFFFFFF, 0xFFFFFFFF]
      = [0, 0, 0, 0, 0, 0, 0, 0xFF000000] ∧
    get_digest (clear_state [0xFFFFFFFF, 0xFFFFFFFF, 0xFFFFFFFF, 0xFFFFFFFF,
                 0xFFFFFFFF, 0xFFFFFFFF, 0xFFFFFFFF, 0xFFFFFFFF]) (List.replicate 32 0)
      = [0, 0, 0, 0, 0, 0, 0, 0, 0, 0, 0, 0, 0, 0, 0, 0,
         0, 0, 0, 0, 0, 0, 0, 0, 0, 0, 0, 0, 0xFF, 0, 0, 0] ∧
    (compute_hash_run (some []) 0 (List.replicate 32 0) (List.replicate 8 0)
        (List.replicate 64 0)).map Prod.snd
      = some [0, 0, 0, 0, 0, 0, 0, 0x78000000] := by
  decide!

/-! ## `compute_hash` on a null pointer -/

theorem null_block_eval :
    transform_block sha256_initial_hash_value (List.replicate 56 0 ++ Spec.be64 (0 * 8 % 2 ^ 64))
      = [0xda5698be, 0x17b9b469, 0x62335799, 0x779fbeca,
         0x8ce5d491, 0xc0d26243, 0xbafef9ea, 0x1837a9d8] := by
  decide!

/-- On a null pointer with length 0, `compute_hash` absorbs the single block of
Shape C, which has no terminator, whatever the buffers held before. -/
theorem compute_hash_null (result ctx buf : List Nat) (hres : 32 ≤ result.length)
    (hctx : ctx.length = 8) (hbuf : buf.length = 64) :
    compute_hash none 0 result ctx buf
      = some ([0xda, 0x56, 0x98, 0xbe, 0x17, 0xb9, 0xb4, 0x69, 0x62, 0x33, 0x57, 0x99,
          0x77, 0x9f, 0xbe, 0xca, 0x8c, 0xe5, 0xd4, 0x91, 0xc0, 0xd2, 0x62, 0x43,
          0xba, 0xfe, 0xf9, 0xea, 0x18, 0x37, 0xa9, 0xd8] ++ result.drop 32) := by
  have hloop := block_loop_spec [] 0 0 (0 / block_length + 1) (init ctx)
    (by simp only [block_length]; omega)
  simp only [Nat.zero_add, Nat.mul_zero, List.range'_zero, List.foldl_nil] at hloop
  have hm : (0 : Nat) &&& (0xFFFFFFFFFFFFFFFF ^^^ (block_length - 1)) = 0 := by
    rw [mask_eq 0 (by norm_num)]
  unfold compute_hash compute_hash_run
  dsimp only [Option.getD_none]
  rw [hm, hloop]
  dsimp only
  rw [pad_block_C buf _ 0 hbuf]
  dsimp only
  rw [if_neg (by decide), init_eq ctx hctx, null_block_eval,
    get_digest_eq [0xda5698be, 0x17b9b469, 0x62335799, 0x779fbeca,
         0x8ce5d491, 0xc0d26243, 0xbafef9ea, 0x1837a9d8] result rfl hres]
  rfl

/-- C12 (defect of the code): the digest `compute_hash` writes for the empty
message depends on how the buffer is presented. With a null data pointer and
length 0 the padding takes the null branch of `pad_block` (Shape C, without the
`0x80` terminator) and the digest is `da5698be 17b9b469 …`, while with a
non-null pointer and length 0 it is the SHA-256 digest `e3b0c442 98fc1c14 …`. -/
theorem compute_hash_null_differs :
    compute_hash none 0 (List.replicate 32 0) (List.replicate 8 0) (List.replicate 64 0)
      = some [0xda, 0x56, 0x98, 0xbe, 0x17, 0xb9, 0xb4, 0x69, 0x62, 0x33, 0x57, 0x99,
          0x77, 0x9f, 0xbe, 0xca, 0x8c, 0xe5, 0xd4, 0x91, 0xc0, 0xd2, 0x62, 0x43,
          0xba, 0xfe, 0xf9, 0xea, 0x18, 0x37, 0xa9, 0xd8] ∧
    compute_hash (some []) 0 (List.replicate 32 0) (List.replicate 8 0) (List.replicate 64 0)
      = some [0xe3, 0xb0, 0xc4, 0x42, 0x98, 0xfc, 0x1c, 0x14, 0x9a, 0xfb, 0xf4, 0xc8,
          0x99, 0x6f, 0xb9, 0x24, 0x27, 0xae, 0x41, 0xe4, 0x64, 0x9b, 0x93, 0x4c,
          0xa4, 0x95, 0x99, 0x1b, 0x78, 0x52, 0xb8, 0x55] ∧
    compute_hash none 0 (List.replicate 32 0) (List.replicate 8 0) (List.replicate 64 0)
      ≠ compute_hash (some []) 0 (List.replicate 32 0) (List.replicate 8 0)
          (List.replicate 64 0) := by
  have h1 := compute_hash_null (List.replicate 32 0) (List.replicate 8 0)
    (List.replicate 64 0) (by decide) (by decide) (by decide)
  have h2 := empty_eval
  refine ⟨by rw [h1]; rfl, h2, ?_⟩
  rw [h1, h2]
  decide

/-! ## `get_digest` leaves the state alone -/

theorem get_digest_run_eq (s rb : List Nat) : get_digest_run s rb = (s, get_digest s rb) := by
  unfold get_digest_run get_digest
  dsimp only
  apply for_loop_invariant
    (fun k (sr : List Nat × List Nat) => sr = (s, for_loop 0 k (fun i rb =>
      (((rb.set (i * 4 + 0) (((s.getD i 0 &&& 0xFF000000) >>> 24) % 256)).set
        (i * 4 + 1) (((s.getD i 0 &&& 0x00FF0000) >>> 16) % 256)).set
        (i * 4 + 2) (((s.getD i 0 &&& 0x0000FF00) >>> 8) % 256)).set
        (i * 4 + 3) (((s.getD i 0 &&& 0x000000FF) >>> 0) % 256)) rb)) 0 8
  · decide
  · rw [for_loop_self]
  · intro t sr h0 _ hsr
    rw [for_loop_succ _ _ _ _ h0, hsr]

/-- C13: `get_digest` is read-only with respect to the state. For every state
`s` of eight words, the state after the call is `s`; a second call in a row (on
the same buffer) changes nothing, and on any buffer it writes the same 32
bytes. -/
theorem get_digest_read_only (s rb rb' : List Nat) (hs : s.length = 8)
    (hrb : 32 ≤ rb.length) (hrb' : 32 ≤ rb'.length) :
    (get_digest_run s rb).1 = s ∧
    (get_digest_run s rb).2 = get_digest s rb ∧
    get_digest_run (get_digest_run s rb).1 (get_digest_run s rb).2 = get_digest_run s rb ∧
    (get_digest_run (get_digest_run s rb).1 rb').2.take 32 = (get_digest_run s rb).2.take 32 := by
  have hl : (Spec.serialize s).length = 32 := by rw [serialize_length, hs]
  have hl2 : 32 ≤ (Spec.serialize s ++ rb.drop 32).length := by
    rw [List.length_append, hl]; omega
  rw [get_digest_run_eq s rb]
  dsimp only
  rw [get_digest_run_eq s _, get_digest_run_eq s rb']
  dsimp only
  refine ⟨rfl, rfl, ?_, ?_⟩
  · rw [get_digest_eq s rb hs hrb, get_digest_eq s _ hs hl2, List.drop_left' hl]
  · rw [get_digest_eq s rb hs hrb, get_digest_eq s rb' hs hrb', List.take_left' hl,
      List.take_left' hl]

theorem get_digest_read_only_witness :
    (Spec.H0.length = 8 ∧ 32 ≤ (List.replicate 32 170).length ∧
      32 ≤ (List.replicate 40 1).length) ∧
    ((get_digest_run Spec.H0 (List.replicate 32 170)).1 = Spec.H0 ∧
    (get_digest_run Spec.H0 (List.replicate 32 170)).2
      = get_digest Spec.H0 (List.replicate 32 170) ∧
    get_digest_run (get_digest_run Spec.H0 (List.replicate 32 170)).1
        (get_digest_run Spec.H0 (List.replicate 32 170)).2
      = get_digest_run Spec.H0 (List.replicate 32 170) ∧
    (get_digest_run (get_digest_run Spec.H0 (List.replicate 32 170)).1
        (List.replicate 40 1)).2.take 32
      = (get_digest_run Spec.H0 (List.replicate 32 170)).2.take 32) :=
  ⟨⟨by decide, by decide, by decide⟩,
    get_digest_read_only Spec.H0 (List.replicate 32 170) (List.replicate 40 1)
      (by decide) (by decide) (by decide)⟩

/-! ## The calls made by `compute_hash` -/

theorem block_loop_calls_fst (data : List Nat) (endp : Nat) : ∀ (fuel p : Nat) (ctx : List Nat)
    (calls : List Call),
    (block_loop_calls data endp fuel p ctx calls).map (fun r => (r.1, r.2.1))
      = block_loop data endp fuel p ctx := by
  intro fuel
  induction fuel with
  | zero => intro p ctx calls; rfl
  | succ f ih =>
    intro p ctx calls
    rw [block_loop_calls, block_loop]
    by_cases h : p = endp
    · rw [if_pos h, if_pos h]; rfl
    · rw [if_neg h, if_neg h, ih]

/-- Recording the calls does not change what `compute_hash` computes. -/
theorem compute_hash_calls_fst (data : Option (List Nat)) (L : Nat)
    (result ctx buf : List Nat) :
    (compute_hash_calls data L result ctx buf).map Prod.fst
      = compute_hash_run data L result ctx buf := by
  have h := block_loop_calls_fst (data.getD [])
    (L &&& (0xFFFFFFFFFFFFFFFF ^^^ (block_length - 1))) (L / block_length + 1) 0 (init ctx) []
  unfold compute_hash_calls compute_hash_run
  dsimp only
  rw [← h]
  cases block_loop_calls (data.getD [])
    (L &&& (0xFFFFFFFFFFFFFFFF ^^^ (block_length - 1))) (L / block_length + 1) 0 (init ctx) []
    with
  | none => rfl
  | some r =>
    obtain ⟨p, c, calls⟩ := r
    dsimp only [Option.map_some']
    cases data with
    | none =>
      dsimp only
      generalize pad_block Ptr.null _ L buf = pr
      obtain ⟨d, b⟩ := pr
      cases d <;> rfl
    | some m =>
      dsimp only
      generalize pad_block (Ptr.region (List.drop p m)) _ L buf = pr
      obtain ⟨d, b⟩ := pr
      cases d <;> rfl

theorem block_loop_calls_spec (data : List Nat) (k : Nat) : ∀ (j fuel : Nat) (ctx : List Nat)
    (calls : List Call), k < fuel →
    block_loop_calls data (64 * (j + k)) fuel (64 * j) ctx calls
      = some (64 * (j + k),
          (List.range' j k).foldl (fun c i => transform_block c (data.drop (64 * i))) ctx,
          calls ++ (List.range' j k).map
            (fun i => Call.transform_block ((data.drop (64 * i)).take 64))) := by
  induction k with
  | zero =>
    intro j fuel ctx calls hf
    obtain ⟨f, rfl⟩ : ∃ f, fuel = f + 1 := ⟨fuel - 1, by omega⟩
    simp [block_loop_calls]
  | succ n ih =>
    intro j fuel ctx calls hf
    obtain ⟨f, rfl⟩ : ∃ f, fuel = f + 1 := ⟨fuel - 1, by omega⟩
    have hne : ¬ 64 * j = 64 * (j + (n + 1)) := by omega
    have e1 : 64 * j + block_length = 64 * (j + 1) := by simp only [block_length]; omega
    have e2 : 64 * (j + (n + 1)) = 64 * (j + 1 + n) := by omega
    have e3 : block_length = 64 := rfl
    rw [block_loop_calls, if_neg hne, e1, e2, ih (j + 1) f _ _ (by omega), e3]
    simp [List.range'_succ]

/-- The calls `compute_hash` makes on a non-null buffer: `transform_block` on
each full block of the message, then `pad_block` on the trailing bytes and
`transform_block` on its result and, when the flag is false, `pad_block` on a
null pointer and `transform_block` once more. -/
theorem compute_hash_calls_eq (m result ctx buf : List Nat) (hL : m.length < 2 ^ 64)
    (hbuf : buf.length = 64) :
    (compute_hash_calls (some m) m.length result ctx buf).map Prod.snd
      = some ((List.range (m.length / 64)).map
            (fun j => Call.transform_block ((m.drop (64 * j)).take 64)) ++
          (if m.length % 64 ≤ 55 then
            [Call.pad_block (Ptr.region (m.drop (64 * (m.length / 64)))) (m.length % 64)
                m.length true,
             Call.transform_block (m.drop (64 * (m.length / 64)) ++ [0x80]
                ++ List.replicate (55 - m.length % 64) 0
                ++ Spec.be64 (m.length * 8 % 2 ^ 64))]
          else
            [Call.pad_block (Ptr.region (m.drop (64 * (m.length / 64)))) (m.length % 64)
                m.length false,
             Call.transform_block (m.drop (64 * (m.length / 64)) ++ [0x80]
                ++ List.replicate (63 - m.length % 64) 0),
             Call.pad_block Ptr.null 0 m.length true,
             Call.transform_block (List.replicate 56 0
                ++ Spec.be64 (m.length * 8 % 2 ^ 64))])) := by
  have hloop := block_loop_calls_spec m (m.length / 64) 0 (m.length / block_length + 1)
    (init ctx) [] (by simp only [block_length]; omega)
  simp only [Nat.zero_add, Nat.mul_zero, List.nil_append] at hloop
  have hrem : (m.length + 2 ^ 64 - 64 * (m.length / 64)) % 2 ^ 64 = m.length % 64 := by omega
  have htl : (m.drop (64 * (m.length / 64))).length = m.length % 64 := by
    rw [List.length_drop]; omega
  have htake : (m.drop (64 * (m.length / 64))).take (m.length % 64)
      = m.drop (64 * (m.length / 64)) := List.take_of_length_le (Nat.le_of_eq htl)
  have hb : block_length = 64 := rfl
  unfold compute_hash_calls
  dsimp only [Option.getD_some]
  rw [mask_eq _ hL, hloop]
  dsimp only
  rw [hrem, ← List.range_eq_range']
  by_cases hr : m.length % 64 ≤ 55
  · have hA : (m.drop (64 * (m.length / 64)) ++ [0x80]
        ++ List.replicate (55 - m.length % 64) 0
        ++ Spec.be64 (m.length * 8 % 2 ^ 64)).length = 64 := by
      simp only [List.length_append, htl, List.length_singleton, List.length_replicate,
        be64_length]
      omega
    rw [pad_block_A (Ptr.region (m.drop (64 * (m.length / 64)))) buf _ _ (by simp) hr
      (by simp only [Ptr.bytes]; omega) hbuf]
    dsimp only [Ptr.bytes]
    rw [htake, if_pos hr, if_neg (by decide), hb, List.take_of_length_le (Nat.le_of_eq hA)]
    simp only [Option.map_some', List.append_assoc, List.singleton_append]
  · have hB : (m.drop (64 * (m.length / 64)) ++ [0x80]
        ++ List.replicate (63 - m.length % 64) 0).length = 64 := by
      simp only [List.length_append, htl, List.length_singleton, List.length_replicate]
      omega
    have hC : (List.replicate 56 0 ++ Spec.be64 (m.length * 8 % 2 ^ 64)).length = 64 := by
      simp only [List.length_append, List.length_replicate, be64_length]
    rw [pad_block_B (Ptr.region (m.drop (64 * (m.length / 64)))) buf _ _ (by simp)
      (by omega) (by omega) (by simp only [Ptr.bytes]; omega) hbuf]
    dsimp only [Ptr.bytes]
    rw [htake, if_neg hr, if_pos (by decide), pad_block_C _ 0 _ hB, hb,
      List.take_of_length_le (Nat.le_of_eq hB)]
    dsimp only
    rw [List.take_of_length_le (Nat.le_of_eq hC)]
    simp only [Option.map_some', List.append_assoc, List.singleton_append, List.cons_append,
      List.nil_append]

theorem blocks_map_transform (bs : List (List Nat)) :
    Call.blocks (bs.map Call.transform_block) = bs := by
  induction bs with
  | nil => rfl
  | cons b t ih =>
    simp only [Call.blocks, List.map_cons, List.filterMap_cons] at ih ⊢
    rw [ih]

theorem pads_map_transform (bs : List (List Nat)) :
    Call.pads (bs.map Call.transform_block) = [] := by
  induction bs with
  | nil => rfl
  | cons b t ih =>
    simp only [Call.pads, List.map_cons, List.filterMap_cons] at ih ⊢
    rw [ih]

theorem blocks_append_calls (c₁ c₂ : List Call) :
    Call.blocks (c₁ ++ c₂) = Call.blocks c₁ ++ Call.blocks c₂ := by
  simp only [Call.blocks, List.filterMap_append]

theorem pads_append_calls (c₁ c₂ : List Call) :
    Call.pads (c₁ ++ c₂) = Call.pads c₁ ++ Call.pads c₂ := by
  simp only [Call.pads, List.filterMap_append]

/-- Concatenating the full blocks of a message gives back its first bytes. -/
theorem flatten_full_blocks (m : List Nat) (q : Nat) :
    ((List.range q).map (fun j => (m.drop (64 * j)).take 64)).flatten = m.take (64 * q) := by
  induction q with
  | zero => simp
  | succ n ih =>
    rw [List.range_succ, List.map_append, List.flatten_append, ih]
    have e : 64 * (n + 1) = 64 * n + 64 := by omega
    rw [e, List.take_add]
    simp

/-- The blocks absorbed on a non-null buffer, and the flags of the padding calls. -/
theorem compute_hash_calls_blocks (m result ctx buf : List Nat) (hL : m.length < 2 ^ 61)
    (hbuf : buf.length = 64) :
    ∃ calls, (compute_hash_calls (some m) m.length result ctx buf).map Prod.snd = some calls ∧
      Call.blocks calls
        = (List.range (m.length / 64)).map (fun j => (m.drop (64 * j)).take 64) ++
          (if m.length % 64 ≤ 55 then
            [m.drop (64 * (m.length / 64)) ++ [0x80]
              ++ List.replicate (55 - m.length % 64) 0 ++ Spec.be64 (8 * m.length)]
          else
            [m.drop (64 * (m.length / 64)) ++ [0x80]
              ++ List.replicate (63 - m.length % 64) 0,
             List.replicate 56 0 ++ Spec.be64 (8 * m.length)]) ∧
      Call.pads calls
        = (if m.length % 64 ≤ 55 then [(false, true)] else [(false, false), (true, true)]) := by
  have hbits : m.length * 8 % 2 ^ 64 = 8 * m.length := by omega
  have h := compute_hash_calls_eq m result ctx buf (by omega) hbuf
  rw [hbits] at h
  refine ⟨_, h, ?_, ?_⟩
  · rw [blocks_append_calls]
    have e : (List.range (m.length / 64)).map
          (fun j => Call.transform_block ((m.drop (64 * j)).take 64))
        = ((List.range (m.length / 64)).map (fun j => (m.drop (64 * j)).take 64)).map
          Call.transform_block := by
      rw [List.map_map]; rfl
    rw [e, blocks_map_transform]
    congr 1
    by_cases hr : m.length % 64 ≤ 55
    · rw [if_pos hr, if_pos hr]; rfl
    · rw [if_neg hr, if_neg hr]; rfl
  · rw [pads_append_calls]
    have e : (List.range (m.length / 64)).map
          (fun j => Call.transform_block ((m.drop (64 * j)).take 64))
        = ((List.range (m.length / 64)).map (fun j => (m.drop (64 * j)).take 64)).map
          Call.transform_block := by
      rw [List.map_map]; rfl
    rw [e, pads_map_transform, List.nil_append]
    by_cases hr : m.length % 64 ≤ 55
    · rw [if_pos hr, if_pos hr]; rfl
    · rw [if_neg hr, if_neg hr]; rfl

/-- With memory read as bytes: for every message `m` of fewer than `2^61` bytes
in a non-null buffer, the 64-byte blocks `compute_hash` passes to `transform_block`, concatenated in
call order, are `m ++ [0x80] ++ (k zero bytes) ++ be64 (8 * L)` with `k ≤ 63` and
`L + 1 + k + 8` a multiple of 64; the full blocks of the message come first, in
order and without overlap (block `j` is bytes `64j .. 64j+63` of `m`); the digest
written is read off the state obtained by absorbing exactly these blocks. -/
theorem compute_hash_absorbs_padded (m result ctx buf : List Nat) (hL : m.length < 2 ^ 61)
    (hctx : ctx.length = 8) (hbuf : buf.length = 64) :
    ∃ calls, (compute_hash_calls (some m) m.length result ctx buf).map Prod.snd = some calls ∧
      (compute_hash_calls (some m) m.length result ctx buf).map Prod.fst
        = compute_hash_run (some m) m.length result ctx buf ∧
      compute_hash (some m) m.length result ctx buf
        = some (get_digest
            ((Call.blocks calls).foldl transform_block sha256_initial_hash_value) result) ∧
      (∀ b, b ∈ Call.blocks calls → b.length = 64) ∧
      (∃ k, k ≤ 63 ∧ (m.length + 1 + k + 8) % 64 = 0 ∧
        (Call.blocks calls).flatten
          = m ++ [0x80] ++ List.replicate k 0 ++ Spec.be64 (8 * m.length)) ∧
      (∀ j, j < m.length / 64 →
        (Call.blocks calls)[j]? = some ((m.drop (64 * j)).take 64)) := by
  obtain ⟨calls, hc, hb, _⟩ := compute_hash_calls_blocks m result ctx buf hL hbuf
  have hbits : m.length * 8 % 2 ^ 64 = 8 * m.length := by omega
  have htl : (m.drop (64 * (m.length / 64))).length = m.length % 64 := by
    rw [List.length_drop]; omega
  have hq : 64 * (m.length / 64) ≤ m.length := by omega
  refine ⟨calls, hc, compute_hash_calls_fst _ _ _ _ _, ?_, ?_, ?_, ?_⟩
  · unfold compute_hash
    rw [compute_hash_run_eq m result ctx buf (by omega) hctx hbuf, hbits, hb]
    simp only [Option.map_some', List.foldl_append, List.foldl_map, transform_block_take]
  · intro b hmem
    rw [hb, List.mem_append] at hmem
    rcases hmem with hmem | hmem
    · obtain ⟨j, hj, rfl⟩ := List.mem_map.mp hmem
      have hj' : j < m.length / 64 := List.mem_range.mp hj
      rw [List.length_take, List.length_drop]
      omega
    · by_cases hr : m.length % 64 ≤ 55
      · rw [if_pos hr, List.mem_singleton] at hmem
        subst hmem
        simp only [List.length_append, htl, List.length_singleton, List.length_replicate,
          be64_length]
        omega
      · rw [if_neg hr] at hmem
        simp only [List.mem_cons, List.mem_singleton, List.not_mem_nil, or_false] at hmem
        rcases hmem with hmem | hmem
        · subst hmem
          simp only [List.length_append, htl, List.length_singleton, List.length_replicate]
          omega
        · subst hmem
          simp only [List.length_append, List.length_replicate, be64_length]
  · rw [hb, List.flatten_append, flatten_full_blocks]
    by_cases hr : m.length % 64 ≤ 55
    · refine ⟨55 - m.length % 64, by omega, by omega, ?_⟩
      rw [if_pos hr]
      simp only [List.flatten_cons, List.flatten_nil, List.append_nil]
      simp only [← List.append_assoc, List.take_append_drop]
    · refine ⟨(63 - m.length % 64) + 56, by omega, by omega, ?_⟩
      rw [if_neg hr, List.replicate_add]
      simp only [List.flatten_cons, List.flatten_nil, List.append_nil]
      simp only [← List.append_assoc, List.take_append_drop]
  · intro j hj
    rw [hb, List.getElem?_append_left (by simp only [List.length_map, List.length_range]; exact hj),
      List.getElem?_map, List.getElem?_range hj]
    rfl

theorem compute_hash_absorbs_padded_witness :
    ((List.replicate 70 97).length < 2 ^ 61 ∧ (List.replicate 8 0).length = 8 ∧
      (List.replicate 64 0).length = 64) ∧
    ∃ calls, (compute_hash_calls (some (List.replicate 70 97)) (List.replicate 70 97).length
        (List.replicate 32 0) (List.replicate 8 0) (List.replicate 64 0)).map Prod.snd
        = some calls ∧
      (compute_hash_calls (some (List.replicate 70 97)) (List.replicate 70 97).length
        (List.replicate 32 0) (List.replicate 8 0) (List.replicate 64 0)).map Prod.fst
        = compute_hash_run (some (List.replicate 70 97)) (List.replicate 70 97).length
            (List.replicate 32 0) (List.replicate 8 0) (List.replicate 64 0) ∧
      compute_hash (some (List.replicate 70 97)) (List.replicate 70 97).length
          (List.replicate 32 0) (List.replicate 8 0) (List.replicate 64 0)
        = some (get_digest
            ((Call.blocks calls).foldl transform_block sha256_initial_hash_value)
            (List.replicate 32 0)) ∧
      (∀ b, b ∈ Call.blocks calls → b.length = 64) ∧
      (∃ k, k ≤ 63 ∧ ((List.replicate 70 97).length + 1 + k + 8) % 64 = 0 ∧
        (Call.blocks calls).flatten
          = List.replicate 70 97 ++ [0x80] ++ List.replicate k 0
            ++ Spec.be64 (8 * (List.replicate 70 97).length)) ∧
      (∀ j, j < (List.replicate 70 97).length / 64 →
        (Call.blocks calls)[j]? = some (((List.replicate 70 97).drop (64 * j)).take 64)) :=
  ⟨⟨by decide, by decide, by decide⟩,
    compute_hash_absorbs_padded (List.replicate 70 97) (List.replicate 32 0)
      (List.replicate 8 0) (List.replicate 64 0) (by decide) (by decide) (by decide)⟩

/-- The number of padding blocks in `compute_hash`, for a message of
fewer than `2^61` bytes in a non-null buffer (the null presentation is
`compute_hash_null_calls`). When `L mod 64 ≤ 55` there is one
call of `pad_block`, returning true (Shape A), and `transform_block` is called
`L / 64 + 1` times; when `56 ≤ L mod 64` there are two calls of `pad_block`, the
first returning false (Shape B) and the second, on a null pointer, true
(Shape C), and `transform_block` is called `L / 64 + 2` times; when `L` is a
multiple of 64 the one extra block is `0x80`, 55 zero bytes and the length. -/
theorem compute_hash_padding_blocks (m result ctx buf : List Nat) (hL : m.length < 2 ^ 61)
    (hbuf : buf.length = 64) :
    ∃ calls, (compute_hash_calls (some m) m.length result ctx buf).map Prod.snd = some calls ∧
      (m.length % 64 ≤ 55 →
        Call.pads calls = [(false, true)] ∧
        (Call.blocks calls).length = m.length / 64 + 1 ∧
        ((Call.blocks calls).drop (m.length / 64)).length = 1) ∧
      (56 ≤ m.length % 64 →
        Call.pads calls = [(false, false), (true, true)] ∧
        (Call.blocks calls).length = m.length / 64 + 2 ∧
        ((Call.blocks calls).drop (m.length / 64)).length = 2) ∧
      (m.length % 64 = 0 →
        (Call.blocks calls).drop (m.length / 64)
          = [[0x80] ++ List.replicate 55 0 ++ Spec.be64 (8 * m.length)]) := by
  obtain ⟨calls, hc, hb, hp⟩ := compute_hash_calls_blocks m result ctx buf hL hbuf
  have hlen : ((List.range (m.length / 64)).map
      (fun j => (m.drop (64 * j)).take 64)).length = m.length / 64 := by
    rw [List.length_map, List.length_range]
  refine ⟨calls, hc, ?_, ?_, ?_⟩
  · intro hr
    rw [hp, hb, if_pos hr, if_pos hr, List.drop_left' hlen, List.length_append, hlen]
    exact ⟨rfl, rfl, rfl⟩
  · intro hr
    have hr' : ¬ m.length % 64 ≤ 55 := by omega
    rw [hp, hb, if_neg hr', if_neg hr', List.drop_left' hlen, List.length_append, hlen]
    exact ⟨rfl, rfl, rfl⟩
  · intro hr
    have hd : m.drop (64 * (m.length / 64)) = [] := by
      apply List.drop_of_length_le
      omega
    rw [hb, if_pos (by omega), List.drop_left' hlen, hd, hr]
    rfl

theorem compute_hash_padding_blocks_witness :
    ((List.replicate 128 0).length < 2 ^ 61 ∧ (List.replicate 64 0).length = 64) ∧
    ∃ calls, (compute_hash_calls (some (List.replicate 128 0)) (List.replicate 128 0).length
        (List.replicate 32 0) (List.replicate 8 0) (List.replicate 64 0)).map Prod.snd
        = some calls ∧
      ((List.replicate 128 0).length % 64 ≤ 55 →
        Call.pads calls = [(false, true)] ∧
        (Call.blocks calls).length = (List.replicate 128 0).length / 64 + 1 ∧
        ((Call.blocks calls).drop ((List.replicate 128 0).length / 64)).length = 1) ∧
      (56 ≤ (List.replicate 128 0).length % 64 →
        Call.pads calls = [(false, false), (true, true)] ∧
        (Call.blocks calls).length = (List.replicate 128 0).length / 64 + 2 ∧
        ((Call.blocks calls).drop ((List.replicate 128 0).length / 64)).length = 2) ∧
      ((List.replicate 128 0).length % 64 = 0 →
        (Call.blocks calls).drop ((List.replicate 128 0).length / 64)
          = [[0x80] ++ List.replicate 55 0
              ++ Spec.be64 (8 * (List.replicate 128 0).length)]) :=
  ⟨⟨by simp, by decide⟩,
    compute_hash_padding_blocks (List.replicate 128 0) (List.replicate 32 0)
      (List.replicate 8 0) (List.replicate 64 0) (by simp) (by decide)⟩

/-! ## Host byte order -/

theorem schedule_eq_big_endian (B : List Nat) (hb : ∀ i, i < 64 → B.getD i 0 < 256) :
    schedule B = schedule_big_endian B := by
  have h1 := for_loop_congr 0 16
    (fun t (W : List Nat) =>
      W.set t ((((load_word B t &&& 0x000000FF) <<< 24) % 2 ^ 32) |||
             (((load_word B t &&& 0x0000FF00) <<< 8) % 2 ^ 32) |||
             ((load_word B t &&& 0x00FF0000) >>> 8) |||
             ((load_word B t &&& 0xFF000000) >>> 24)))
    (fun t (W : List Nat) => W.set t (load_word_big_endian B t))
    (List.replicate 64 0)
    (fun t _ ht W => by
      dsimp only
      rw [bswap32_load _ _ _ _ (hb (4 * t) (by omega)) (hb (4 * t + 1) (by omega))
        (hb (4 * t + 2) (by omega)) (hb (4 * t + 3) (by omega)) (load_word B t) rfl]
      congr 1
      simp only [load_word_big_endian]
      omega)
  unfold schedule schedule_big_endian
  dsimp only
  rw [h1]

/-- C16: big-endian word parsing in `transform_block`. For every block of 64
bytes and every `t < 16`, the schedule word `W[t]` computed on the little-endian
host (native load of bytes `4t .. 4t+3`, then the mask-and-shift byte swap) is
`B[4t] * 2^24 + B[4t+1] * 2^16 + B[4t+2] * 2^8 + B[4t+3]`, which is what the
big-endian host obtains by its plain native load; the two hosts compute the same
schedule and the same new state. -/
theorem transform_block_byte_order (B : List Nat) (_hlen : B.length = 64)
    (hb : ∀ b, b ∈ B → b < 256) :
    (∀ t, t < 16 →
      (schedule B).getD t 0
        = B.getD (4 * t) 0 * 2 ^ 24 + B.getD (4 * t + 1) 0 * 2 ^ 16
          + B.getD (4 * t + 2) 0 * 2 ^ 8 + B.getD (4 * t + 3) 0 ∧
      (((load_word B t &&& 0x000000FF) <<< 24) % 2 ^ 32) |||
          (((load_word B t &&& 0x0000FF00) <<< 8) % 2 ^ 32) |||
          ((load_word B t &&& 0x00FF0000) >>> 8) |||
          ((load_word B t &&& 0xFF000000) >>> 24)
        = B.getD (4 * t) 0 * 2 ^ 24 + B.getD (4 * t + 1) 0 * 2 ^ 16
          + B.getD (4 * t + 2) 0 * 2 ^ 8 + B.getD (4 * t + 3) 0 ∧
      load_word_big_endian B t
        = B.getD (4 * t) 0 * 2 ^ 24 + B.getD (4 * t + 1) 0 * 2 ^ 16
          + B.getD (4 * t + 2) 0 * 2 ^ 8 + B.getD (4 * t + 3) 0) ∧
    schedule B = schedule_big_endian B ∧
    ∀ state, transform_block state B = transform_block_big_endian state B := by
  have hb' : ∀ i, i < 64 → B.getD i 0 < 256 := fun i _ =>
    getD_mem_lt B 256 (by norm_num) hb i
  have hs := schedule_eq_big_endian B hb'
  refine ⟨fun t ht => ⟨?_, ?_, ?_⟩, hs, fun state => ?_⟩
  · rw [(schedule_spec B hb').2 t (by omega), W_lt16 B t ht]
    rfl
  · exact bswap32_load _ _ _ _ (hb' (4 * t) (by omega)) (hb' (4 * t + 1) (by omega))
      (hb' (4 * t + 2) (by omega)) (hb' (4 * t + 3) (by omega)) (load_word B t) rfl
  · simp only [load_word_big_endian]
    omega
  · unfold transform_block transform_block_big_endian
    rw [hs]

theorem transform_block_byte_order_witness :
    ((List.replicate 64 97).length = 64 ∧ (∀ b, b ∈ List.replicate 64 97 → b < 256)) ∧
    ((∀ t, t < 16 →
      (schedule (List.replicate 64 97)).getD t 0
        = (List.replicate 64 97).getD (4 * t) 0 * 2 ^ 24
          + (List.replicate 64 97).getD (4 * t + 1) 0 * 2 ^ 16
          + (List.replicate 64 97).getD (4 * t + 2) 0 * 2 ^ 8
          + (List.replicate 64 97).getD (4 * t + 3) 0 ∧
      (((load_word (List.replicate 64 97) t &&& 0x000000FF) <<< 24) % 2 ^ 32) |||
          (((load_word (List.replicate 64 97) t &&& 0x0000FF00) <<< 8) % 2 ^ 32) |||
          ((load_word (List.replicate 64 97) t &&& 0x00FF0000) >>> 8) |||
          ((load_word (List.replicate 64 97) t &&& 0xFF000000) >>> 24)
        = (List.replicate 64 97).getD (4 * t) 0 * 2 ^ 24
          + (List.replicate 64 97).getD (4 * t + 1) 0 * 2 ^ 16
          + (List.replicate 64 97).getD (4 * t + 2) 0 * 2 ^ 8
          + (List.replicate 64 97).getD (4 * t + 3) 0 ∧
      load_word_big_endian (List.replicate 64 97) t
        = (List.replicate 64 97).getD (4 * t) 0 * 2 ^ 24
          + (List.replicate 64 97).getD (4 * t + 1) 0 * 2 ^ 16
          + (List.replicate 64 97).getD (4 * t + 2) 0 * 2 ^ 8
          + (List.replicate 64 97).getD (4 * t + 3) 0) ∧
    schedule (List.replicate 64 97) = schedule_big_endian (List.replicate 64 97) ∧
    ∀ state, transform_block state (List.replicate 64 97)
      = transform_block_big_endian state (List.replicate 64 97)) :=
  ⟨⟨by decide, by decide⟩,
    transform_block_byte_order (List.replicate 64 97) (by decide) (by decide)⟩

/-! ## In-place padding and the length field -/

/-- C17: in-place padding. For every `data_length = n < 64`, calling `pad_block`
with the data pointer equal to the result buffer (the copy is skipped) gives the
same flag and the same 64-byte block as calling it on the same `n` data bytes
held elsewhere with any other result buffer, and the first `n` bytes of the
buffer are left as they were. -/
theorem pad_block_in_place (rb rb' mem : List Nat) (n L : Nat) (hn : n < 64)
    (hrb : rb.length = 64) (hrb' : rb'.length = 64) (hmem : n ≤ mem.length)
    (hsame : mem.take n = rb.take n) :
    pad_block Ptr.result_buffer n L rb = pad_block (Ptr.region mem) n L rb' ∧
    (pad_block Ptr.result_buffer n L rb).2.take n = rb.take n ∧
    (pad_block Ptr.result_buffer n L rb).2.length = 64 := by
  have hlt : (rb.take n).length = n := by
    rw [List.length_take]; omega
  by_cases h : n ≤ 55
  · have h1 := pad_block_A Ptr.result_buffer rb n L (by simp) h
      (by simp only [Ptr.bytes]; omega) hrb
    have h2 := pad_block_A (Ptr.region mem) rb' n L (by simp) h
      (by simp only [Ptr.bytes]; omega) hrb'
    simp only [Ptr.bytes] at h1 h2
    rw [hsame] at h2
    rw [h1, h2]
    refine ⟨rfl, ?_, ?_⟩
    · simp only [List.append_assoc]
      exact List.take_left' hlt
    · simp only [List.length_append, hlt, List.length_singleton, List.length_replicate,
        be64_length]
      omega
  · have h1 := pad_block_B Ptr.result_buffer rb n L (by simp) (by omega) (by omega)
      (by simp only [Ptr.bytes]; omega) hrb
    have h2 := pad_block_B (Ptr.region mem) rb' n L (by simp) (by omega) (by omega)
      (by simp only [Ptr.bytes]; omega) hrb'
    simp only [Ptr.bytes] at h1 h2
    rw [hsame] at h2
    rw [h1, h2]
    refine ⟨rfl, ?_, ?_⟩
    · simp only [List.append_assoc]
      exact List.take_left' hlt
    · simp only [List.length_append, hlt, List.length_singleton, List.length_replicate]
      omega

theorem pad_block_in_place_witness :
    (3 < 64 ∧ ([1, 2, 3] ++ List.replicate 61 170).length = 64 ∧
      (List.replicate 64 85).length = 64 ∧ 3 ≤ [1, 2, 3, 4].length ∧
      [1, 2, 3, 4].take 3 = ([1, 2, 3] ++ List.replicate 61 170).take 3) ∧
    (pad_block Ptr.result_buffer 3 3 ([1, 2, 3] ++ List.replicate 61 170)
      = pad_block (Ptr.region [1, 2, 3, 4]) 3 3 (List.replicate 64 85) ∧
    (pad_block Ptr.result_buffer 3 3 ([1, 2, 3] ++ List.replicate 61 170)).2.take 3
      = ([1, 2, 3] ++ List.replicate 61 170).take 3 ∧
    (pad_block Ptr.result_buffer 3 3 ([1, 2, 3] ++ List.replicate 61 170)).2.length = 64) :=
  ⟨⟨by decide, by decide, by decide, by decide, by decide⟩,
    pad_block_in_place ([1, 2, 3] ++ List.replicate 61 170) (List.replicate 64 85)
      [1, 2, 3, 4] 3 3 (by decide) (by decide) (by decide) (by decide) (by decide)⟩

theorem be_value_be64 (v : Nat) (hv : v < 2 ^ 64) : Spec.be_value (Spec.be64 v) = v := by
  simp only [Spec.be_value, Spec.be64, List.foldl_cons, List.foldl_nil]
  omega

theorem write_be_u64_drop (buf : List Nat) (v : Nat) (hbuf : buf.length = 64) :
    (write_be_u64 buf 56 v).drop 56 = Spec.be64 v := by
  obtain ⟨w1, w2⟩ := write_be_u64_spec buf 56 v
  apply ext_getD
  · rw [List.length_drop, w1, hbuf, be64_length]
  · intro i hi
    rw [List.length_drop, w1, hbuf] at hi
    have e : 56 + i - 56 = i := by omega
    rw [getD_drop, w2, hbuf,
      if_pos (show 56 ≤ 56 + i ∧ 56 + i < 56 + 8 ∧ 56 + i < 64 from by omega), e]

/-- C18: the length field does not wrap around. For every message length
`L < max_message_length = 2^61`, the 64-bit product `L * 8` of `pad_block` does
not overflow, and the eight bytes `write_be_u64` puts at offsets 56..63, read as
a big-endian unsigned integer, are `8 * L`; so it is in the block `pad_block`
returns in Shape A and in Shape C. -/
theorem length_field_exact (L : Nat) (buf : List Nat) (data : Ptr) (n : Nat)
    (hL : L < max_message_length) (hbuf : buf.length = 64)
    (hshape : data = Ptr.null ∨ (n ≤ 55 ∧ n ≤ (data.bytes buf).length)) :
    max_message_length = 2 ^ 61 ∧
    L * 8 < 2 ^ 64 ∧
    (L * 8) % 2 ^ 64 = 8 * L ∧
    Spec.be_value ((write_be_u64 buf 56 ((L * 8) % 2 ^ 64)).drop 56) = 8 * L ∧
    (pad_block data n L buf).1 = true ∧
    Spec.be_value ((pad_block data n L buf).2.drop 56) = 8 * L := by
  have hm : max_message_length = 2 ^ 61 := by decide
  rw [hm] at hL
  have hbits : L * 8 % 2 ^ 64 = 8 * L := by omega
  have hv : Spec.be_value (Spec.be64 (8 * L)) = 8 * L := be_value_be64 _ (by omega)
  refine ⟨hm, by omega, hbits, ?_, ?_⟩
  · rw [write_be_u64_drop buf _ hbuf, hbits, hv]
  · by_cases hd : data = Ptr.null
    · subst hd
      rw [pad_block_C buf n L hbuf, hbits]
      exact ⟨rfl, by
        rw [List.drop_left' (List.length_replicate 56 0)]
        exact hv⟩
    · rcases hshape with h | ⟨h1, h2⟩
      · exact absurd h hd
      · rw [pad_block_A data buf n L hd h1 h2 hbuf, hbits]
        have hlen : ((data.bytes buf).take n ++ [0x80]
            ++ List.replicate (55 - n) 0).length = 56 := by
          simp only [List.length_append, List.length_take, Nat.min_eq_left h2,
            List.length_singleton, List.length_replicate]
          omega
        exact ⟨rfl, by
          rw [List.drop_left' hlen]
          exact hv⟩

theorem length_field_exact_witness :
    (2 ^ 61 - 1 < max_message_length ∧ (List.replicate 64 170).length = 64 ∧
      (Ptr.null = Ptr.null ∨ (0 ≤ 55 ∧ 0 ≤ (Ptr.null.bytes (List.replicate 64 170)).length))) ∧
    (max_message_length = 2 ^ 61 ∧
    (2 ^ 61 - 1) * 8 < 2 ^ 64 ∧
    ((2 ^ 61 - 1) * 8) % 2 ^ 64 = 8 * (2 ^ 61 - 1) ∧
    Spec.be_value ((write_be_u64 (List.replicate 64 170) 56
      (((2 ^ 61 - 1) * 8) % 2 ^ 64)).drop 56) = 8 * (2 ^ 61 - 1) ∧
    (pad_block Ptr.null 0 (2 ^ 61 - 1) (List.replicate 64 170)).1 = true ∧
    Spec.be_value ((pad_block Ptr.null 0 (2 ^ 61 - 1) (List.replicate 64 170)).2.drop 56)
      = 8 * (2 ^ 61 - 1)) :=
  ⟨⟨by decide, by decide, by decide⟩,
    length_field_exact (2 ^ 61 - 1) (List.replicate 64 170) Ptr.null 0
      (by decide) (by decide) (by decide)⟩

/-! ## The round constants -/

theorem count_eq_filter_length (p : Nat → Prop) [DecidablePred p] (n : Nat) :
    Nat.count p n = ((List.range n).filter (fun k => decide (p k))).length := by
  induction n with
  | zero => simp
  | succ m ih =>
    rw [Nat.count_succ, List.range_succ, List.filter_append, List.length_append, ih]
    by_cases h : p m
    · simp [h]
    · simp [h]

theorem primes_table :
    ∀ i, i < 64 → Spec.is_prime (Spec.primes.getD i 0) = true ∧
      ((List.range (Spec.primes.getD i 0)).filter Spec.is_prime).length = i := by
  decide!

/-- The entries of `Spec.primes` are the primes in order: entry `i` is the
`i`-th prime, counting from zero. -/
theorem nth_prime_eq (i : Nat) (hi : i < 64) : Nat.nth Nat.Prime i = Spec.primes.getD i 0 := by
  obtain ⟨h1, h2⟩ := primes_table i hi
  have hp : Nat.Prime (Spec.primes.getD i 0) := (is_prime_iff _).mp h1
  have hc : Nat.count Nat.Prime (Spec.primes.getD i 0) = i := by
    rw [count_eq_filter_length]
    have e : (fun k => decide (Nat.Prime k)) = Spec.is_prime := by
      funext k
      by_cases hk : Nat.Prime k
      · rw [(is_prime_iff k).mpr hk]; simp [hk]
      · have : Spec.is_prime k = false := by
          cases h : Spec.is_prime k
          · rfl
          · exact absurd ((is_prime_iff k).mp h) hk
        rw [this]; simp [hk]
    rw [e, h2]
  have hn := Nat.nth_count hp
  rw [hc] at hn
  exact hn

theorem constants_table :
    ∀ i, i < 64 →
      sha256_hash_constants.getD i 0 < 2 ^ 32 ∧
      (Spec.iroot 3 (Spec.primes.getD i 0) * 2 ^ 32 + sha256_hash_constants.getD i 0) ^ 3
        ≤ Spec.primes.getD i 0 * 2 ^ 96 ∧
      Spec.primes.getD i 0 * 2 ^ 96
        < (Spec.iroot 3 (Spec.primes.getD i 0) * 2 ^ 32
            + sha256_hash_constants.getD i 0 + 1) ^ 3 := by
  decide!

theorem cube_bracket_unique (N X k k' : Nat) (h1 : (N + k) ^ 3 ≤ X) (h2 : X < (N + k + 1) ^ 3)
    (h3 : (N + k') ^ 3 ≤ X) (h4 : X < (N + k' + 1) ^ 3) : k = k' := by
  by_contra hne
  rcases Nat.lt_or_gt_of_ne hne with h | h
  · have : (N + k + 1) ^ 3 ≤ (N + k') ^ 3 := Nat.pow_le_pow_left (by omega) 3
    omega
  · have : (N + k' + 1) ^ 3 ≤ (N + k) ^ 3 := Nat.pow_le_pow_left (by omega) 3
    omega

/-- C19: the 64 literals of `sha256_hash_constants` are the first 32 bits of
the fractional parts of the cube roots of the first 64 primes. For every
`i < 64`, with `p` the `i`-th prime counting from zero (`Nat.nth Nat.Prime i`, the
entry `i` of the table of primes) and `n` the integer part of the cube root of
`p`, the literal `K[i]` is below `2^32` and
`(n * 2^32 + K[i])^3 ≤ p * 2^96 < (n * 2^32 + K[i] + 1)^3`, and it is the only
such number. -/
theorem hash_constants_are_cube_roots (i : Nat) (hi : i < 64) :
    sha256_hash_constants.length = 64 ∧
    Nat.nth Nat.Prime i = Spec.primes.getD i 0 ∧
    Spec.iroot 3 (Nat.nth Nat.Prime i) ^ 3 ≤ Nat.nth Nat.Prime i ∧
    Nat.nth Nat.Prime i < (Spec.iroot 3 (Nat.nth Nat.Prime i) + 1) ^ 3 ∧
    sha256_hash_constants.getD i 0 < 2 ^ 32 ∧
    (Spec.iroot 3 (Nat.nth Nat.Prime i) * 2 ^ 32 + sha256_hash_constants.getD i 0) ^ 3
      ≤ Nat.nth Nat.Prime i * 2 ^ 96 ∧
    Nat.nth Nat.Prime i * 2 ^ 96
      < (Spec.iroot 3 (Nat.nth Nat.Prime i) * 2 ^ 32 + sha256_hash_constants.getD i 0 + 1) ^ 3 ∧
    (∀ k, k < 2 ^ 32 →
      (Spec.iroot 3 (Nat.nth Nat.Prime i) * 2 ^ 32 + k) ^ 3 ≤ Nat.nth Nat.Prime i * 2 ^ 96 →
      Nat.nth Nat.Prime i * 2 ^ 96 < (Spec.iroot 3 (Nat.nth Nat.Prime i) * 2 ^ 32 + k + 1) ^ 3 →
      k = sha256_hash_constants.getD i 0) := by
  obtain ⟨c1, c2, c3⟩ := constants_table i hi
  obtain ⟨r1, r2⟩ := iroot_spec 3 (Spec.primes.getD i 0) (by decide)
  rw [nth_prime_eq i hi]
  exact ⟨rfl, rfl, r1, r2, c1, c2, c3,
    fun k _ h1 h2 => cube_bracket_unique _ _ _ _ h1 h2 c2 c3⟩

theorem hash_constants_are_cube_roots_witness :
    0 < 64 ∧
    (sha256_hash_constants.length = 64 ∧
    Nat.nth Nat.Prime 0 = Spec.primes.getD 0 0 ∧
    Spec.iroot 3 (Nat.nth Nat.Prime 0) ^ 3 ≤ Nat.nth Nat.Prime 0 ∧
    Nat.nth Nat.Prime 0 < (Spec.iroot 3 (Nat.nth Nat.Prime 0) + 1) ^ 3 ∧
    sha256_hash_constants.getD 0 0 < 2 ^ 32 ∧
    (Spec.iroot 3 (Nat.nth Nat.Prime 0) * 2 ^ 32 + sha256_hash_constants.getD 0 0) ^ 3
      ≤ Nat.nth Nat.Prime 0 * 2 ^ 96 ∧
    Nat.nth Nat.Prime 0 * 2 ^ 96
      < (Spec.iroot 3 (Nat.nth Nat.Prime 0) * 2 ^ 32 + sha256_hash_constants.getD 0 0 + 1) ^ 3 ∧
    (∀ k, k < 2 ^ 32 →
      (Spec.iroot 3 (Nat.nth Nat.Prime 0) * 2 ^ 32 + k) ^ 3 ≤ Nat.nth Nat.Prime 0 * 2 ^ 96 →
      Nat.nth Nat.Prime 0 * 2 ^ 96 < (Spec.iroot 3 (Nat.nth Nat.Prime 0) * 2 ^ 32 + k + 1) ^ 3 →
      k = sha256_hash_constants.getD 0 0)) :=
  ⟨by decide, hash_constants_are_cube_roots 0 (by decide)⟩

/-! ## The offsets `pad_block` writes -/

theorem unsafe_copy_logged_eq (dst log src : List Nat) (n : Nat) :
    unsafe_copy_logged (dst, log) src n = (unsafe_copy dst src n, log ++ List.range n) := by
  unfold unsafe_copy_logged unsafe_copy
  apply for_loop_invariant
    (fun k (d : List Nat × List Nat) =>
      d = (for_loop 0 k (fun i d => d.set i (src.getD i 0)) dst, log ++ List.range k)) 0 n
  · exact Nat.zero_le n
  · simp [for_loop_self]
  · intro t d h0 _ hd
    rw [for_loop_succ _ _ _ _ h0, hd, List.range_succ, ← List.append_assoc]
    rfl

theorem zero_fill_logged_eq (k : Nat) : ∀ (b log : List Nat) (p : Nat),
    zero_fill_logged (b, log) p k
      = (((zero_fill b p k).1, log ++ List.range' p k), (zero_fill b p k).2) := by
  induction k with
  | zero => intro b log p; simp [zero_fill_logged, zero_fill]
  | succ n ih =>
    intro b log p
    rw [zero_fill_logged, logged_set, ih, zero_fill, List.range'_succ]
    simp

theorem write_be_u64_logged_eq (b log : List Nat) (p v : Nat) :
    write_be_u64_logged (b, log) p v = (write_be_u64 b p v, log ++ List.range' p 8) := by
  unfold write_be_u64_logged write_be_u64 store_u64_logged store_u64
  rw [for_loop_eight, for_loop_eight]
  simp [logged_set, List.range']

/-- The offsets written by `pad_block`, for a data length below 64: the copy
(unless it is skipped), the terminator, the zero fill and the length field, from
left to right. -/
theorem pad_block_logged_eq (data : Ptr) (rb : List Nat) (n L : Nat) (hn : n < 64) :
    pad_block_logged data n L rb
      = ((pad_block data n L rb).1, (pad_block data n L rb).2,
          match data with
          | Ptr.null => List.range' 0 56 ++ List.range' 56 8
          | Ptr.result_buffer =>
            if n ≤ 55 then [n] ++ List.range' (n + 1) (55 - n) ++ List.range' 56 8
            else [n] ++ List.range' (n + 1) (63 - n)
          | Ptr.region _ =>
            if n ≤ 55 then List.range n ++ [n] ++ List.range' (n + 1) (55 - n)
              ++ List.range' 56 8
            else List.range n ++ [n] ++ List.range' (n + 1) (63 - n)) := by
  have hb : block_length = 64 := rfl
  cases data with
  | null =>
    simp only [pad_block_logged, pad_block, zero_fill_logged_eq, write_be_u64_logged_eq, hb,
      List.nil_append]
    have hp := (zero_fill_spec (64 - 8) rb 0).1
    rw [hp]
  | result_buffer =>
    by_cases h : n ≤ 55
    · have hz : (64 - (1 + 8) + 2 ^ 64 - n) % 2 ^ 64 = 55 - n := by omega
      have hc : n ≤ 64 - (1 + 8) := by omega
      simp only [pad_block_logged, pad_block, hb, if_pos hc, hz, logged_set,
        zero_fill_logged_eq, write_be_u64_logged_eq, if_pos h, List.nil_append]
      have hp := (zero_fill_spec (55 - n) (rb.set n 0x80) (n + 1)).1
      have e : n + 1 + (55 - n) = 56 := by omega
      rw [hp, e]
    · have hz : (64 - 1 + 2 ^ 64 - n) % 2 ^ 64 = 63 - n := by omega
      have hc : ¬ n ≤ 64 - (1 + 8) := by omega
      simp only [pad_block_logged, pad_block, hb, if_neg hc, hz, logged_set,
        zero_fill_logged_eq, if_neg h, List.nil_append]
  | region mem =>
    by_cases h : n ≤ 55
    · have hz : (64 - (1 + 8) + 2 ^ 64 - n) % 2 ^ 64 = 55 - n := by omega
      have hc : n ≤ 64 - (1 + 8) := by omega
      simp only [pad_block_logged, pad_block, hb, if_pos hc, hz, logged_set,
        unsafe_copy_logged_eq, zero_fill_logged_eq, write_be_u64_logged_eq, if_pos h,
        List.nil_append]
      have hp := (zero_fill_spec (55 - n) ((unsafe_copy rb mem n).set n 0x80) (n + 1)).1
      have e : n + 1 + (55 - n) = 56 := by omega
      rw [hp, e]
    · have hz : (64 - 1 + 2 ^ 64 - n) % 2 ^ 64 = 63 - n := by omega
      have hc : ¬ n ≤ 64 - (1 + 8) := by omega
      simp only [pad_block_logged, pad_block, hb, if_neg hc, hz, logged_set,
        unsafe_copy_logged_eq, zero_fill_logged_eq, if_neg h, List.nil_append]

theorem pad_block_length (data : Ptr) (rb : List Nat) (n L : Nat) (hn : n < 64)
    (hmem : n ≤ (data.bytes rb).length) (hrb : rb.length = 64) :
    (pad_block data n L rb).2.length = 64 := by
  by_cases hd : data = Ptr.null
  · subst hd
    rw [pad_block_C rb n L hrb]
    simp only [List.length_append, List.length_replicate, be64_length]
  · by_cases h : n ≤ 55
    · rw [pad_block_A data rb n L hd h hmem hrb]
      simp only [List.length_append, List.length_take, Nat.min_eq_left hmem,
        List.length_singleton, List.length_replicate, be64_length]
      omega
    · rw [pad_block_B data rb n L hd (by omega) (by omega) hmem hrb]
      simp only [List.length_append, List.length_take, Nat.min_eq_left hmem,
        List.length_singleton, List.length_replicate]
      omega

/-- The offsets written, as a set: all of `0..63`, except that in place the
first `n` are skipped. -/
theorem pad_block_logged_mem (data : Ptr) (rb : List Nat) (n L : Nat) (hn : n < 64)
    (hnull : data = Ptr.null → n = 0) (i : Nat) :
    i ∈ (pad_block_logged data n L rb).2.2
      ↔ (if data = Ptr.result_buffer then n ≤ i else True) ∧ i < 64 := by
  rw [pad_block_logged_eq data rb n L hn]
  cases data with
  | null =>
    simp only [List.mem_append, List.mem_range'_1, if_neg (show ¬ Ptr.null = Ptr.result_buffer
      from by decide), true_and]
    omega
  | result_buffer =>
    by_cases h : n ≤ 55
    · simp only [if_pos h, List.mem_append, List.mem_range'_1, List.mem_singleton, if_true]
      omega
    · simp only [if_neg h, List.mem_append, List.mem_range'_1, List.mem_singleton, if_true]
      omega
  | region mem =>
    have hne : ¬ Ptr.region mem = Ptr.result_buffer := by simp
    by_cases h : n ≤ 55
    · simp only [if_pos h, List.mem_append, List.mem_range'_1, List.mem_singleton,
        List.mem_range, if_neg hne, true_and]
      omega
    · simp only [if_neg h, List.mem_append, List.mem_range'_1, List.mem_singleton,
        List.mem_range, if_neg hne, true_and]
      omega

/-- C20 as stated fails: when the data pointer is the result buffer the copy is
skipped, so with `data_length = 1` offset 0 is not written (the byte there, here
7, is the data byte and stays). -/
theorem pad_block_in_place_skips_data :
    ¬ (∀ i, i < 64 → i ∈ (pad_block_logged Ptr.result_buffer 1 1 (List.replicate 64 7)).2.2) ∧
    (pad_block_logged Ptr.result_buffer 1 1 (List.replicate 64 7)).2.2
      = List.range' 1 63 ∧
    (pad_block Ptr.result_buffer 1 1 (List.replicate 64 7)).2.getD 0 0 = 7 := by
  refine ⟨fun h => ?_, by decide, by decide⟩
  have h0 := (pad_block_logged_mem Ptr.result_buffer (List.replicate 64 7) 1 1 (by decide)
    (by decide) 0).mp (h 0 (by decide))
  simp at h0

/-- C20, amended: `pad_block` determines its output block and stays in bounds.
For every `data_length = n < 64` of readable data (`n = 0` for a null pointer)
and a 64-byte result buffer: every offset written lies in `0..63`; when `data`
is not the result buffer every offset in `0..63` is written and the returned
flag and block do not depend on what the result buffer held; when `data` is the
result buffer exactly the offsets `n..63` are written and the first `n` bytes
stay. -/
theorem pad_block_writes (data : Ptr) (rb rb' : List Nat) (n L : Nat) (hn : n < 64)
    (hmem : n ≤ (data.bytes rb).length) (hrb : rb.length = 64) (hrb' : rb'.length = 64) :
    ((pad_block_logged data n L rb).1 = (pad_block data n L rb).1 ∧
      (pad_block_logged data n L rb).2.1 = (pad_block data n L rb).2) ∧
    (∀ i, i ∈ (pad_block_logged data n L rb).2.2 → i < 64) ∧
    (data ≠ Ptr.result_buffer →
      (∀ i, i < 64 → i ∈ (pad_block_logged data n L rb).2.2) ∧
      pad_block data n L rb' = pad_block data n L rb) ∧
    (data = Ptr.result_buffer →
      (∀ i, i ∈ (pad_block_logged data n L rb).2.2 ↔ n ≤ i ∧ i < 64) ∧
      (pad_block data n L rb).2.take n = rb.take n) := by
  have hnull : data = Ptr.null → n = 0 := by
    intro h
    subst h
    simpa [Ptr.bytes] using hmem
  refine ⟨?_, ?_, ?_, ?_⟩
  · rw [pad_block_logged_eq data rb n L hn]
    exact ⟨rfl, rfl⟩
  · intro i hi
    exact ((pad_block_logged_mem data rb n L hn hnull i).mp hi).2
  · intro hne
    refine ⟨fun i hi => ?_, ?_⟩
    · rw [pad_block_logged_mem data rb n L hn hnull i, if_neg hne]
      exact ⟨trivial, hi⟩
    · cases data with
      | null => rw [pad_block_C rb n L hrb, pad_block_C rb' n L hrb']
      | result_buffer => exact absurd rfl hne
      | region mem =>
        by_cases h : n ≤ 55
        · rw [pad_block_A (Ptr.region mem) rb n L (by simp) h hmem hrb,
            pad_block_A (Ptr.region mem) rb' n L (by simp) h hmem hrb']
          rfl
        · rw [pad_block_B (Ptr.region mem) rb n L (by simp) (by omega) (by omega) hmem hrb,
            pad_block_B (Ptr.region mem) rb' n L (by simp) (by omega) (by omega) hmem hrb']
          rfl
  · intro he
    subst he
    refine ⟨fun i => ?_, ?_⟩
    · rw [pad_block_logged_mem Ptr.result_buffer rb n L hn hnull i, if_pos rfl]
    · have hlt : (rb.take n).length = n := by
        rw [List.length_take]; omega
      by_cases h : n ≤ 55
      · rw [pad_block_A Ptr.result_buffer rb n L (by simp) h hmem hrb]
        simp only [Ptr.bytes, List.append_assoc]
        exact List.take_left' hlt
      · rw [pad_block_B Ptr.result_buffer rb n L (by simp) (by omega) (by omega) hmem hrb]
        simp only [Ptr.bytes, List.append_assoc]
        exact List.take_left' hlt

theorem pad_block_writes_witness :
    (60 < 64 ∧ 60 ≤ ((Ptr.region (List.replicate 60 5)).bytes (List.replicate 64 170)).length ∧
      (List.replicate 64 170).length = 64 ∧ (List.replicate 64 85).length = 64) ∧
    (((pad_block_logged (Ptr.region (List.replicate 60 5)) 60 60 (List.replicate 64 170)).1
        = (pad_block (Ptr.region (List.replicate 60 5)) 60 60 (List.replicate 64 170)).1 ∧
      (pad_block_logged (Ptr.region (List.replicate 60 5)) 60 60 (List.replicate 64 170)).2.1
        = (pad_block (Ptr.region (List.replicate 60 5)) 60 60 (List.replicate 64 170)).2) ∧
    (∀ i, i ∈ (pad_block_logged (Ptr.region (List.replicate 60 5)) 60 60
        (List.replicate 64 170)).2.2 → i < 64) ∧
    (Ptr.region (List.replicate 60 5) ≠ Ptr.result_buffer →
      (∀ i, i < 64 → i ∈ (pad_block_logged (Ptr.region (List.replicate 60 5)) 60 60
        (List.replicate 64 170)).2.2) ∧
      pad_block (Ptr.region (List.replicate 60 5)) 60 60 (List.replicate 64 85)
        = pad_block (Ptr.region (List.replicate 60 5)) 60 60 (List.replicate 64 170)) ∧
    (Ptr.region (List.replicate 60 5) = Ptr.result_buffer →
      (∀ i, i ∈ (pad_block_logged (Ptr.region (List.replicate 60 5)) 60 60
        (List.replicate 64 170)).2.2 ↔ 60 ≤ i ∧ i < 64) ∧
      (pad_block (Ptr.region (List.replicate 60 5)) 60 60 (List.replicate 64 170)).2.take 60
        = (List.replicate 64 170).take 60)) :=
  ⟨⟨by decide, by decide, by decide, by decide⟩,
    pad_block_writes (Ptr.region (List.replicate 60 5)) (List.replicate 64 170)
      (List.replicate 64 85) 60 60 (by decide) (by decide) (by decide) (by decide)⟩

/-! ## No assertion fails -/

theorem right_shift_checked_eq (x n : Nat) (hn : n < 32) :
    right_shift_checked x n = some (right_shift x n) := by
  simp only [right_shift_checked, right_shift]
  rw [if_pos (show n < 4 * 8 from by omega)]

theorem left_shift_checked_eq (x n : Nat) (hn : n < 32) :
    left_shift_checked x n = some (left_shift x n) := by
  simp only [left_shift_checked, left_shift]
  rw [if_pos (show n < 4 * 8 from by omega)]

theorem right_shift_checked_none (x n : Nat) (hn : 32 ≤ n) : right_shift_checked x n = none := by
  simp only [right_shift_checked]
  rw [if_neg (show ¬ n < 4 * 8 from by omega)]

theorem left_shift_checked_none (x n : Nat) (hn : 32 ≤ n) : left_shift_checked x n = none := by
  simp only [left_shift_checked]
  rw [if_neg (show ¬ n < 4 * 8 from by omega)]

theorem right_rotate_checked_eq (x n : Nat) (h0 : 0 < n) (hn : n < 32) :
    right_rotate_checked x n = some (right_rotate x n) := by
  have e : (4 * 8 + 256 - n) % 256 < 32 := by omega
  simp only [right_rotate_checked, right_rotate]
  rw [right_shift_checked_eq x n hn, left_shift_checked_eq x _ e]

/-- A rotation by nothing fails the assertion of `left_shift`, which is handed 32. -/
theorem right_rotate_checked_zero (x : Nat) : right_rotate_checked x 0 = none := by
  simp only [right_rotate_checked]
  rw [right_shift_checked_eq x 0 (by decide), left_shift_checked_none x _ (by decide)]

theorem F2_checked_eq (x : Nat) : F2_checked x = some (F2 x) := by
  simp only [F2_checked, F2]
  rw [right_rotate_checked_eq x 2 (by decide) (by decide),
    right_rotate_checked_eq x 13 (by decide) (by decide),
    right_rotate_checked_eq x 22 (by decide) (by decide)]

theorem F3_checked_eq (x : Nat) : F3_checked x = some (F3 x) := by
  simp only [F3_checked, F3]
  rw [right_rotate_checked_eq x 6 (by decide) (by decide),
    right_rotate_checked_eq x 11 (by decide) (by decide),
    right_rotate_checked_eq x 25 (by decide) (by decide)]

theorem F4_checked_eq (x : Nat) : F4_checked x = some (F4 x) := by
  simp only [F4_checked, F4]
  rw [right_rotate_checked_eq x 7 (by decide) (by decide),
    right_rotate_checked_eq x 18 (by decide) (by decide),
    right_shift_checked_eq x 3 (by decide)]

theorem F5_checked_eq (x : Nat) : F5_checked x = some (F5 x) := by
  simp only [F5_checked, F5]
  rw [right_rotate_checked_eq x 17 (by decide) (by decide),
    right_rotate_checked_eq x 19 (by decide) (by decide),
    right_shift_checked_eq x 10 (by decide)]

theorem round_checked_eq (W : List Nat) (t : Nat) (v : Vars) :
    round_checked W t v = some (round W t v) := by
  simp only [round_checked, round]
  rw [F3_checked_eq, F2_checked_eq]

/-- A loop whose body never fails does not fail. -/
theorem for_loop_some {σ : Type} (lo hi : Nat) (f : Nat → σ → σ)
    (g : Nat → Option σ → Option σ) (h : ∀ t s, g t (some s) = some (f t s)) (s : σ) :
    for_loop lo hi g (some s) = some (for_loop lo hi f s) := by
  unfold for_loop
  generalize List.range' lo (hi - lo) = l
  induction l generalizing s with
  | nil => rfl
  | cons a t ih =>
    simp only [List.foldl_cons]
    rw [h a s]
    exact ih (f a s)

theorem schedule_checked_eq (data : List Nat) : schedule_checked data = some (schedule data) := by
  unfold schedule_checked schedule
  dsimp only
  apply for_loop_some
  intro t W
  dsimp only
  rw [F5_checked_eq, F4_checked_eq]

theorem transform_block_checked_eq (state data : List Nat) :
    transform_block_checked state data = some (transform_block state data) := by
  unfold transform_block_checked transform_block
  dsimp only
  rw [schedule_checked_eq]
  dsimp only
  rw [for_loop_some 0 64 (round (schedule data)) _ (fun t v => round_checked_eq _ t v)]

theorem block_loop_checked_eq (data : List Nat) (endp : Nat) : ∀ (fuel p : Nat) (ctx : List Nat),
    block_loop_checked data endp fuel p ctx = block_loop data endp fuel p ctx := by
  intro fuel
  induction fuel with
  | zero => intro p ctx; rfl
  | succ n ih =>
    intro p ctx
    rw [block_loop_checked, block_loop, transform_block_checked_eq]
    dsimp only
    rw [ih]

theorem pad_block_checked_eq (data : Ptr) (data_length message_length : Nat)
    (result_buffer : List Nat) (hL : message_length < max_message_length)
    (hnull : data = Ptr.null → data_length = 0)
    (hdata : data ≠ Ptr.null → data_length < block_length) :
    pad_block_checked data data_length message_length result_buffer
      = some (pad_block data data_length message_length result_buffer) := by
  unfold pad_block_checked
  rw [if_pos hL]
  cases data with
  | null => dsimp only; rw [if_pos (hnull rfl)]
  | result_buffer => dsimp only; rw [if_pos (hdata (by simp))]
  | region mem => dsimp only; rw [if_pos (hdata (by simp))]

theorem pad_block_checked_none (data : Ptr) (data_length message_length : Nat)
    (result_buffer : List Nat)
    (h : ¬ (message_length < max_message_length ∧ (data = Ptr.null → data_length = 0) ∧
      (data ≠ Ptr.null → data_length < block_length))) :
    pad_block_checked data data_length message_length result_buffer = none := by
  unfold pad_block_checked
  by_cases hL : message_length < max_message_length
  · rw [if_pos hL]
    cases data with
    | null =>
      dsimp only
      rw [if_neg]
      intro h0
      exact h ⟨hL, fun _ => h0, fun hne => absurd rfl hne⟩
    | result_buffer =>
      dsimp only
      rw [if_neg]
      intro h0
      exact h ⟨hL, fun hn => by simp at hn, fun _ => h0⟩
    | region mem =>
      dsimp only
      rw [if_neg]
      intro h0
      exact h ⟨hL, fun hn => by simp at hn, fun _ => h0⟩
  · rw [if_neg hL]

theorem compute_hash_checked_eq (m result ctx buf : List Nat) (hL : m.length < 2 ^ 61) :
    compute_hash_checked (some m) m.length result ctx buf
      = compute_hash_run (some m) m.length result ctx buf := by
  have hloop := block_loop_spec m (m.length / 64) 0 (m.length / block_length + 1) (init ctx)
    (by simp only [block_length]; omega)
  simp only [Nat.zero_add, Nat.mul_zero] at hloop
  have hrem : (m.length + 2 ^ 64 - 64 * (m.length / 64)) % 2 ^ 64 = m.length % 64 := by omega
  have hmax : m.length < max_message_length := hL
  unfold compute_hash_checked compute_hash_run
  dsimp only [Option.getD_some]
  rw [mask_eq _ (show m.length < 2 ^ 64 from by omega), block_loop_checked_eq, hloop]
  dsimp only
  rw [hrem, pad_block_checked_eq _ _ _ _ hmax (by simp)
    (fun _ => by simp only [block_length]; omega)]
  generalize pad_block (Ptr.region (List.drop (64 * (m.length / 64)) m)) (m.length % 64)
    m.length buf = pr
  obtain ⟨done, buf1⟩ := pr
  dsimp only
  rw [transform_block_checked_eq]
  dsimp only
  cases done with
  | true => rfl
  | false =>
    rw [pad_block_checked_eq _ _ _ _ hmax (fun _ => rfl) (fun h => absurd rfl h)]
    generalize pad_block Ptr.null 0 m.length buf1 = pr2
    obtain ⟨d2, buf2⟩ := pr2
    dsimp only [Bool.not_false, if_true]
    rw [transform_block_checked_eq]
    simp only [Bool.not_false, if_true]

theorem compute_hash_run_some (m result ctx buf : List Nat) (hL : m.length < 2 ^ 64) :
    ∃ out, compute_hash_run (some m) m.length result ctx buf = some out := by
  have hloop := block_loop_spec m (m.length / 64) 0 (m.length / block_length + 1) (init ctx)
    (by simp only [block_length]; omega)
  simp only [Nat.zero_add, Nat.mul_zero] at hloop
  unfold compute_hash_run
  dsimp only [Option.getD_some]
  rw [mask_eq _ hL, hloop]
  exact ⟨_, rfl⟩

/-- C21: no assertion fails inside `compute_hash` on an in-contract input. For a
non-null buffer holding `L < 2^61` bytes the masked length is `64 * (L / 64)` and
the remaining count is `L mod 64`, below 64; the two calls of `pad_block`, on the
tail with that count and on the null pointer with a count of 0, pass its
assertions whatever the buffers hold; every rotation amount `n` of the logical
functions has `n < 32` and `32 - n` in `1..31`, so that both shifts made by
`right_rotate` pass theirs, and so do `F2 .. F5` on every word; and the run with
the assertions in place ends with the very result of the run without them. -/
theorem compute_hash_assertions_hold (m result ctx buf : List Nat) (hL : m.length < 2 ^ 61) :
    m.length &&& (0xFFFFFFFFFFFFFFFF ^^^ (block_length - 1)) = 64 * (m.length / 64) ∧
    (m.length + 2 ^ 64 - 64 * (m.length / 64)) % 2 ^ 64 = m.length % 64 ∧
    m.length % 64 < block_length ∧
    m.length < max_message_length ∧
    (∀ tail rb, pad_block_checked (Ptr.region tail) (m.length % 64) m.length rb
      = some (pad_block (Ptr.region tail) (m.length % 64) m.length rb)) ∧
    (∀ rb, pad_block_checked Ptr.null 0 m.length rb
      = some (pad_block Ptr.null 0 m.length rb)) ∧
    (∀ n, n ∈ [2, 6, 7, 11, 13, 17, 18, 19, 22, 25] →
      n < 32 ∧ (4 * 8 + 256 - n) % 256 = 32 - n ∧ 1 ≤ 32 - n ∧ 32 - n ≤ 31 ∧
      ∀ x, right_shift_checked x n = some (right_shift x n) ∧
        left_shift_checked x (32 - n) = some (left_shift x (32 - n)) ∧
        right_rotate_checked x n = some (right_rotate x n)) ∧
    (∀ x, F2_checked x = some (F2 x) ∧ F3_checked x = some (F3 x) ∧
      F4_checked x = some (F4 x) ∧ F5_checked x = some (F5 x)) ∧
    ∃ out, compute_hash_run (some m) m.length result ctx buf = some out ∧
      compute_hash_checked (some m) m.length result ctx buf = some out := by
  have hmax : m.length < max_message_length := hL
  have hrem : m.length % 64 < block_length := by simp only [block_length]; omega
  refine ⟨mask_eq _ (by omega), by omega, hrem, hmax, ?_, ?_, ?_, ?_, ?_⟩
  · intro tail rb
    exact pad_block_checked_eq _ _ _ _ hmax (by simp) (fun _ => hrem)
  · intro rb
    exact pad_block_checked_eq _ _ _ _ hmax (fun _ => rfl) (fun h => absurd rfl h)
  · intro n hn
    simp only [List.mem_cons, List.mem_singleton, List.not_mem_nil, or_false] at hn
    have h0 : 0 < n := by omega
    have h32 : n < 32 := by omega
    refine ⟨h32, by omega, by omega, by omega, fun x => ⟨right_shift_checked_eq x n h32,
      left_shift_checked_eq x _ (by omega), right_rotate_checked_eq x n h0 h32⟩⟩
  · intro x
    exact ⟨F2_checked_eq x, F3_checked_eq x, F4_checked_eq x, F5_checked_eq x⟩
  · obtain ⟨out, hout⟩ := compute_hash_run_some m result ctx buf (by omega)
    exact ⟨out, hout, by rw [compute_hash_checked_eq m result ctx buf hL, hout]⟩

theorem compute_hash_assertions_hold_witness :
    ([97, 98, 99] : List Nat).length < 2 ^ 61 ∧
    (([97, 98, 99] : List Nat).length &&& (0xFFFFFFFFFFFFFFFF ^^^ (block_length - 1))
      = 64 * (([97, 98, 99] : List Nat).length / 64) ∧
    (([97, 98, 99] : List Nat).length + 2 ^ 64 - 64 * (([97, 98, 99] : List Nat).length / 64))
      % 2 ^ 64 = ([97, 98, 99] : List Nat).length % 64 ∧
    ([97, 98, 99] : List Nat).length % 64 < block_length ∧
    ([97, 98, 99] : List Nat).length < max_message_length ∧
    (∀ tail rb, pad_block_checked (Ptr.region tail) (([97, 98, 99] : List Nat).length % 64)
        ([97, 98, 99] : List Nat).length rb
      = some (pad_block (Ptr.region tail) (([97, 98, 99] : List Nat).length % 64)
        ([97, 98, 99] : List Nat).length rb)) ∧
    (∀ rb, pad_block_checked Ptr.null 0 ([97, 98, 99] : List Nat).length rb
      = some (pad_block Ptr.null 0 ([97, 98, 99] : List Nat).length rb)) ∧
    (∀ n, n ∈ [2, 6, 7, 11, 13, 17, 18, 19, 22, 25] →
      n < 32 ∧ (4 * 8 + 256 - n) % 256 = 32 - n ∧ 1 ≤ 32 - n ∧ 32 - n ≤ 31 ∧
      ∀ x, right_shift_checked x n = some (right_shift x n) ∧
        left_shift_checked x (32 - n) = some (left_shift x (32 - n)) ∧
        right_rotate_checked x n = some (right_rotate x n)) ∧
    (∀ x, F2_checked x = some (F2 x) ∧ F3_checked x = some (F3 x) ∧
      F4_checked x = some (F4 x) ∧ F5_checked x = some (F5 x)) ∧
    ∃ out, compute_hash_run (some [97, 98, 99]) ([97, 98, 99] : List Nat).length
        (List.replicate 32 0) (List.replicate 8 0) (List.replicate 64 0) = some out ∧
      compute_hash_checked (some [97, 98, 99]) ([97, 98, 99] : List Nat).length
        (List.replicate 32 0) (List.replicate 8 0) (List.replicate 64 0) = some out) :=
  ⟨by decide, compute_hash_assertions_hold [97, 98, 99] (List.replicate 32 0)
    (List.replicate 8 0) (List.replicate 64 0) (by decide)⟩

/-! ## `right_rotate` bit by bit -/

theorem testBit_word_high (x j : Nat) (hx : x < 2 ^ 32) (hj : 32 ≤ j) : x.testBit j = false := by
  apply Nat.testBit_lt_two_pow
  exact Nat.lt_of_lt_of_le hx (Nat.pow_le_pow_right (by decide) hj)

theorem right_rotate_unfold (x n : Nat) (h0 : 0 < n) (hn : n < 32) :
    right_rotate x n = ((x >>> n) % 2 ^ 32) ||| ((x <<< (32 - n)) % 2 ^ 32) := by
  have e : (4 * 8 + 256 - n) % 256 = 32 - n := by omega
  unfold right_rotate right_shift left_shift bitwise_or
  dsimp only
  rw [e]

theorem right_rotate_testBit (x n i : Nat) (hx : x < 2 ^ 32) (h0 : 0 < n) (hn : n < 32)
    (hi : i < 32) : (right_rotate x n).testBit i = x.testBit ((i + n) % 32) := by
  rw [right_rotate_unfold x n h0 hn, Nat.testBit_or, Nat.testBit_mod_two_pow,
    Nat.testBit_mod_two_pow, Nat.testBit_shiftRight, Nat.testBit_shiftLeft]
  simp only [hi, decide_True, Bool.true_and]
  by_cases hc : i + n < 32
  · have e1 : ¬ (i ≥ 32 - n) := by omega
    have e2 : (i + n) % 32 = n + i := by omega
    simp [e1, e2]
  · have e1 : i ≥ 32 - n := by omega
    have e2 : (i + n) % 32 = i - (32 - n) := by omega
    have e3 : x.testBit (n + i) = false := testBit_word_high x _ hx (by omega)
    simp [e1, e2, e3]

theorem right_rotate_high (x n i : Nat) (h0 : 0 < n) (hn : n < 32) (hi : 32 ≤ i) :
    (right_rotate x n).testBit i = false := by
  rw [right_rotate_unfold x n h0 hn, Nat.testBit_or, Nat.testBit_mod_two_pow,
    Nat.testBit_mod_two_pow]
  have e : ¬ (i < 32) := by omega
  simp [e]

theorem right_rotate_lt (x n : Nat) (h0 : 0 < n) (hn : n < 32) : right_rotate x n < 2 ^ 32 :=
  Nat.lt_pow_two_of_testBit _ (fun i hi => right_rotate_high x n i h0 hn hi)

theorem or_mod_two_pow (a b k : Nat) : (a ||| b) % 2 ^ k = (a % 2 ^ k) ||| (b % 2 ^ k) := by
  apply Nat.eq_of_testBit_eq
  intro i
  simp only [Nat.testBit_or, Nat.testBit_mod_two_pow]
  cases decide (i < k) <;> simp

theorem rotate_halves_disjoint (x n : Nat) (hx : x < 2 ^ 32) (hn : n < 32) :
    (x >>> n) &&& ((x <<< (32 - n)) % 2 ^ 32) = 0 := by
  apply Nat.eq_of_testBit_eq
  intro i
  rw [Nat.testBit_and, Nat.testBit_mod_two_pow, Nat.testBit_shiftRight, Nat.testBit_shiftLeft,
    Nat.zero_testBit]
  by_cases hc : n + i < 32
  · have e1 : ¬ (i ≥ 32 - n) := by omega
    simp [e1]
  · rw [testBit_word_high x _ hx (by omega)]
    simp

theorem or_eq_xor_of_disjoint (a b : Nat) (h : a &&& b = 0) : a ||| b = a ^^^ b := by
  apply Nat.eq_of_testBit_eq
  intro i
  have hi : (a &&& b).testBit i = false := by rw [h, Nat.zero_testBit]
  rw [Nat.testBit_and] at hi
  rw [Nat.testBit_or, Nat.testBit_xor]
  cases ha : a.testBit i <;> cases hb : b.testBit i <;> simp [ha, hb] at hi ⊢

theorem shiftLeft_mod_word (x n : Nat) (h0 : 0 < n) (hn : n < 32) :
    (x <<< (32 - n)) % 2 ^ 32 = (x % 2 ^ n) * 2 ^ (32 - n) := by
  rw [Nat.shiftLeft_eq]
  have e : (2 : Nat) ^ 32 = 2 ^ n * 2 ^ (32 - n) := by
    rw [← Nat.pow_add]
    congr 1
    omega
  rw [e, Nat.mul_mod_mul_right]

theorem rotate_or_eq_add (x n : Nat) (hx : x < 2 ^ 32) (h0 : 0 < n) (hn : n < 32) :
    (x >>> n) ||| ((x <<< (32 - n)) % 2 ^ 32) = (x >>> n) + (x <<< (32 - n)) % 2 ^ 32 := by
  rw [shiftLeft_mod_word x n h0 hn]
  have hlt : x >>> n < 2 ^ (32 - n) := by
    rw [Nat.shiftRight_eq_div_pow]
    apply Nat.div_lt_of_lt_mul
    rw [← Nat.pow_add]
    have e : n + (32 - n) = 32 := by omega
    rw [e]
    exact hx
  rw [Nat.lor_comm, or_eq_add _ _ (32 - n) hlt (Dvd.intro_left _ rfl), Nat.add_comm]

/-- C22: `right_rotate` is a circular right shift. For a 32-bit word `x` and
`0 < n < 32` the result is `(x >> n) | (x << (32 - n))` cut to 32 bits, it is a
32-bit word whose bit `i` is bit `(i + n) mod 32` of `x` for every `i` in
`0..31`, and the two shifted halves share no bit, so that their OR is also their
XOR and their sum. -/
theorem right_rotate_circular (x n : Nat) (hx : x < 2 ^ 32) (h0 : 0 < n) (hn : n < 32) :
    right_rotate x n = ((x >>> n) ||| (x <<< (32 - n))) % 2 ^ 32 ∧
    right_rotate x n < 2 ^ 32 ∧
    (∀ i, i < 32 → (right_rotate x n).testBit i = x.testBit ((i + n) % 32)) ∧
    (x >>> n) &&& ((x <<< (32 - n)) % 2 ^ 32) = 0 ∧
    right_rotate x n = (x >>> n) ^^^ ((x <<< (32 - n)) % 2 ^ 32) ∧
    right_rotate x n = (x >>> n) + (x <<< (32 - n)) % 2 ^ 32 := by
  have hu := right_rotate_unfold x n h0 hn
  have hs : (x >>> n) % 2 ^ 32 = x >>> n := by
    apply Nat.mod_eq_of_lt
    rw [Nat.shiftRight_eq_div_pow]
    exact Nat.lt_of_le_of_lt (Nat.div_le_self _ _) hx
  have hd := rotate_halves_disjoint x n hx hn
  refine ⟨?_, right_rotate_lt x n h0 hn, fun i hi => right_rotate_testBit x n i hx h0 hn hi,
    hd, ?_, ?_⟩
  · rw [hu, or_mod_two_pow]
  · rw [hu, hs]
    exact or_eq_xor_of_disjoint _ _ hd
  · rw [hu, hs]
    exact rotate_or_eq_add x n hx h0 hn

theorem right_rotate_circular_witness :
    ((0x80000001 : Nat) < 2 ^ 32 ∧ 0 < 7 ∧ 7 < 32) ∧
    (right_rotate 0x80000001 7 = ((0x80000001 >>> 7) ||| (0x80000001 <<< (32 - 7))) % 2 ^ 32 ∧
    right_rotate 0x80000001 7 < 2 ^ 32 ∧
    (∀ i, i < 32 → (right_rotate 0x80000001 7).testBit i = (0x80000001 : Nat).testBit ((i + 7) % 32)) ∧
    (0x80000001 >>> 7) &&& ((0x80000001 <<< (32 - 7)) % 2 ^ 32) = 0 ∧
    right_rotate 0x80000001 7 = (0x80000001 >>> 7) ^^^ ((0x80000001 <<< (32 - 7)) % 2 ^ 32) ∧
    right_rotate 0x80000001 7 = (0x80000001 >>> 7) + (0x80000001 <<< (32 - 7)) % 2 ^ 32) :=
  ⟨⟨by decide, by decide, by decide⟩,
    right_rotate_circular 0x80000001 7 (by decide) (by decide) (by decide)⟩

/-! ## The length store under the aliasing rule -/

theorem pad_block_as_loaded_true (data : Ptr) (n L : Nat) (rb : List Nat) :
    pad_block_as_loaded true data n L rb = pad_block data n L rb := by
  cases data <;> rfl

/-- When the loads see the length store, the run is the one recorded by
`compute_hash_calls`. -/
theorem compute_hash_as_loaded_true (data : Option (List Nat)) (L : Nat)
    (result ctx buf : List Nat) :
    compute_hash_as_loaded true data L result ctx buf
      = compute_hash_calls data L result ctx buf := by
  have e : pad_block_as_loaded true = pad_block := by
    funext data n L rb
    exact pad_block_as_loaded_true data n L rb
  unfold compute_hash_as_loaded compute_hash_calls
  rw [e]

theorem stale_eval_56 :
    (compute_hash_as_loaded false (some (List.replicate 56 0x61)) 56 (List.replicate 32 0)
        (List.replicate 8 0) (List.replicate 64 0)).map (fun r => (r.1.1, Call.blocks r.2))
      = some ([0x22, 0x64, 0x49, 0x86, 0x70, 0x9d, 0x5a, 0x68, 0x05, 0x55, 0x55, 0x0f,
          0x34, 0xf4, 0x5f, 0x73, 0x84, 0xb9, 0xfa, 0xa0, 0x44, 0xa9, 0xf7, 0x93,
          0x3a, 0xfd, 0xa3, 0x97, 0xb8, 0x4e, 0x09, 0x16],
        [List.replicate 56 0x61 ++ [0x80] ++ List.replicate 7 0,
         List.replicate 56 0 ++ [0x80] ++ List.replicate 7 0]) := by
  decide!

theorem coherent_eval_56 :
    compute_hash (some (List.replicate 56 0x61)) 56 (List.replicate 32 0)
        (List.replicate 8 0) (List.replicate 64 0)
      = some [0xb3, 0x54, 0x39, 0xa4, 0xac, 0x6f, 0x09, 0x48, 0xb6, 0xd6, 0xf9, 0xe3,
          0xc6, 0xaf, 0x0f, 0x5f, 0x59, 0x0c, 0xe2, 0x0f, 0x1b, 0xde, 0x70, 0x90,
          0xef, 0x79, 0x70, 0x68, 0x6e, 0xc6, 0x73, 0x8a] := by
  decide!

theorem sha256_eval_56 :
    Spec.sha256 (List.replicate 56 0x61)
      = [0xb3, 0x54, 0x39, 0xa4, 0xac, 0x6f, 0x09, 0x48, 0xb6, 0xd6, 0xf9, 0xe3,
          0xc6, 0xaf, 0x0f, 0x5f, 0x59, 0x0c, 0xe2, 0x0f, 0x1b, 0xde, 0x70, 0x90,
          0xef, 0x79, 0x70, 0x68, 0x6e, 0xc6, 0x73, 0x8a] := by
  have h := compute_hash_sha256 (List.replicate 56 0x61) (List.replicate 32 0)
    (List.replicate 8 0) (List.replicate 64 0)
    (fun b hb => by rw [List.eq_of_mem_replicate hb]; decide) (by simp) (by simp) (by simp)
    (by simp)
  rw [show (List.replicate 56 0x61 : List Nat).length = 56 from by simp, coherent_eval_56] at h
  have h2 := Option.some.inj h
  rw [show (List.replicate 32 0 : List Nat).drop 32 = [] from by decide, List.append_nil] at h2
  exact h2.symm

theorem stale_eval_120 :
    (compute_hash_as_loaded false (some (List.replicate 120 0x61)) 120 (List.replicate 32 0)
        (List.replicate 8 0) (List.replicate 64 0)).map (fun r => r.1.1)
      = some [0x3d, 0x33, 0xac, 0xab, 0x38, 0xf4, 0x3e, 0xfa, 0x4d, 0x16, 0x54, 0x48,
          0x36, 0x26, 0x21, 0x59, 0xc9, 0xfe, 0xbc, 0x14, 0xc5, 0x3b, 0xae, 0x7a,
          0x6f, 0x7b, 0xd6, 0x57, 0xd2, 0xe1, 0xf0, 0x3c] := by
  decide!

theorem low_level_eval_120 :
    low_level_hash (List.replicate 120 0x61) (List.replicate 32 0) (List.replicate 8 0)
        (List.replicate 8 0)
      = [0x2f, 0x3d, 0x33, 0x54, 0x32, 0xc7, 0x0b, 0x58, 0x0a, 0xf0, 0xe8, 0xe1,
          0xb3, 0x67, 0x4a, 0x7c, 0x02, 0x0d, 0x68, 0x3a, 0xa5, 0xf7, 0x3a, 0xaa,
          0xed, 0xfd, 0xc5, 0x5a, 0xf9, 0x04, 0xc2, 0x1c] := by
  decide!

theorem low_level_eval_empty :
    low_level_hash [] (List.replicate 32 0) (List.replicate 8 0) (List.replicate 64 0)
      = [0xe3, 0xb0, 0xc4, 0x42, 0x98, 0xfc, 0x1c, 0x14, 0x9a, 0xfb, 0xf4, 0xc8,
          0x99, 0x6f, 0xb9, 0x24, 0x27, 0xae, 0x41, 0xe4, 0x64, 0x9b, 0x93, 0x4c,
          0xa4, 0x95, 0x99, 0x1b, 0x78, 0x52, 0xb8, 0x55] := by
  decide!

theorem compute_hash_null_calls :
    (compute_hash_calls none 0 (List.replicate 32 0) (List.replicate 8 0)
        (List.replicate 64 0)).map Prod.snd
      = some [Call.pad_block Ptr.null 0 0 true, Call.transform_block (List.replicate 64 0)] := by
  decide!

/-- C1 (defect of the code): `compute_hash` on the 56 bytes `0x61` held in a
non-null buffer. The length is stored through a `u64*` into the byte array that
`transform_block` loads through a `word const*`, which the aliasing rule leaves
undefined; when the loads do not see that store, as in an optimising build that
relies on the rule, the digest written is `22644986 709d5a68 …`. The SHA-256
digest of the message is `b35439a4 ac6f0948 …`, and it is what the run writes
when the loads do see the store. -/
theorem compute_hash_stale_length :
    (compute_hash_as_loaded false (some (List.replicate 56 0x61)) 56 (List.replicate 32 0)
        (List.replicate 8 0) (List.replicate 64 0)).map (fun r => r.1.1)
      = some [0x22, 0x64, 0x49, 0x86, 0x70, 0x9d, 0x5a, 0x68, 0x05, 0x55, 0x55, 0x0f,
          0x34, 0xf4, 0x5f, 0x73, 0x84, 0xb9, 0xfa, 0xa0, 0x44, 0xa9, 0xf7, 0x93,
          0x3a, 0xfd, 0xa3, 0x97, 0xb8, 0x4e, 0x09, 0x16] ∧
    Spec.sha256 (List.replicate 56 0x61)
      = [0xb3, 0x54, 0x39, 0xa4, 0xac, 0x6f, 0x09, 0x48, 0xb6, 0xd6, 0xf9, 0xe3,
          0xc6, 0xaf, 0x0f, 0x5f, 0x59, 0x0c, 0xe2, 0x0f, 0x1b, 0xde, 0x70, 0x90,
          0xef, 0x79, 0x70, 0x68, 0x6e, 0xc6, 0x73, 0x8a] ∧
    (compute_hash_as_loaded true (some (List.replicate 56 0x61)) 56 (List.replicate 32 0)
        (List.replicate 8 0) (List.replicate 64 0)).map (fun r => r.1.1)
      = some (Spec.sha256 (List.replicate 56 0x61)) ∧
    (compute_hash_as_loaded false (some (List.replicate 56 0x61)) 56 (List.replicate 32 0)
        (List.replicate 8 0) (List.replicate 64 0)).map (fun r => r.1.1)
      ≠ some (Spec.sha256 (List.replicate 56 0x61)) := by
  have h1 : (compute_hash_as_loaded false (some (List.replicate 56 0x61)) 56
        (List.replicate 32 0) (List.replicate 8 0) (List.replicate 64 0)).map (fun r => r.1.1)
      = some [0x22, 0x64, 0x49, 0x86, 0x70, 0x9d, 0x5a, 0x68, 0x05, 0x55, 0x55, 0x0f,
          0x34, 0xf4, 0x5f, 0x73, 0x84, 0xb9, 0xfa, 0xa0, 0x44, 0xa9, 0xf7, 0x93,
          0x3a, 0xfd, 0xa3, 0x97, 0xb8, 0x4e, 0x09, 0x16] := by
    have h := congrArg (Option.map Prod.fst) stale_eval_56
    rw [Option.map_map] at h
    exact h
  have h3 : (compute_hash_as_loaded true (some (List.replicate 56 0x61)) 56
        (List.replicate 32 0) (List.replicate 8 0) (List.replicate 64 0)).map (fun r => r.1.1)
      = some (Spec.sha256 (List.replicate 56 0x61)) := by
    have h := coherent_eval_56
    unfold compute_hash at h
    rw [← compute_hash_calls_fst, Option.map_map] at h
    rw [compute_hash_as_loaded_true, sha256_eval_56]
    exact h
  refine ⟨h1, sha256_eval_56, h3, ?_⟩
  rw [h1, sha256_eval_56]
  decide

/-- C3 (defect of the code): the empty message presented as a null pointer with
length 0. `compute_hash` writes `da5698be 17b9b469 …`, not the digest
`e3b0c442 98fc1c14 …` of the empty message. -/
theorem compute_hash_empty_null :
    compute_hash none 0 (List.replicate 32 0) (List.replicate 8 0) (List.replicate 64 0)
      = some [0xda, 0x56, 0x98, 0xbe, 0x17, 0xb9, 0xb4, 0x69, 0x62, 0x33, 0x57, 0x99,
          0x77, 0x9f, 0xbe, 0xca, 0x8c, 0xe5, 0xd4, 0x91, 0xc0, 0xd2, 0x62, 0x43,
          0xba, 0xfe, 0xf9, 0xea, 0x18, 0x37, 0xa9, 0xd8] ∧
    compute_hash none 0 (List.replicate 32 0) (List.replicate 8 0) (List.replicate 64 0)
      ≠ some [0xe3, 0xb0, 0xc4, 0x42, 0x98, 0xfc, 0x1c, 0x14, 0x9a, 0xfb, 0xf4, 0xc8,
          0x99, 0x6f, 0xb9, 0x24, 0x27, 0xae, 0x41, 0xe4, 0x64, 0x9b, 0x93, 0x4c,
          0xa4, 0x95, 0x99, 0x1b, 0x78, 0x52, 0xb8, 0x55] := by
  have h1 := compute_hash_null (List.replicate 32 0) (List.replicate 8 0)
    (List.replicate 64 0) (by decide) (by decide) (by decide)
  refine ⟨by rw [h1]; rfl, ?_⟩
  rw [h1]
  decide

/-- C4 (defect of the code): two inputs on which the digest of `compute_hash` is
not the one of the low-level sequence. On the empty message presented as a null
pointer `compute_hash` writes `da5698be …` while the sequence, which pads in the
caller's buffer, gives `e3b0c442 …`. On the 120 bytes `0x61`, when the loads of
`transform_block` do not see the length stored through a `u64*`, `compute_hash`
writes `3d33acab 38f43efa …` while the sequence gives `2f3d3354 32c70b58 …`. -/
theorem compute_hash_low_level_differ :
    (compute_hash none 0 (List.replicate 32 0) (List.replicate 8 0) (List.replicate 64 0)
      = some [0xda, 0x56, 0x98, 0xbe, 0x17, 0xb9, 0xb4, 0x69, 0x62, 0x33, 0x57, 0x99,
          0x77, 0x9f, 0xbe, 0xca, 0x8c, 0xe5, 0xd4, 0x91, 0xc0, 0xd2, 0x62, 0x43,
          0xba, 0xfe, 0xf9, 0xea, 0x18, 0x37, 0xa9, 0xd8] ∧
    low_level_hash [] (List.replicate 32 0) (List.replicate 8 0) (List.replicate 64 0)
      = [0xe3, 0xb0, 0xc4, 0x42, 0x98, 0xfc, 0x1c, 0x14, 0x9a, 0xfb, 0xf4, 0xc8,
          0x99, 0x6f, 0xb9, 0x24, 0x27, 0xae, 0x41, 0xe4, 0x64, 0x9b, 0x93, 0x4c,
          0xa4, 0x95, 0x99, 0x1b, 0x78, 0x52, 0xb8, 0x55]) ∧
    ((compute_hash_as_loaded false (some (List.replicate 120 0x61)) 120 (List.replicate 32 0)
        (List.replicate 8 0) (List.replicate 64 0)).map (fun r => r.1.1)
      = some [0x3d, 0x33, 0xac, 0xab, 0x38, 0xf4, 0x3e, 0xfa, 0x4d, 0x16, 0x54, 0x48,
          0x36, 0x26, 0x21, 0x59, 0xc9, 0xfe, 0xbc, 0x14, 0xc5, 0x3b, 0xae, 0x7a,
          0x6f, 0x7b, 0xd6, 0x57, 0xd2, 0xe1, 0xf0, 0x3c] ∧
    low_level_hash (List.replicate 120 0x61) (List.replicate 32 0) (List.replicate 8 0)
        (List.replicate 8 0)
      = [0x2f, 0x3d, 0x33, 0x54, 0x32, 0xc7, 0x0b, 0x58, 0x0a, 0xf0, 0xe8, 0xe1,
          0xb3, 0x67, 0x4a, 0x7c, 0x02, 0x0d, 0x68, 0x3a, 0xa5, 0xf7, 0x3a, 0xaa,
          0xed, 0xfd, 0xc5, 0x5a, 0xf9, 0x04, 0xc2, 0x1c]) := by
  have h1 := compute_hash_null (List.replicate 32 0) (List.replicate 8 0)
    (List.replicate 64 0) (by decide) (by decide) (by decide)
  exact ⟨⟨by rw [h1]; rfl, low_level_eval_empty⟩, stale_eval_120, low_level_eval_120⟩

/-- C14 (defect of the code): the blocks `transform_block` loads on the 56 bytes
`0x61` when its loads do not see the length stored through a `u64*`. The second
padding block is 56 zero bytes followed by `0x80` and seven zero bytes, the
bytes 56..63 of the block before it, so that the blocks absorbed do not make up
`m ++ [0x80] ++ (k zero bytes) ++ be64 (8 * L)` for any `k`. -/
theorem compute_hash_absorbs_stale :
    (compute_hash_as_loaded false (some (List.replicate 56 0x61)) 56 (List.replicate 32 0)
        (List.replicate 8 0) (List.replicate 64 0)).map (fun r => Call.blocks r.2)
      = some [List.replicate 56 0x61 ++ [0x80] ++ List.replicate 7 0,
          List.replicate 56 0 ++ [0x80] ++ List.replicate 7 0] ∧
    Spec.be64 (8 * 56) = [0, 0, 0, 0, 0, 0, 0x01, 0xc0] ∧
    ¬ ∃ k, [List.replicate 56 0x61 ++ [0x80] ++ List.replicate 7 0,
          List.replicate 56 0 ++ [0x80] ++ List.replicate 7 0].flatten
        = List.replicate 56 0x61 ++ [0x80] ++ List.replicate k 0 ++ Spec.be64 (8 * 56) := by
  refine ⟨?_, by decide, ?_⟩
  · have h := congrArg (Option.map Prod.snd) stale_eval_56
    rw [Option.map_map] at h
    exact h
  · rintro ⟨k, hk⟩
    have hl := congrArg List.length hk
    simp [Spec.be64] at hl
    have hk63 : k = 63 := by omega
    subst hk63
    have h120 := congrArg (fun l => l.getD 120 1) hk
    revert h120
    decide

/-- C15 (defect of the code): the padding of the empty message presented as a
null pointer with length 0. There is one call of `pad_block`, on the null
pointer (Shape C), and the one block absorbed is 64 zero bytes: it does not
begin with `0x80`. -/
theorem compute_hash_null_padding :
    (compute_hash_calls none 0 (List.replicate 32 0) (List.replicate 8 0)
        (List.replicate 64 0)).map Prod.snd
      = some [Call.pad_block Ptr.null 0 0 true, Call.transform_block (List.replicate 64 0)] ∧
    Call.pads [Call.pad_block Ptr.null 0 0 true, Call.transform_block (List.replicate 64 0)]
      = [(true, true)] ∧
    Call.blocks [Call.pad_block Ptr.null 0 0 true, Call.transform_block (List.replicate 64 0)]
      = [List.replicate 64 0] ∧
    (List.replicate 64 0).head? ≠ some 0x80 := by
  exact ⟨compute_hash_null_calls, by decide, by decide, by decide⟩

end Sha256
